import Mathlib

/-!
# Verification of the SplitOrderLists repository

A shallow embedding, in Lean 4, of the hazard-pointer SMR subsystem and the
split-ordered hash list of `src/hazard_pointer.hpp` (the single source file
contains both the hazard-pointer header and the solist header), together with
proofs and refutations of the specification claims.

Modelling conventions:
* machine integers (`uint32_t`, `unsigned`) are `Nat` with explicit `% 2^32`
  where overflow matters;
* pointers are `Nat` addresses, heaps are functions `Nat → Option node`;
* fallible code and C++ undefined behaviour (out-of-bounds access, failed
  `assert`, missing `return`, modulo by zero, overflowing array writes)
  return `none` in an `Option`;
* unbounded C++ loops are modelled with an explicit fuel argument; `none`
  at every fuel means the loop does not terminate;
* the concurrent primitives are executed sequentially (single thread), so a
  CAS succeeds exactly when the location still holds the expected value.

The `mark_ptr_type` cell and `reverse_hasht_bits` are external collaborators
declared but not defined in the source; they are modelled from the contract
in the specification (§6): a tagged pointer whose low bit is the mark, and a
pure 32-bit bit reversal.
-/

/-- `2^32`, the modulus of the `uint32_t` arithmetic used throughout. -/
def U32 : Nat := 2 ^ 32

/-- Modelled from the spec: `reverse_hasht_bits` is declared in the source but
defined externally; §6 specifies it as pure bit reversal of a `u32`.
`revN n x` reverses the low `n` bits of `x` (bit `i` goes to bit `n-1-i`):
the low bit is peeled off and becomes the new top bit. -/
def revN : Nat → Nat → Nat
  | 0, _ => 0
  | n + 1, x => x % 2 * 2 ^ n + revN n (x / 2)

/-- 32-bit bit reversal: the model of `reverse_hasht_bits`. -/
def rev32 (x : Nat) : Nat := revN 32 x

/-- `sol_node_key`: the split-order key of a data node. -/
def sol_node_key (hashv : Nat) : Nat := rev32 hashv ||| 1

theorem revN_lt (n x : Nat) : revN n x < 2 ^ n := by
  induction n generalizing x with
  | zero => simp [revN]
  | succ n ih =>
    have h2 : x % 2 < 2 := Nat.mod_lt _ (by omega)
    have hr := ih (x / 2)
    have hle : x % 2 * 2 ^ n ≤ 2 ^ n := by
      calc x % 2 * 2 ^ n ≤ 1 * 2 ^ n := Nat.mul_le_mul_right _ (by omega)
        _ = 2 ^ n := one_mul _
    calc revN (n + 1) x = x % 2 * 2 ^ n + revN n (x / 2) := rfl
      _ < 2 ^ n + 2 ^ n := by omega
      _ = 2 ^ (n + 1) := by ring

theorem revN_zero (n : Nat) : revN n 0 = 0 := by
  induction n with
  | zero => rfl
  | succ n ih => simp [revN, ih]

/-- Bit reversal is injective on `n`-bit numbers. -/
theorem revN_inj {n x y : Nat} (hx : x < 2 ^ n) (hy : y < 2 ^ n)
    (h : revN n x = revN n y) : x = y := by
  induction n generalizing x y with
  | zero => omega
  | succ n ih =>
    have hrx := revN_lt n (x / 2)
    have hry := revN_lt n (y / 2)
    have hx2 : x % 2 < 2 := Nat.mod_lt _ (by omega)
    have hy2 : y % 2 < 2 := Nat.mod_lt _ (by omega)
    have huf : x % 2 * 2 ^ n + revN n (x / 2) = y % 2 * 2 ^ n + revN n (y / 2) := h
    have hp : (0:Nat) < 2 ^ n := Nat.pos_pow_of_pos n (by omega)
    have hmod : x % 2 = y % 2 := by
      have hx1 : x % 2 = 0 ∨ x % 2 = 1 := by omega
      have hy1 : y % 2 = 0 ∨ y % 2 = 1 := by omega
      rcases hx1 with h1 | h1 <;> rcases hy1 with h2 | h2 <;>
        rw [h1, h2] at huf <;> simp at huf ⊢ <;> omega
    have hrev : revN n (x / 2) = revN n (y / 2) := by
      rw [hmod] at huf; omega
    have hxd : x / 2 < 2 ^ n := by
      have : 2 ^ (n + 1) = 2 ^ n * 2 := by ring
      omega
    have hyd : y / 2 < 2 ^ n := by
      have : 2 ^ (n + 1) = 2 ^ n * 2 := by ring
      omega
    have hdiv := ih hxd hyd hrev
    omega

/-- The low bit of the reversal of `n ≥ 1` bits is the bit `n-1` of the input. -/
theorem revN_mod_two (n x : Nat) (hn : 1 ≤ n) :
    revN n x % 2 = x / 2 ^ (n - 1) % 2 := by
  induction n generalizing x with
  | zero => omega
  | succ n ih =>
    rcases Nat.eq_zero_or_pos n with h0 | hpos
    · subst h0
      simp [revN, revN_zero]
    · have hstep : revN (n + 1) x % 2 = revN n (x / 2) % 2 := by
        show (x % 2 * 2 ^ n + revN n (x / 2)) % 2 = _
        have h2 : (2:Nat) ∣ x % 2 * 2 ^ n := by
          rcases n with _ | m
          · omega
          · exact Dvd.dvd.mul_left (dvd_pow_self 2 (Nat.succ_ne_zero m)) _
        omega
      rw [hstep, ih _ hpos]
      congr 1
      rw [Nat.div_div_eq_div_mul]
      congr 1
      have : n + 1 - 1 = n := by omega
      rw [this]
      have hn1 : n - 1 + 1 = n := by omega
      calc 2 * 2 ^ (n - 1) = 2 ^ (n - 1 + 1) := by ring
        _ = 2 ^ n := by rw [hn1]

/-- Numbers below `2^31` have even 32-bit reversal (their top bit is clear). -/
theorem rev32_even_of_lt {x : Nat} (hx : x < 2 ^ 31) : rev32 x % 2 = 0 := by
  have h := revN_mod_two 32 x (by omega)
  have h0 : x / 2 ^ 31 = 0 := Nat.div_eq_of_lt hx
  show revN 32 x % 2 = 0
  rw [h]
  have h31 : (32:Nat) - 1 = 31 := by omega
  rw [h31, h0]

/-- Keeping only the low `k` bits can only decrease the reversal: the surviving
bits land on the same positions, the rest vanish. -/
theorem revN_mod_pow_le (n k x : Nat) : revN n (x % 2 ^ k) ≤ revN n x := by
  induction n generalizing k x with
  | zero => simp [revN]
  | succ n ih =>
    rcases Nat.eq_zero_or_pos k with h0 | hk
    · subst h0
      simp [revN_zero, Nat.mod_one, revN]
    · have hk1 : k - 1 + 1 = k := by omega
      have hmod2 : x % 2 ^ k % 2 = x % 2 := by
        apply Nat.mod_mod_of_dvd
        exact dvd_pow_self 2 (by omega)
      have hdiv : x % 2 ^ k / 2 = x / 2 % 2 ^ (k - 1) := by
        have h1 : (2:Nat) ^ k = 2 * 2 ^ (k - 1) := by
          calc (2:Nat) ^ k = 2 ^ (k - 1 + 1) := by rw [hk1]
            _ = 2 * 2 ^ (k - 1) := by ring
        rw [h1]
        exact Nat.mod_mul_right_div_self x 2 (2 ^ (k - 1))
      show x % 2 ^ k % 2 * 2 ^ n + revN n (x % 2 ^ k / 2) ≤ x % 2 * 2 ^ n + revN n (x / 2)
      rw [hmod2, hdiv]
      have := ih (k - 1) (x / 2)
      omega

/-- The bucket key of the slot a hash maps to never exceeds the hash's own
reversed key: `slot = h % 2^k` keeps a low-bit prefix of `h`. -/
theorem rev32_slot_le (k h : Nat) : rev32 (h % 2 ^ k) ≤ rev32 h :=
  revN_mod_pow_le 32 k h

/-- Setting the low bit of an even number just adds one. -/
theorem lor_one_of_even {x : Nat} (hx : x % 2 = 0) : x ||| 1 = x + 1 := by
  apply Nat.eq_of_testBit_eq
  intro i
  cases i with
  | zero =>
    rw [Nat.testBit_lor]
    rw [Nat.testBit_zero, Nat.testBit_zero, Nat.testBit_zero]
    simp
    omega
  | succ i =>
    rw [Nat.testBit_lor]
    rw [Nat.testBit_succ, Nat.testBit_succ, Nat.testBit_succ]
    have h1 : (1:Nat) / 2 = 0 := by omega
    rw [h1]
    have h2 : (x + 1) / 2 = x / 2 := by omega
    rw [h2]
    simp [Nat.zero_testBit]

theorem sol_node_key_odd (h : Nat) : sol_node_key h % 2 = 1 := by
  unfold sol_node_key
  rcases Nat.eq_zero_or_pos (rev32 h % 2) with he | ho
  · rw [lor_one_of_even he]; omega
  · have h2 : rev32 h % 2 < 2 := Nat.mod_lt _ (by omega)
    have h1 : rev32 h % 2 = 1 := by omega
    have : rev32 h ||| 1 = rev32 h := by
      apply Nat.eq_of_testBit_eq
      intro i
      cases i with
      | zero =>
        rw [Nat.testBit_lor, Nat.testBit_zero, Nat.testBit_zero]
        simp [h1]
      | succ i =>
        rw [Nat.testBit_lor, Nat.testBit_succ, Nat.testBit_succ]
        have hh : (1:Nat) / 2 = 0 := by omega
        rw [hh]
        simp [Nat.zero_testBit]
    rw [this]; omega

theorem sol_node_key_of_even {h : Nat} (he : rev32 h % 2 = 0) :
    sol_node_key h = rev32 h + 1 := lor_one_of_even he

/-! ## Hazard-pointer chunks and the domain pool (C1)

Model of `hazp_chunk_generic::reserve_impl`, the domain's `pools_reserve`,
`pools_new` and `reserve` (`src/hazard_pointer.hpp` lines 137-173, 303-329,
380-390).  A chunk is its block size, its 32-bit reservation bitmap and its
slot vector of pointer words. -/

/-- `NUM_HAZP_CHUNK_BLOCKS` in the source. -/
def NUM_HAZP_CHUNK_BLOCKS : Nat := 32

/-- `FULL = UINT32_MAX`. -/
def FULL : Nat := U32 - 1

structure HazpChunk where
  blk_size : Nat
  bitmap : Nat
  haz_ptrs : List Nat
deriving Repr, DecidableEq

/-- The inner scan of `reserve_impl`: starting from bit `ix` (mask `2^ix`),
advance while the bit is set and `ix < 32`.  The fuel (33 suffices) only
bounds the structurally decreasing scan. -/
def lcb : Nat → Nat → Nat → Nat
  | 0, _, ix => ix
  | f + 1, e, ix => if e &&& 2 ^ ix ≠ 0 ∧ ix < NUM_HAZP_CHUNK_BLOCKS then lcb f e (ix + 1) else ix

/-- `reserve_impl(len)`: `none` models the C++ `nullptr` result (length
mismatch, or all 32 sub-blocks reserved).  Sequentially the CAS succeeds, so
on success the bitmap gains the scanned bit and the offset of the reserved
sub-block is returned. -/
def reserve_impl (c : HazpChunk) (len : Nat) : Option (HazpChunk × Nat) :=
  if len ≠ c.blk_size then none
  else if c.bitmap = FULL then none
  else
    let ix := lcb 33 c.bitmap 0
    if ix < NUM_HAZP_CHUNK_BLOCKS then
      some ({ c with bitmap := c.bitmap ||| 2 ^ ix }, ix * c.blk_size)
    else none

/-- `pools_reserve`, faithfully including its loop:
`for(auto p = head; nullptr != p && nullptr == reservation; )` has no step
expression and the body never advances `p`, so when `reserve_impl` fails the
same chunk is retried.  The outer `Option` is termination within the fuel;
the inner `Option` is the returned pointer (`none` = `nullptr`). -/
def pools_reserve : Nat → List HazpChunk → Nat → Option (Option (List HazpChunk × Nat))
  | 0, _, _ => none
  | f + 1, chunks, blocklen =>
    match chunks with
    | [] => some none
    | c :: rest =>
      match reserve_impl c blocklen with
      | some (c2, off) => some (some (c2 :: rest, off))
      | none => pools_reserve f (c :: rest) blocklen

/-- `pools_new`: prepend a fresh chunk (all slots null, empty bitmap). -/
def pools_new (chunks : List HazpChunk) (blocklen : Nat) : List HazpChunk :=
  { blk_size := blocklen, bitmap := 0,
    haz_ptrs := List.replicate (blocklen * NUM_HAZP_CHUNK_BLOCKS) 0 } :: chunks

/-- `hazard_pointer_domain::reserve`: try the pool, on `nullptr` prepend a
new chunk and retry; `assert(nullptr != reservation)` at the end.  `none`
means the call does not terminate (or the assert fails). -/
def domain_reserve (fuel : Nat) (chunks : List HazpChunk) (blocklen : Nat) :
    Option (List HazpChunk × Nat) :=
  match pools_reserve fuel chunks blocklen with
  | none => none
  | some (some r) => some r
  | some none =>
    match pools_reserve fuel (pools_new chunks blocklen) blocklen with
    | none => none
    | some (some r) => some r
    | some none => none

/-- C1: REFUTED — the claim says `reserve` always terminates, walking the
chunk list and prepending a new chunk when no existing chunk can satisfy the
request.  In the source, `pools_reserve`'s loop never advances `p` to
`p->next` (contrast `pools_release`, which does), so as soon as the chunk at
the head of the list cannot satisfy the request (full bitmap, or mismatched
block size), `reserve_impl` returns `nullptr` forever and the loop spins:
`reserve` does not terminate, and no second chunk is ever allocated. -/
theorem c1_reserve_diverges (c : HazpChunk) (rest : List HazpChunk) (len fuel : Nat)
    (h : reserve_impl c len = none) :
    domain_reserve fuel (c :: rest) len = none := by
  have hp : ∀ f, pools_reserve f (c :: rest) len = none := by
    intro f
    induction f with
    | zero => rfl
    | succ f ih => simp [pools_reserve, h, ih]
  unfold domain_reserve
  rw [hp fuel]

/-- Witness for C1: a concrete full head chunk (the state after 32 successful
reservations of block size 1); the 33rd `reserve` call never returns. -/
theorem c1_reserve_diverges_witness :
    reserve_impl ⟨1, FULL, List.replicate 32 0⟩ 1 = none ∧
      domain_reserve 50 [⟨1, FULL, List.replicate 32 0⟩] 1 = none :=
  ⟨by decide, c1_reserve_diverges ⟨1, FULL, List.replicate 32 0⟩ [] 1 50 (by decide)⟩

/-- Supporting fact for C1's failing input: 32 successive reservations on a
fresh chunk of block size 1 do fill its bitmap, producing the full chunk. -/
def fill_chunk : Nat → HazpChunk → Option HazpChunk
  | 0, c => some c
  | n + 1, c =>
    match reserve_impl c c.blk_size with
    | some (c2, _) => fill_chunk n c2
    | none => none

theorem chunk_full_after_32 :
    (fill_chunk 32 ⟨1, 0, List.replicate 32 0⟩).map (fun c => c.bitmap) = some FULL := by
  decide

/-! ## Hazard-pointer snapshots (C5)

Model of `hazard_pointers_snapshot` (`src/hazard_pointer.hpp` lines
499-556): collect all slot words of the pool, sort them, advance `begin`
towards the end of the null prefix by the source's bisection do-while, strip
the mark bits from `[begin, end)`, and let `search` be membership in that
range (`std::binary_search` on a sorted range is exactly membership; the
range stays sorted because clearing the low bit is monotone). -/

/-- `w & mark_bits_maskoff`: clear the low (mark) bit of a word. -/
def clear_mark (w : Nat) : Nat := 2 * (w / 2)

theorem clear_mark_mono {a b : Nat} (h : a ≤ b) : clear_mark a ≤ clear_mark b :=
  Nat.mul_le_mul_left 2 (Nat.div_le_div_right h)

theorem clear_mark_eq_zero_iff (w : Nat) : clear_mark w = 0 ↔ w ≤ 1 := by
  unfold clear_mark
  omega

/-- One iteration of the bisection: `halfc = count >> 1`; if `begin[halfc]`
is null, move `begin` up by `halfc` and shrink `count` by `halfc`, else
halve `count`. -/
def bisect_step (arr : List Nat) (b c : Nat) : Nat × Nat :=
  let halfc := c / 2
  if arr.getD (b + halfc) 0 = 0 then (b + halfc, c - halfc) else (b, halfc)

/-- The do-while bisection loop: run the body, repeat while `count > 1`. -/
def bisect_go (arr : List Nat) : Nat → Nat → Nat → Option (Nat × Nat)
  | 0, _, _ => none
  | f + 1, b, c =>
    let s := bisect_step arr b c
    if s.2 > 1 then bisect_go arr f s.1 s.2 else some s

structure Snapshot where
  arr : List Nat
  begin_idx : Nat
deriving Repr, DecidableEq

/-- Snapshot construction from the collected pool words.  An empty pool makes
the do-while read `begin[0]` out of bounds (C++ UB), hence the guard. -/
def mkSnapshot (ws : List Nat) : Option Snapshot :=
  if ws.length = 0 then none
  else
    let sorted := List.insertionSort (· ≤ ·) ws
    match bisect_go sorted (ws.length + 1) 0 ws.length with
    | none => none
    | some (b, _) => some ⟨sorted, b⟩

/-- The `[begin, end)` range after the mark bits have been stripped. -/
def snap_window (s : Snapshot) : List Nat := (s.arr.drop s.begin_idx).map clear_mark

/-- `search(p)`: `std::binary_search(begin, end, ptr)`, i.e. membership in
the (sorted) window. -/
def snap_search (s : Snapshot) (p : Nat) : Bool := decide (p ∈ snap_window s)

/-- The slot words of the whole pool, chunk by chunk from the head
(`hazard_pointers_snapshot`'s two traversals of `pools`). -/
def snapshot_words (chunks : List HazpChunk) : List Nat :=
  (chunks.map (fun c => c.haz_ptrs)).flatten

/-- C5 counterexample: REFUTED as stated.  A domain with one chunk of 32
still-null slots (any freshly created pool) yields a snapshot whose window
still contains a null — the bisection moves `begin` onto the *last* null,
not past it (the source's own comment says "move begin to the last entry
with a nullptr value") — so `search(nullptr)` returns `true`, where the
claim requires `false`. -/
theorem c5_counterexample :
    (mkSnapshot (snapshot_words [⟨1, 0, List.replicate 32 0⟩])).map
        (fun s => snap_search s 0) = some true := by
  decide

/-- In a sorted list of naturals all zeros form a prefix: the first
`count 0` entries are zero. -/
theorem sorted_take_count_zero {arr : List Nat} (hs : List.Sorted (· ≤ ·) arr) :
    arr.take (arr.count 0) = List.replicate (arr.count 0) 0 := by
  induction arr with
  | nil => simp
  | cons a t ih =>
    rw [List.sorted_cons] at hs
    obtain ⟨hall, hst⟩ := hs
    by_cases ha : a = 0
    · subst ha
      have hc : (0 :: t).count 0 = t.count 0 + 1 := by simp
      rw [hc]
      simp [List.replicate_succ, ih hst]
    · have h0 : 0 ∉ (a :: t) := by
        intro hmem
        rcases List.mem_cons.mp hmem with h | h
        · exact ha h.symm
        · have := hall 0 h
          omega
      have hc : (a :: t).count 0 = 0 := List.count_eq_zero.mpr h0
      simp [hc]

/-- Past the zero prefix of a sorted list every entry is positive. -/
theorem sorted_drop_count_zero_pos {arr : List Nat} (hs : List.Sorted (· ≤ ·) arr) :
    ∀ x ∈ arr.drop (arr.count 0), 0 < x := by
  induction arr with
  | nil => simp
  | cons a t ih =>
    rw [List.sorted_cons] at hs
    obtain ⟨hall, hst⟩ := hs
    by_cases ha : a = 0
    · subst ha
      have hc : (0 :: t).count 0 = t.count 0 + 1 := by simp
      rw [hc]
      simpa using ih hst
    · have h0 : 0 ∉ (a :: t) := by
        intro hmem
        rcases List.mem_cons.mp hmem with h | h
        · exact ha h.symm
        · have := hall 0 h
          omega
      have hc : (a :: t).count 0 = 0 := List.count_eq_zero.mpr h0
      rw [hc]
      intro x hx
      by_contra hx0
      have : x = 0 := by omega
      subst this
      exact h0 (by simpa using hx)

/-- Index form: in a sorted list, entry `i` is zero iff `i` lies in the
zero prefix. -/
theorem sorted_getD_zero_iff {arr : List Nat} (hs : List.Sorted (· ≤ ·) arr)
    {i : Nat} (hi : i < arr.length) :
    (arr.getD i 0 = 0 ↔ i < arr.count 0) := by
  have hn0 : arr.count 0 ≤ arr.length := List.count_le_length _ _
  constructor
  · intro h0
    by_contra hge
    have hge' : arr.count 0 ≤ i := by omega
    have hdrop : arr.getD i 0 ∈ arr.drop (arr.count 0) := by
      have : arr[i]? = (arr.drop (arr.count 0))[i - arr.count 0]? := by
        rw [List.getElem?_drop]
        congr 1
        omega
      have hsome : arr[i]? = some (arr.getD i 0) := by
        rw [List.getD_eq_getElem?_getD]
        rcases List.getElem?_eq_some_iff.mpr ⟨hi, rfl⟩ with h
        simp [List.getElem?_eq_getElem hi]
      rw [this] at hsome
      exact List.getElem?_mem hsome
    have := sorted_drop_count_zero_pos hs _ hdrop
    omega
  · intro hlt
    have : arr[i]? = (arr.take (arr.count 0))[i]? := by
      rw [List.getElem?_take]
      simp [hlt]
    rw [sorted_take_count_zero hs] at this
    rw [List.getD_eq_getElem?_getD, this]
    simp [List.getElem?_replicate, hlt]

/-- Invariant induction for the bisection do-while: starting from any window
`[b, b+c)` that contains the last zero (when zeros exist) or has `b = 0`
(when none do), the loop terminates within `c` fuel and `begin` ends exactly
on the last zero entry — not past it. -/
theorem bisect_go_spec {arr : List Nat} (hs : List.Sorted (· ≤ ·) arr) :
    ∀ f b c, 1 ≤ c → b + c ≤ arr.length → c ≤ f →
      (arr.count 0 = 0 → b = 0) →
      (1 ≤ arr.count 0 → b ≤ arr.count 0 - 1 ∧ arr.count 0 - 1 < b + c) →
      ∃ r, bisect_go arr f b c = some r ∧
        r.1 = (if arr.count 0 = 0 then 0 else arr.count 0 - 1) := by
  intro f
  induction f with
  | zero => omega
  | succ f ih =>
    intro b c hc hbc hcf h4 h5
    have hhalf : c / 2 < c := Nat.div_lt_self (by omega) (by omega)
    have hidx : b + c / 2 < arr.length := by omega
    have hiff := sorted_getD_zero_iff hs hidx
    have hunf : bisect_go arr (f + 1) b c =
        (if (bisect_step arr b c).2 > 1 then
          bisect_go arr f (bisect_step arr b c).1 (bisect_step arr b c).2
        else some (bisect_step arr b c)) := rfl
    rw [hunf]
    by_cases hT : arr.getD (b + c / 2) 0 = 0
    · -- null at begin[halfc]: advance begin
      have hlt : b + c / 2 < arr.count 0 := hiff.mp hT
      have hn0 : 1 ≤ arr.count 0 := by omega
      have hstep : bisect_step arr b c = (b + c / 2, c - c / 2) := by
        show (if arr.getD (b + c / 2) 0 = 0 then (b + c / 2, c - c / 2)
              else (b, c / 2)) = _
        rw [if_pos hT]
      rw [hstep]
      by_cases hrec : c - c / 2 > 1
      · have hhp : 1 ≤ c / 2 := by omega
        have hres := ih (b + c / 2) (c - c / 2) (by omega) (by omega) (by omega)
          (by omega) (by
            intro _
            refine ⟨by omega, ?_⟩
            have := (h5 hn0).2
            omega)
        obtain ⟨r, hr, hr1⟩ := hres
        exact ⟨r, by simpa [hrec] using hr, hr1⟩
      · refine ⟨(b + c / 2, c - c / 2), by simp [hrec], ?_⟩
        have h52 := (h5 hn0).2
        rw [if_neg (by omega)]
        simp only
        omega
    · -- non-null: shrink count
      have hge : arr.count 0 ≤ b + c / 2 := by
        by_contra hx
        exact hT (hiff.mpr (by omega))
      have hstep : bisect_step arr b c = (b, c / 2) := by
        show (if arr.getD (b + c / 2) 0 = 0 then (b + c / 2, c - c / 2)
              else (b, c / 2)) = _
        rw [if_neg hT]
      rw [hstep]
      rcases Nat.eq_zero_or_pos (arr.count 0) with hn0 | hn0
      · -- no zeros anywhere: begin stays 0
        have hb0 : b = 0 := h4 hn0
        by_cases hrec : c / 2 > 1
        · have hres := ih b (c / 2) (by omega) (by omega) (by omega)
            (fun _ => hb0) (by omega)
          obtain ⟨r, hr, hr1⟩ := hres
          exact ⟨r, by simpa [hrec] using hr, hr1⟩
        · refine ⟨(b, c / 2), by simp [hrec], ?_⟩
          rw [if_pos hn0]
          simpa using hb0
      · -- zeros exist: the window still brackets the last zero
        have h51 := (h5 hn0).1
        have hhp : 1 ≤ c / 2 := by
          by_contra hh
          have hc2 : c / 2 = 0 := by omega
          omega
        by_cases hrec : c / 2 > 1
        · have hres := ih b (c / 2) (by omega) (by omega) (by omega)
            (by omega) (by
              intro _
              exact ⟨h51, by omega⟩)
          obtain ⟨r, hr, hr1⟩ := hres
          exact ⟨r, by simpa [hrec] using hr, hr1⟩
        · refine ⟨(b, c / 2), by simp [hrec], ?_⟩
          rw [if_neg (by omega)]
          simp only
          omega

/-- Full characterization of the constructed snapshot: the array is the
sorted pool words and `begin` lands on the last null (when one exists). -/
theorem mkSnapshot_eq (ws : List Nat) (hws : ws ≠ []) :
    mkSnapshot ws = some ⟨List.insertionSort (· ≤ ·) ws,
      if ws.count 0 = 0 then 0 else ws.count 0 - 1⟩ := by
  have hlen : ws.length ≠ 0 := fun hx => hws (List.length_eq_zero.mp hx)
  have hperm : (List.insertionSort (· ≤ ·) ws).Perm ws := List.perm_insertionSort _ _
  have hsorted : List.Sorted (· ≤ ·) (List.insertionSort (· ≤ ·) ws) :=
    List.sorted_insertionSort _ _
  have hlenarr : (List.insertionSort (· ≤ ·) ws).length = ws.length := hperm.length_eq
  have hcount : (List.insertionSort (· ≤ ·) ws).count 0 = ws.count 0 := hperm.count_eq 0
  have hn0le : (List.insertionSort (· ≤ ·) ws).count 0 ≤ ws.length := by
    have := List.count_le_length 0 (List.insertionSort (· ≤ ·) ws)
    omega
  obtain ⟨r, hr, hr1⟩ := bisect_go_spec hsorted (ws.length + 1) 0 ws.length
    (by omega) (by omega) (by omega) (by omega)
    (by intro h1; exact ⟨by omega, by omega⟩)
  obtain ⟨b2, c2⟩ := r
  simp only at hr1
  simp only [mkSnapshot]
  rw [if_neg hlen, hr]
  simp only
  rw [hr1, hcount]

/-- Dropping up to the last zero of a sorted list leaves exactly one zero in
front of the positive suffix. -/
theorem sorted_drop_pred_count {arr : List Nat} (hs : List.Sorted (· ≤ ·) arr)
    (hpos : 1 ≤ arr.count 0) :
    arr.drop (arr.count 0 - 1) = 0 :: arr.drop (arr.count 0) := by
  have htake := sorted_take_count_zero hs
  have h := List.take_append_drop (arr.count 0) arr
  rw [htake] at h
  have hlen := List.count_le_length 0 arr
  generalize hd : arr.drop (arr.count 0) = d at h ⊢
  generalize hn : arr.count 0 = n0 at h hpos ⊢
  rw [← h]
  rw [List.drop_append_of_le_length (by rw [List.length_replicate]; omega)]
  rw [List.drop_replicate]
  have h1 : n0 - (n0 - 1) = 1 := by omega
  rw [h1]
  rfl

/-- C5 amended: after construction, `begin` points AT the last null of the
sorted array when any null was captured (not past the null prefix, as the
claim states); consequently `search(nullptr)` returns `true` whenever a slot
was null (or held a marked null `0x1`), while for every non-null `p` the
claimed equivalence does hold: `search(p)` is true iff `p` is one of the
captured, mark-stripped hazard-pointer values. -/
theorem c5_snapshot_amended (ws : List Nat) (hws : ws ≠ []) :
    ∃ snap, mkSnapshot ws = some snap ∧
      snap.begin_idx = (if ws.count 0 = 0 then 0 else ws.count 0 - 1) ∧
      (∀ p, p ≠ 0 → (snap_search snap p = true ↔ p ∈ ws.map clear_mark)) ∧
      (snap_search snap 0 = true ↔ (0 ∈ ws ∨ 1 ∈ ws)) := by
  have hperm : (List.insertionSort (· ≤ ·) ws).Perm ws := List.perm_insertionSort _ _
  have hsorted : List.Sorted (· ≤ ·) (List.insertionSort (· ≤ ·) ws) :=
    List.sorted_insertionSort _ _
  have hcount : (List.insertionSort (· ≤ ·) ws).count 0 = ws.count 0 := hperm.count_eq 0
  have hmapperm : ((List.insertionSort (· ≤ ·) ws).map clear_mark).Perm
      (ws.map clear_mark) := hperm.map _
  refine ⟨_, mkSnapshot_eq ws hws, rfl, ?_, ?_⟩
  · intro p hp
    rcases Nat.eq_zero_or_pos (ws.count 0) with hn0 | hn0
    · simp only [snap_search, snap_window, if_pos hn0, List.drop_zero]
      rw [decide_eq_true_iff]
      exact hmapperm.mem_iff
    · simp only [snap_search, snap_window, if_neg (by omega : ¬ ws.count 0 = 0)]
      rw [decide_eq_true_iff]
      have hdrop := sorted_drop_pred_count hsorted (by omega)
      rw [hcount] at hdrop
      rw [hdrop]
      rw [hmapperm.mem_iff.symm]
      have hsplit := List.take_append_drop
        ((List.insertionSort (· ≤ ·) ws).count 0) (List.insertionSort (· ≤ ·) ws)
      rw [sorted_take_count_zero hsorted] at hsplit
      conv =>
        rhs
        rw [← hsplit]
      rw [hcount, List.map_append, List.map_replicate]
      have hcm0 : clear_mark 0 = 0 := rfl
      rw [hcm0]
      simp only [List.map_cons, List.mem_cons, List.mem_append, List.mem_replicate]
      constructor
      · intro h
        rcases h with h | h
        · exact absurd h hp
        · exact Or.inr h
      · intro h
        rcases h with h | h
        · exact absurd h.2 hp
        · exact Or.inr h
  · rcases Nat.eq_zero_or_pos (ws.count 0) with hn0 | hn0
    · simp only [snap_search, snap_window, if_pos hn0, List.drop_zero]
      rw [decide_eq_true_iff]
      have h0nws : 0 ∉ ws := List.count_eq_zero.mp hn0
      constructor
      · intro h
        rw [hmapperm.mem_iff] at h
        rw [List.mem_map] at h
        obtain ⟨w, hw, hcm⟩ := h
        have hw1 : w ≤ 1 := (clear_mark_eq_zero_iff w).mp hcm
        have : w = 1 := by
          rcases Nat.eq_zero_or_pos w with h1 | h1
          · exact absurd (h1 ▸ hw) h0nws
          · omega
        subst this
        exact Or.inr hw
      · intro h
        rcases h with h | h
        · exact absurd h h0nws
        · rw [hmapperm.mem_iff, List.mem_map]
          exact ⟨1, h, rfl⟩
    · simp only [snap_search, snap_window, if_neg (by omega : ¬ ws.count 0 = 0)]
      rw [decide_eq_true_iff]
      have hdrop := sorted_drop_pred_count hsorted (by omega)
      rw [hcount] at hdrop
      rw [hdrop]
      constructor
      · intro _
        exact Or.inl (List.count_pos_iff.mp hn0)
      · intro _
        rw [List.map_cons]
        exact List.mem_cons_self _ _

/-- Witness for C5's amended theorem at the concrete captured words
`[0, 0, 5]`: two null slots and one live pointer. -/
theorem c5_snapshot_amended_witness :
    ([0, 0, 5] : List Nat) ≠ [] ∧
      (∃ snap, mkSnapshot [0, 0, 5] = some snap ∧
        snap.begin_idx = (if ([0, 0, 5] : List Nat).count 0 = 0 then 0
          else ([0, 0, 5] : List Nat).count 0 - 1) ∧
        (∀ p, p ≠ 0 →
          (snap_search snap p = true ↔ p ∈ ([0, 0, 5] : List Nat).map clear_mark)) ∧
        (snap_search snap 0 = true ↔
          (0 ∈ ([0, 0, 5] : List Nat) ∨ 1 ∈ ([0, 0, 5] : List Nat)))) :=
  ⟨by decide, c5_snapshot_amended [0, 0, 5] (by decide)⟩

/-! ## Hazard-pointer contexts: `reclaim` (C9)

Model of `hazard_pointer_context::reclaim` (`src/hazard_pointer.hpp` lines
691-734) and `hazard_pointer_domain::enqueue_for_delete` (lines 427-437).
The retire-buffer `deleted[R]` is a list of optional pointers, `del_index`
is a `uint32`, and the snapshot is abstracted by the predicate `prot`
(`hps.search`), the only interface `reclaim` uses.  The domain's delete list
is the list of payload pointers in LIFO order. -/

/-- The scan loop of `reclaim`: for each slot, if unprotected, decrement
`del_index` (32-bit), free the payload and null the slot.  Returns the new
buffer, the new `del_index` and the freed payloads in scan order. -/
def reclaim_scan (prot : Option Nat → Bool) :
    List (Option Nat) → Nat → List (Option Nat) × Nat × List Nat
  | [], d => ([], d, [])
  | v :: rest, d =>
    if prot v then
      let r := reclaim_scan prot rest d
      (v :: r.1, r.2.1, r.2.2)
    else
      let r := reclaim_scan prot rest ((d + U32 - 1) % U32)
      (none :: r.1, r.2.1, v.toList ++ r.2.2)

/-- `enqueue_for_delete(items, count)`: push every non-null slot onto the
domain's delete list (prepending, so LIFO) and null the slot. -/
def enqueue_for_delete_all :
    List (Option Nat) → List Nat → List (Option Nat) × List Nat
  | [], dlist => ([], dlist)
  | v :: rest, dlist =>
    match v with
    | some p =>
      let r := enqueue_for_delete_all rest (p :: dlist)
      (none :: r.1, r.2)
    | none =>
      let r := enqueue_for_delete_all rest dlist
      (none :: r.1, r.2)

/-- Inner while: `while(nullptr != deleted[ixd] && ixd < ixs) ++ixd;`. -/
def comp_adv (buf : List (Option Nat)) : Nat → Nat → Nat → Nat
  | 0, ixd, _ => ixd
  | f + 1, ixd, ixs =>
    if buf.getD ixd none ≠ none ∧ ixd < ixs then comp_adv buf f (ixd + 1) ixs else ixd

/-- Inner while: `while(nullptr == deleted[ixs] && ixd < ixs) --ixs;`. -/
def comp_ret (buf : List (Option Nat)) : Nat → Nat → Nat → Nat
  | 0, _, ixs => ixs
  | f + 1, ixd, ixs =>
    if buf.getD ixs none = none ∧ ixd < ixs then comp_ret buf f ixd (ixs - 1) else ixs

/-- The outer compaction loop (`while(ixd < ixs)` with the in-place swap). -/
def comp_outer : Nat → List (Option Nat) → Nat → Nat → Option (List (Option Nat))
  | 0, _, _, _ => none
  | f + 1, buf, ixd, ixs =>
    if ixd < ixs then
      let ixd2 := comp_adv buf (buf.length + 1) ixd ixs
      let ixs2 := comp_ret buf (buf.length + 1) ixd2 ixs
      if buf.getD ixs2 none ≠ none ∧ buf.getD ixd2 none = none then
        comp_outer f ((buf.set ixd2 (buf.getD ixs2 none)).set ixs2 (buf.getD ixd2 none))
          (ixd2 + 1) (ixs2 - 1)
      else comp_outer f buf ixd2 ixs2
    else some buf

/-- `reclaim`: scan against the snapshot, then either escalate the whole
buffer to the domain delete list (nothing freeable) or compact the
survivors to the front.  Returns `(buffer, del_index, delete list, freed)`. -/
def reclaim (prot : Option Nat → Bool) (buf : List (Option Nat)) (d : Nat)
    (dlist : List Nat) : Option (List (Option Nat) × Nat × List Nat × List Nat) :=
  let s := reclaim_scan prot buf d
  if s.2.1 = buf.length then
    let e := enqueue_for_delete_all s.1 dlist
    some (e.1, 0, e.2, s.2.2)
  else
    match comp_outer (buf.length + 2) s.1 0 (buf.length - 1) with
    | none => none
    | some buf2 => some (buf2, s.2.1, dlist, s.2.2)

theorem reclaim_scan_all_protected (prot : Option Nat → Bool) :
    ∀ (buf : List (Option Nat)) (d : Nat), (∀ v ∈ buf, prot v = true) →
      reclaim_scan prot buf d = (buf, d, []) := by
  intro buf
  induction buf with
  | nil => intro d _; rfl
  | cons v rest ih =>
    intro d hall
    have hv : prot v = true := hall v (List.mem_cons_self _ _)
    have hr := ih d (fun w hw => hall w (List.mem_cons_of_mem _ hw))
    simp [reclaim_scan, hv, hr]

theorem reclaim_scan_general (prot : Option Nat → Bool) :
    ∀ (buf : List (Option Nat)) (d : Nat),
      buf.countP (fun v => !(prot v)) ≤ d → d < U32 →
      reclaim_scan prot buf d =
        (buf.map (fun v => if prot v then v else none),
         d - buf.countP (fun v => !(prot v)),
         (buf.filter (fun v => !(prot v))).filterMap id) := by
  intro buf
  induction buf with
  | nil => intro d _ _; simp [reclaim_scan]
  | cons v rest ih =>
    intro d hle hd
    by_cases hv : prot v = true
    · have hc : (v :: rest).countP (fun v => !(prot v)) =
          rest.countP (fun v => !(prot v)) := by
        simp [List.countP_cons, hv]
      rw [hc] at hle
      have hr := ih d hle hd
      simp only [reclaim_scan, if_pos hv, hr]
      simp [List.filter_cons, hv, hc]
    · have hv' : prot v = false := by
        simp at hv
        exact hv
      have hc : (v :: rest).countP (fun v => !(prot v)) =
          rest.countP (fun v => !(prot v)) + 1 := by
        simp [List.countP_cons, hv']
      rw [hc] at hle
      have hdec : (d + U32 - 1) % U32 = d - 1 := by
        have h1 : 1 ≤ d := by omega
        have h2 : d + U32 - 1 = U32 + (d - 1) := by omega
        rw [h2, Nat.add_mod_left]
        exact Nat.mod_eq_of_lt (by omega)
      have hr := ih (d - 1) (by omega) (by omega)
      simp only [reclaim_scan, hv', Bool.false_eq_true, if_false, hdec, hr]
      simp only [List.map_cons, List.filter_cons, hv', Bool.not_false, if_pos]
      have hfix : d - (v :: rest).countP (fun v => !(prot v)) =
          d - 1 - rest.countP (fun v => !(prot v)) := by
        rw [hc]
        omega
      rw [hfix]
      cases v <;> simp

theorem enqueue_all_spec :
    ∀ (buf : List (Option Nat)) (dlist : List Nat),
      enqueue_for_delete_all buf dlist =
        (List.replicate buf.length none, (buf.filterMap id).reverse ++ dlist) := by
  intro buf
  induction buf with
  | nil => intro dlist; rfl
  | cons v rest ih =>
    intro dlist
    cases v with
    | some p =>
      simp only [enqueue_for_delete_all, ih (p :: dlist)]
      simp [List.replicate_succ]
    | none =>
      simp only [enqueue_for_delete_all, ih dlist]
      simp [List.replicate_succ]

theorem set_self_eq {α : Type _} (l : List α) (i : Nat) (hi : i < l.length) :
    l.set i (getElem l i hi) = l := by
  apply List.ext_getElem
  · simp
  · intro n h1 h2
    rw [List.getElem_set]
    split
    · subst ‹i = n›
      rfl
    · rfl

/-- Swapping two in-bounds entries of a list is a permutation. -/
theorem perm_swap_set {α : Type _} [DecidableEq α] (l : List α) (i j : Nat) (d : α)
    (hi : i < l.length) (hj : j < l.length) :
    ((l.set i (l.getD j d)).set j (l.getD i d)).Perm l := by
  have hgi : l.getD i d = getElem l i hi := by
    rw [List.getD_eq_getElem?_getD, List.getElem?_eq_getElem hi]
    rfl
  have hgj : l.getD j d = getElem l j hj := by
    rw [List.getD_eq_getElem?_getD, List.getElem?_eq_getElem hj]
    rfl
  rcases eq_or_ne i j with hij | hij
  · subst hij
    rw [hgi, List.set_set, set_self_eq]
  · rw [List.perm_iff_count]
    intro a
    have hlen1 : (l.set i (l.getD j d)).length = l.length := List.length_set _ _ _
    have h2 := List.count_set (l.getD i d) a (l.set i (l.getD j d)) j (by omega)
    have h1 := List.count_set (l.getD j d) a l i hi
    have hj1 : getElem (l.set i (l.getD j d)) j (by omega) = getElem l j hj := by
      rw [List.getElem_set]
      rw [if_neg hij]
    rw [h2, hj1, h1, hgi, hgj]
    have hcnti : getElem l i hi = a → 1 ≤ l.count a := by
      intro h
      exact List.count_pos_iff.mpr (h ▸ List.getElem_mem hi)
    have hcntj : getElem l j hj = a → 1 ≤ l.count a := by
      intro h
      exact List.count_pos_iff.mpr (h ▸ List.getElem_mem hj)
    by_cases hA : getElem l i hi = a
    · have hc1 := hcnti hA
      by_cases hB : getElem l j hj = a <;> simp [hA, hB] <;> omega
    · by_cases hB : getElem l j hj = a
      · have hc2 := hcntj hB
        simp [hA, hB]
      · simp [hA, hB]

theorem comp_adv_spec (buf : List (Option Nat)) :
    ∀ f ixd ixs, ixs - ixd < f → ixd ≤ ixs →
      ixd ≤ comp_adv buf f ixd ixs ∧ comp_adv buf f ixd ixs ≤ ixs ∧
      (∀ i, ixd ≤ i → i < comp_adv buf f ixd ixs → buf.getD i none ≠ none) ∧
      (comp_adv buf f ixd ixs = ixs ∨ buf.getD (comp_adv buf f ixd ixs) none = none) := by
  intro f
  induction f with
  | zero => omega
  | succ f ih =>
    intro ixd ixs hf hle
    simp only [comp_adv]
    by_cases hc : buf.getD ixd none ≠ none ∧ ixd < ixs
    · rw [if_pos hc]
      obtain ⟨h1, h2, h3, h4⟩ := ih (ixd + 1) ixs (by omega) (by omega)
      refine ⟨by omega, h2, ?_, h4⟩
      intro i hi1 hi2
      rcases Nat.eq_or_lt_of_le hi1 with he | hl
      · rw [← he]
        exact hc.1
      · exact h3 i (by omega) hi2
    · rw [if_neg hc]
      refine ⟨le_refl _, hle, by omega, ?_⟩
      by_cases hx : ixd = ixs
      · exact Or.inl hx
      · right
        by_contra hy
        exact hc ⟨hy, by omega⟩

theorem comp_ret_spec (buf : List (Option Nat)) :
    ∀ f ixd ixs, ixs - ixd < f → ixd ≤ ixs →
      ixd ≤ comp_ret buf f ixd ixs ∧ comp_ret buf f ixd ixs ≤ ixs ∧
      (∀ i, comp_ret buf f ixd ixs < i → i ≤ ixs → buf.getD i none = none) ∧
      (comp_ret buf f ixd ixs = ixd ∨ buf.getD (comp_ret buf f ixd ixs) none ≠ none) := by
  intro f
  induction f with
  | zero => omega
  | succ f ih =>
    intro ixd ixs hf hle
    simp only [comp_ret]
    by_cases hc : buf.getD ixs none = none ∧ ixd < ixs
    · rw [if_pos hc]
      obtain ⟨h1, h2, h3, h4⟩ := ih ixd (ixs - 1) (by omega) (by omega)
      refine ⟨h1, by omega, ?_, h4⟩
      intro i hi1 hi2
      rcases Nat.eq_or_lt_of_le hi2 with he | hl
      · rw [he]
        exact hc.1
      · exact h3 i hi1 (by omega)
    · rw [if_neg hc]
      refine ⟨hle, le_refl _, by omega, ?_⟩
      by_cases hx : ixs = ixd
      · exact Or.inl hx
      · right
        intro hy
        exact hc ⟨hy, by omega⟩

theorem getD_set_set (l : List (Option Nat)) (a b : Nat) (x y : Option Nat) (i : Nat)
    (ha : a < l.length) (hb : b < l.length) :
    ((l.set a x).set b y).getD i none =
      if i = b then y else if i = a then x else l.getD i none := by
  by_cases hib : i = b
  · subst hib
    rw [if_pos rfl, List.getD_eq_getElem?_getD]
    rw [List.getElem?_set_self (by rw [List.length_set]; omega)]
    rfl
  · rw [if_neg hib, List.getD_eq_getElem?_getD]
    rw [List.getElem?_set_ne (fun h => hib h.symm)]
    by_cases hia : i = a
    · subst hia
      rw [if_pos rfl, List.getElem?_set_self ha]
      rfl
    · rw [if_neg hia, List.getElem?_set_ne (fun h => hia h.symm)]
      rw [List.getD_eq_getElem?_getD]

/-- Out-of-bounds `getD` is the default. -/
theorem getD_oob (l : List (Option Nat)) (i : Nat) (h : l.length ≤ i) :
    l.getD i none = none := by
  rw [List.getD_eq_getElem?_getD, List.getElem?_eq_none h]
  rfl

/-- Correctness of the two-pointer compaction: from a window whose outside is
already partitioned (non-null prefix, null suffix), the loop terminates and
produces a permutation of the buffer in which the non-null entries occupy
exactly a prefix `[0, k)` and everything after is null. -/
theorem comp_outer_spec :
    ∀ f (buf : List (Option Nat)) ixd ixs,
      ixs < buf.length → ixd ≤ ixs + 1 → ixs + 2 ≤ ixd + f →
      (∀ i, i < ixd → buf.getD i none ≠ none) →
      (∀ i, ixs < i → buf.getD i none = none) →
      ∃ out, comp_outer f buf ixd ixs = some out ∧ out.Perm buf ∧
        out.length = buf.length ∧
        ∃ k, (∀ i, i < k → out.getD i none ≠ none) ∧
          (∀ i, k ≤ i → out.getD i none = none) := by
  intro f
  induction f with
  | zero => omega
  | succ f ih =>
    intro buf ixd ixs hlen hle hf hpre hsuf
    simp only [comp_outer]
    by_cases hlt : ixd < ixs
    · rw [if_pos hlt]
      obtain ⟨a1, a2, a3, a4⟩ :=
        comp_adv_spec buf (buf.length + 1) ixd ixs (by omega) (by omega)
      obtain ⟨b1, b2, b3, b4⟩ :=
        comp_ret_spec buf (buf.length + 1) (comp_adv buf (buf.length + 1) ixd ixs) ixs
          (by omega) (by omega)
      set j := comp_adv buf (buf.length + 1) ixd ixs with hj
      set j2 := comp_ret buf (buf.length + 1) j ixs with hj2
      by_cases hswap : buf.getD j2 none ≠ none ∧ buf.getD j none = none
      · rw [if_pos hswap]
        have hjj2 : j < j2 := by
          rcases Nat.eq_or_lt_of_le b1 with he | hl
          · exfalso
            rw [← he] at hswap
            exact hswap.1 hswap.2
          · exact hl
        have hjlen : j < buf.length := by omega
        have hj2len : j2 < buf.length := by omega
        have hperm : (((buf.set j (buf.getD j2 none)).set j2 (buf.getD j none))).Perm buf :=
          perm_swap_set buf j j2 none hjlen hj2len
        have hlen2 : (((buf.set j (buf.getD j2 none)).set j2 (buf.getD j none))).length
            = buf.length := by
          rw [List.length_set, List.length_set]
        have hg : ∀ i,
            (((buf.set j (buf.getD j2 none)).set j2 (buf.getD j none))).getD i none =
            if i = j2 then buf.getD j none
            else if i = j then buf.getD j2 none else buf.getD i none :=
          fun i => getD_set_set buf j j2 _ _ i hjlen hj2len
        obtain ⟨out, ho, hp, hl, hk⟩ :=
          ih ((buf.set j (buf.getD j2 none)).set j2 (buf.getD j none)) (j + 1) (j2 - 1)
            (by omega) (by omega) (by omega)
            (by
              intro i hi
              rw [hg i]
              rcases Nat.lt_or_ge i j with hij | hij
              · rw [if_neg (by omega), if_neg (by omega)]
                rcases Nat.lt_or_ge i ixd with hixd | hixd
                · exact hpre i hixd
                · exact a3 i hixd (by omega)
              · have : i = j := by omega
                subst this
                rw [if_neg (by omega), if_pos rfl]
                exact hswap.1)
            (by
              intro i hi
              rw [hg i]
              by_cases hij2 : i = j2
              · rw [if_pos hij2]
                exact hswap.2
              · rw [if_neg hij2, if_neg (by omega)]
                rcases Nat.lt_or_ge ixs i with hgt | hle2
                · exact hsuf i hgt
                · exact b3 i (by omega) (by omega))
        refine ⟨out, ho, hp.trans hperm, ?_, hk⟩
        rw [hl, hlen2]
      · rw [if_neg hswap]
        have hjeq : j = j2 := by
          rcases Nat.eq_or_lt_of_le b1 with he | hl
          · exact he
          · exfalso
            have hgj : buf.getD j none = none := by
              rcases a4 with h | h
              · omega
              · exact h
            have hgj2 : buf.getD j2 none ≠ none := by
              rcases b4 with h | h
              · omega
              · exact h
            exact hswap ⟨hgj2, hgj⟩
        obtain ⟨out, ho, hp, hl, hk⟩ := ih buf j j2
          (by omega) (by omega) (by omega)
          (by
            intro i hi
            rcases Nat.lt_or_ge i ixd with hixd | hixd
            · exact hpre i hixd
            · exact a3 i hixd hi)
          (by
            intro i hi
            rcases Nat.lt_or_ge ixs i with hgt | hle2
            · exact hsuf i hgt
            · exact b3 i (by omega) (by omega))
        exact ⟨out, ho, hp, hl, hk⟩
    · rw [if_neg hlt]
      refine ⟨buf, rfl, List.Perm.refl _, rfl, ?_⟩
      by_cases hd : ixd = ixs + 1
      · refine ⟨ixd, hpre, ?_⟩
        intro i hi
        exact hsuf i (by omega)
      · have hde : ixd = ixs := by omega
        by_cases hmid : buf.getD ixd none = none
        · refine ⟨ixd, hpre, ?_⟩
          intro i hi
          rcases Nat.eq_or_lt_of_le hi with he | hl
          · rw [← he]
            exact hmid
          · exact hsuf i (by omega)
        · refine ⟨ixd + 1, ?_, ?_⟩
          · intro i hi
            rcases Nat.lt_or_ge i ixd with h | h
            · exact hpre i h
            · have : i = ixd := by omega
              subst this
              exact hmid
          · intro i hi
            exact hsuf i (by omega)

theorem length_eq_countP_add {α : Type _} (l : List α) (p : α → Bool) :
    l.length = l.countP p + l.countP (fun a => !(p a)) := by
  induction l with
  | nil => rfl
  | cons a t ih =>
    by_cases h : p a = true <;> simp [List.countP_cons, h, ih] <;> omega

/-- A partitioned buffer (non-null prefix `[0,k)`, null from `k` on) has
exactly `k` non-null entries. -/
theorem countP_isSome_of_partition (l : List (Option Nat)) (k : Nat)
    (h1 : ∀ i, i < k → l.getD i none ≠ none)
    (h2 : ∀ i, k ≤ i → l.getD i none = none) :
    l.countP (fun v => v.isSome) = k ∧ k ≤ l.length := by
  have hk : k ≤ l.length := by
    by_contra h
    exact h1 l.length (by omega) (getD_oob l l.length (le_refl _))
  refine ⟨?_, hk⟩
  have hgd : ∀ (i : Nat) (hi : i < l.length), l.getD i none = getElem l i hi := by
    intro i hi
    rw [List.getD_eq_getElem?_getD, List.getElem?_eq_getElem hi]
    rfl
  calc l.countP (fun v => v.isSome)
      = (l.take k ++ l.drop k).countP (fun v => v.isSome) := by
        rw [List.take_append_drop]
    _ = (l.take k).countP (fun v => v.isSome) +
        (l.drop k).countP (fun v => v.isSome) := List.countP_append _ _ _
    _ = (l.take k).length + 0 := by
        congr 1
        · apply List.countP_eq_length.mpr
          intro a ha
          obtain ⟨i, hilt, hgi⟩ := List.getElem_of_mem ha
          have hik : i < k :=
            lt_of_lt_of_le hilt (List.length_take_le _ _)
          rw [List.getElem_take] at hgi
          rw [Option.isSome_iff_ne_none, ← hgi]
          rw [← hgd i (by omega)]
          exact h1 i hik
        · apply List.countP_eq_zero.mpr
          intro a ha
          obtain ⟨i, hilt, hgi⟩ := List.getElem_of_mem ha
          rw [List.getElem_drop] at hgi
          have hilen : k + i < l.length := by
            have := List.length_drop k l
            omega
          have : a = none := by
            rw [← hgi, ← hgd (k + i) hilen]
            exact h2 (k + i) (by omega)
          simp [this]
    _ = k := by
        rw [List.length_take]
        omega

/-- C9: CONFIRMED.  `reclaim` on a full retire-buffer of `R` pointers:
if every pointer is still in the hazard snapshot (`prot`), all `R` are
pushed to the domain delete list exactly once each (LIFO order), the local
buffer is fully nulled and `del_index` becomes 0, and nothing is freed;
otherwise every unprotected pointer is freed and nulled, and the survivors
are compacted so that they occupy exactly `deleted[0, del_index)` (the new
`del_index` being their number) with every later slot null. -/
theorem c9_reclaim_spec (prot : Option Nat → Bool) (buf : List (Option Nat))
    (R : Nat) (dlist : List Nat)
    (hlen : buf.length = R) (hfull : ∀ v ∈ buf, v.isSome) (hR : R < U32)
    (hR0 : 1 ≤ R) :
    ((∀ v ∈ buf, prot v = true) →
      reclaim prot buf R dlist =
        some (List.replicate R none, 0, (buf.filterMap id).reverse ++ dlist, [])) ∧
    ((∃ v ∈ buf, prot v = false) →
      ∃ buf2,
        reclaim prot buf R dlist =
          some (buf2, buf.countP (fun v => prot v), dlist,
            (buf.filter (fun v => !(prot v))).filterMap id) ∧
        buf2.Perm (buf.map (fun v => if prot v then v else none)) ∧
        (∀ i, i < buf.countP (fun v => prot v) → buf2.getD i none ≠ none) ∧
        (∀ i, buf.countP (fun v => prot v) ≤ i → buf2.getD i none = none)) := by
  constructor
  · intro hall
    have hs := reclaim_scan_all_protected prot buf R hall
    simp only [reclaim, hs]
    rw [if_pos hlen.symm]
    rw [enqueue_all_spec]
    rw [hlen]
  · intro hex
    have hu : 0 < buf.countP (fun v => !(prot v)) := by
      apply List.countP_pos_iff.mpr
      obtain ⟨v, hv, hvp⟩ := hex
      exact ⟨v, hv, by simp [hvp]⟩
    have hule : buf.countP (fun v => !(prot v)) ≤ R := by
      have := List.countP_le_length (fun v => !(prot v)) (l := buf)
      omega
    have hs := reclaim_scan_general prot buf R (by omega) hR
    have hcnt := length_eq_countP_add buf (fun v => prot v)
    simp only [reclaim, hs]
    rw [if_neg (by omega)]
    have hlens1 : (buf.map (fun v => if prot v then v else none)).length = R := by
      rw [List.length_map, hlen]
    obtain ⟨out, ho, hp, hl, k, hk1, hk2⟩ :=
      comp_outer_spec (buf.length + 2) (buf.map (fun v => if prot v then v else none))
        0 (buf.length - 1)
        (by rw [List.length_map]; omega) (by omega) (by omega)
        (by omega)
        (by
          intro i hi
          apply getD_oob
          rw [List.length_map]
          omega)
    have hkeq : k = buf.countP (fun v => prot v) := by
      obtain ⟨hcp, _⟩ := countP_isSome_of_partition out k hk1 hk2
      have h1 : out.countP (fun v => v.isSome) =
          (buf.map (fun v => if prot v then v else none)).countP (fun v => v.isSome) :=
        hp.countP_eq _
      rw [List.countP_map] at h1
      have h2 : buf.countP ((fun v => Option.isSome v) ∘
          (fun v => if prot v then v else none)) = buf.countP (fun v => prot v) := by
        apply List.countP_congr
        intro v hv
        have hvs : v.isSome := hfull v hv
        by_cases hpv : prot v = true <;> simp [hpv, hvs]
      rw [h2] at h1
      omega
    rw [ho]
    refine ⟨out, ?_, hp, ?_, ?_⟩
    · have hdel : R - buf.countP (fun v => !(prot v)) = buf.countP (fun v => prot v) := by
        omega
      rw [hdel]
    · rw [← hkeq]
      exact hk1
    · rw [← hkeq]
      exact hk2

/-- Witness for C9 at a concrete input: a full buffer `[5, 7]` of which only
`5` is still protected by the snapshot. -/
theorem c9_reclaim_spec_witness :
    (([some 5, some 7] : List (Option Nat)).length = 2 ∧
      (∀ v ∈ ([some 5, some 7] : List (Option Nat)), v.isSome) ∧
      2 < U32 ∧ 1 ≤ 2) ∧
    (((∀ v ∈ ([some 5, some 7] : List (Option Nat)),
        (fun v => decide (v = some 5)) v = true) →
      reclaim (fun v => decide (v = some 5)) [some 5, some 7] 2 [] =
        some (List.replicate 2 none, 0,
          (([some 5, some 7] : List (Option Nat)).filterMap id).reverse ++ [], [])) ∧
    ((∃ v ∈ ([some 5, some 7] : List (Option Nat)),
        (fun v => decide (v = some 5)) v = false) →
      ∃ buf2,
        reclaim (fun v => decide (v = some 5)) [some 5, some 7] 2 [] =
          some (buf2,
            ([some 5, some 7] : List (Option Nat)).countP
              (fun v => (fun v => decide (v = some 5)) v),
            [],
            (([some 5, some 7] : List (Option Nat)).filter
              (fun v => !((fun v => decide (v = some 5)) v))).filterMap id) ∧
        buf2.Perm (([some 5, some 7] : List (Option Nat)).map
          (fun v => if (fun v => decide (v = some 5)) v then v else none)) ∧
        (∀ i, i < ([some 5, some 7] : List (Option Nat)).countP
            (fun v => (fun v => decide (v = some 5)) v) →
          buf2.getD i none ≠ none) ∧
        (∀ i, ([some 5, some 7] : List (Option Nat)).countP
            (fun v => (fun v => decide (v = some 5)) v) ≤ i →
          buf2.getD i none = none))) :=
  ⟨⟨rfl, by decide, by decide, by decide⟩,
    c9_reclaim_spec (fun v => decide (v = some 5)) [some 5, some 7] 2 []
      rfl (by decide) (by decide) (by decide)⟩

/-! ## The split-ordered list (C2, C3, C4, C6, C7, C8, C10)

Model of the solist header (`src/hazard_pointer.hpp`, second part): nodes,
the bucket table, `get_parent`, `initialise_bucket`, `find_node`,
`insert_node`, `delete_node`, `find_item_node` and `expand`, executed
sequentially.  Pointers are `Nat` addresses; the heap maps addresses to
nodes; `delete` removes the node from the heap and records the address in
`freed`.  The `mark_ptr_type` next-field is a pointer plus a mark bit
(modelled from the spec contract §6):
* `operator()` reads the pointer with the mark cleared;
* the 2-argument CAS compares the whole word with mark 0, so it succeeds
  iff the pointer matches and the mark is clear;
* the 3-argument CAS compares the pointer bits only and writes pointer and
  mark together. -/

structure SolNode where
  hashv : Nat
  key : Nat
  next : Option Nat
  mark : Bool
  payload : Option Nat
deriving Repr, DecidableEq

/-- The heap: address to node.  `none` is unallocated. -/
def Heap : Type := Nat → Option SolNode

/-- Point update of a heap. -/
def hupd (h : Heap) (a : Nat) (v : Option SolNode) : Heap :=
  fun b => if b = a then v else h b

/-- The accessor's cursor (`prev`, `cur`, `next`, `steps`). -/
structure SolAcc where
  prev : Option Nat
  cur : Option Nat
  nxt : Option Nat
  steps : Nat
deriving Repr, DecidableEq

/-- `solist` state: heap, bucket table, `size`, `max_bucket_length`,
`n_items` (all `uint32`), plus the allocator cursor and the list of
addresses passed to `delete`. -/
structure SolState where
  heap : Heap
  buckets : List (Option Nat)
  size : Nat
  max_bucket_length : Nat
  n_items : Nat
  next_addr : Nat
  freed : List Nat

/-- Write a node at an address (a store through a node pointer). -/
def set_node (s : SolState) (a : Nat) (nd : SolNode) : SolState :=
  { s with heap := hupd s.heap a (some nd) }

/-- `delete p`: deallocate the node and record the freed address. -/
def free_node (s : SolState) (a : Nat) : SolState :=
  { s with heap := hupd s.heap a none, freed := a :: s.freed }

/-- `buckets[slot] = v`. -/
def set_bucket (s : SolState) (slot : Nat) (v : Option Nat) : SolState :=
  { s with buckets := s.buckets.set slot v }

/-- `new solist_bucket/solist_node`: place the node at the next fresh
address. -/
def alloc_node (s : SolState) (nd : SolNode) : SolState :=
  { s with heap := hupd s.heap s.next_addr (some nd), next_addr := s.next_addr + 1 }

/-- `inc_item_count()` (32-bit increment). -/
def inc_item_count (s : SolState) : SolState :=
  { s with n_items := (s.n_items + 1) % U32 }

/-- `dec_item_count()` (32-bit decrement). -/
def dec_item_count (s : SolState) : SolState :=
  { s with n_items := (s.n_items + U32 - 1) % U32 }

@[simp] theorem set_node_heap (s : SolState) (a : Nat) (nd : SolNode) :
    (set_node s a nd).heap = hupd s.heap a (some nd) := by
  unfold set_node
  rfl

@[simp] theorem set_node_buckets (s : SolState) (a : Nat) (nd : SolNode) :
    (set_node s a nd).buckets = s.buckets := by
  unfold set_node
  rfl

@[simp] theorem set_node_size (s : SolState) (a : Nat) (nd : SolNode) :
    (set_node s a nd).size = s.size := by
  unfold set_node
  rfl

@[simp] theorem set_node_max_bucket_length (s : SolState) (a : Nat) (nd : SolNode) :
    (set_node s a nd).max_bucket_length = s.max_bucket_length := by
  unfold set_node
  rfl

@[simp] theorem set_node_n_items (s : SolState) (a : Nat) (nd : SolNode) :
    (set_node s a nd).n_items = s.n_items := by
  unfold set_node
  rfl

@[simp] theorem set_node_next_addr (s : SolState) (a : Nat) (nd : SolNode) :
    (set_node s a nd).next_addr = s.next_addr := by
  unfold set_node
  rfl

@[simp] theorem set_node_freed (s : SolState) (a : Nat) (nd : SolNode) :
    (set_node s a nd).freed = s.freed := by
  unfold set_node
  rfl

@[simp] theorem free_node_heap (s : SolState) (a : Nat) :
    (free_node s a).heap = hupd s.heap a none := by
  unfold free_node
  rfl

@[simp] theorem free_node_buckets (s : SolState) (a : Nat) :
    (free_node s a).buckets = s.buckets := by
  unfold free_node
  rfl

@[simp] theorem free_node_size (s : SolState) (a : Nat) :
    (free_node s a).size = s.size := by
  unfold free_node
  rfl

@[simp] theorem free_node_max_bucket_length (s : SolState) (a : Nat) :
    (free_node s a).max_bucket_length = s.max_bucket_length := by
  unfold free_node
  rfl

@[simp] theorem free_node_n_items (s : SolState) (a : Nat) :
    (free_node s a).n_items = s.n_items := by
  unfold free_node
  rfl

@[simp] theorem free_node_next_addr (s : SolState) (a : Nat) :
    (free_node s a).next_addr = s.next_addr := by
  unfold free_node
  rfl

@[simp] theorem free_node_freed (s : SolState) (a : Nat) :
    (free_node s a).freed = a :: s.freed := by
  unfold free_node
  rfl

@[simp] theorem set_bucket_heap (s : SolState) (slot : Nat) (v : Option Nat) :
    (set_bucket s slot v).heap = s.heap := by
  unfold set_bucket
  rfl

@[simp] theorem set_bucket_buckets (s : SolState) (slot : Nat) (v : Option Nat) :
    (set_bucket s slot v).buckets = s.buckets.set slot v := by
  unfold set_bucket
  rfl

@[simp] theorem set_bucket_size (s : SolState) (slot : Nat) (v : Option Nat) :
    (set_bucket s slot v).size = s.size := by
  unfold set_bucket
  rfl

@[simp] theorem set_bucket_max_bucket_length (s : SolState) (slot : Nat) (v : Option Nat) :
    (set_bucket s slot v).max_bucket_length = s.max_bucket_length := by
  unfold set_bucket
  rfl

@[simp] theorem set_bucket_n_items (s : SolState) (slot : Nat) (v : Option Nat) :
    (set_bucket s slot v).n_items = s.n_items := by
  unfold set_bucket
  rfl

@[simp] theorem set_bucket_next_addr (s : SolState) (slot : Nat) (v : Option Nat) :
    (set_bucket s slot v).next_addr = s.next_addr := by
  unfold set_bucket
  rfl

@[simp] theorem set_bucket_freed (s : SolState) (slot : Nat) (v : Option Nat) :
    (set_bucket s slot v).freed = s.freed := by
  unfold set_bucket
  rfl

@[simp] theorem alloc_node_heap (s : SolState) (nd : SolNode) :
    (alloc_node s nd).heap = hupd s.heap s.next_addr (some nd) := by
  unfold alloc_node
  rfl

@[simp] theorem alloc_node_buckets (s : SolState) (nd : SolNode) :
    (alloc_node s nd).buckets = s.buckets := by
  unfold alloc_node
  rfl

@[simp] theorem alloc_node_size (s : SolState) (nd : SolNode) :
    (alloc_node s nd).size = s.size := by
  unfold alloc_node
  rfl

@[simp] theorem alloc_node_max_bucket_length (s : SolState) (nd : SolNode) :
    (alloc_node s nd).max_bucket_length = s.max_bucket_length := by
  unfold alloc_node
  rfl

@[simp] theorem alloc_node_n_items (s : SolState) (nd : SolNode) :
    (alloc_node s nd).n_items = s.n_items := by
  unfold alloc_node
  rfl

@[simp] theorem alloc_node_next_addr (s : SolState) (nd : SolNode) :
    (alloc_node s nd).next_addr = s.next_addr + 1 := by
  unfold alloc_node
  rfl

@[simp] theorem alloc_node_freed (s : SolState) (nd : SolNode) :
    (alloc_node s nd).freed = s.freed := by
  unfold alloc_node
  rfl

@[simp] theorem inc_item_count_heap (s : SolState) :
    (inc_item_count s).heap = s.heap := by
  unfold inc_item_count
  rfl

@[simp] theorem inc_item_count_buckets (s : SolState) :
    (inc_item_count s).buckets = s.buckets := by
  unfold inc_item_count
  rfl

@[simp] theorem inc_item_count_size (s : SolState) :
    (inc_item_count s).size = s.size := by
  unfold inc_item_count
  rfl

@[simp] theorem inc_item_count_max_bucket_length (s : SolState) :
    (inc_item_count s).max_bucket_length = s.max_bucket_length := by
  unfold inc_item_count
  rfl

@[simp] theorem inc_item_count_n_items (s : SolState) :
    (inc_item_count s).n_items = (s.n_items + 1) % U32 := by
  unfold inc_item_count
  rfl

@[simp] theorem inc_item_count_next_addr (s : SolState) :
    (inc_item_count s).next_addr = s.next_addr := by
  unfold inc_item_count
  rfl

@[simp] theorem inc_item_count_freed (s : SolState) :
    (inc_item_count s).freed = s.freed := by
  unfold inc_item_count
  rfl

@[simp] theorem dec_item_count_heap (s : SolState) :
    (dec_item_count s).heap = s.heap := by
  unfold dec_item_count
  rfl

@[simp] theorem dec_item_count_buckets (s : SolState) :
    (dec_item_count s).buckets = s.buckets := by
  unfold dec_item_count
  rfl

@[simp] theorem dec_item_count_size (s : SolState) :
    (dec_item_count s).size = s.size := by
  unfold dec_item_count
  rfl

@[simp] theorem dec_item_count_max_bucket_length (s : SolState) :
    (dec_item_count s).max_bucket_length = s.max_bucket_length := by
  unfold dec_item_count
  rfl

@[simp] theorem dec_item_count_n_items (s : SolState) :
    (dec_item_count s).n_items = (s.n_items + U32 - 1) % U32 := by
  unfold dec_item_count
  rfl

@[simp] theorem dec_item_count_next_addr (s : SolState) :
    (dec_item_count s).next_addr = s.next_addr := by
  unfold dec_item_count
  rfl

@[simp] theorem dec_item_count_freed (s : SolState) :
    (dec_item_count s).freed = s.freed := by
  unfold dec_item_count
  rfl

/-- `solist(size, bucket_length)`: null the table, then eagerly create the
sentinel dummy for bucket 0 (`hashv = 0`, `key = rev(0) = 0`) at address 0. -/
def mkSolist (size mbl : Nat) : SolState :=
  { heap := hupd (fun _ => none) 0 (some ⟨0, 0, none, false, none⟩)
    buckets := (List.replicate size none).set 0 (some 0)
    size := size
    max_bucket_length := mbl
    n_items := 0
    next_addr := 1
    freed := [] }

/-- `advance()`: `prev = cur; cur = next; if (cur) next = cur->next();`.
`none` = dangling-pointer dereference. -/
def advance (h : Heap) (a : SolAcc) : Option SolAcc :=
  match a.nxt with
  | none => some ⟨a.cur, none, a.nxt, a.steps⟩
  | some c =>
    match h c with
    | none => none
    | some nd => some ⟨a.cur, some c, nd.next, a.steps⟩

/-- The while-loops of `get_parent`, `find_node` and the expansion checks
all have the shape `while (next != null && cond(*next)) { advance(); }`,
optionally counting steps (`++steps` / `++span`).  `cond` is the loop
condition on the node `next` points to; `bump` tells whether the loop body
increments the accessor's step counter (32-bit). -/
def walk_loop (h : Heap) (cond : SolNode → Bool) (bump : Bool) :
    Nat → SolAcc → Option SolAcc
  | 0, _ => none
  | fuel + 1, a =>
    match a.nxt with
    | none => some a
    | some nx =>
      match h nx with
      | none => none
      | some nd =>
        if cond nd then
          match advance h a with
          | none => none
          | some a2 =>
            walk_loop h cond bump fuel
              (if bump then ⟨a2.prev, a2.cur, a2.nxt, (a2.steps + 1) % U32⟩ else a2)
        else some a

/-- The descending scan of `get_parent`: `while(slot-- != 0) if
(buckets[slot]) prev = cur = buckets[slot];` — examines slots
`slot-1, ..., 1, 0` in that order, each non-null entry overwriting `cur`. -/
def get_parent_scan (bk : List (Option Nat)) : Nat → Option Nat → Option Nat
  | 0, cur => cur
  | s + 1, cur =>
    get_parent_scan bk s
      (match bk[s]? with
       | some (some b) => some b
       | _ => cur)

/-- `get_parent(slot, key)`: scan the table downwards for a starting bucket,
then walk `while (next != null && next->key < key)`. -/
def get_parent (fuel : Nat) (s : SolState) (slot key : Nat) : Option SolAcc :=
  match s.buckets[0]? with
  | none => none
  | some b0 =>
    if s.buckets.length < slot then none
    else
      match get_parent_scan s.buckets slot b0 with
      | none => none
      | some c =>
        match s.heap c with
        | none => none
        | some nd =>
          walk_loop s.heap (fun x => decide (x.key < key)) false fuel
            ⟨some c, some c, nd.next, 0⟩

/-- The do-while of `initialise_bucket`: body = `get_parent; node->next =
next`; loop condition = `buckets[slot]==null && (next==null || next->key !=
key) && !cur->next.CAS(next, node)`; the CAS is the 2-argument form (the
pointer must match and the mark must be clear), and on success it links the
new dummy after `cur`.  Returns the state and the accessor of the last
iteration. -/
def initb_loop (fuel0 slot bkey addr : Nat) : Nat → SolState → Option (SolState × SolAcc)
  | 0, _ => none
  | fuel + 1, s =>
    match get_parent fuel0 s slot bkey with
    | none => none
    | some a =>
      match s.heap addr with
      | none => none
      | some nd =>
        match (set_node s addr { nd with next := a.nxt, mark := false }).buckets[slot]? with
        | none => none
        | some bs =>
          if bs ≠ none then some (set_node s addr { nd with next := a.nxt, mark := false }, a)
          else
            match (match a.nxt with
                   | none => some true
                   | some nx =>
                     ((set_node s addr { nd with next := a.nxt, mark := false }).heap nx).map
                       (fun xnd => decide (xnd.key ≠ bkey))) with
            | none => none
            | some false => some (set_node s addr { nd with next := a.nxt, mark := false }, a)
            | some true =>
              match a.cur with
              | none => none
              | some cu =>
                match (set_node s addr { nd with next := a.nxt, mark := false }).heap cu with
                | none => none
                | some cnd =>
                  if cnd.next = a.nxt ∧ cnd.mark = false then
                    some (set_node (set_node s addr { nd with next := a.nxt, mark := false })
                      cu { cnd with next := some addr }, a)
                  else initb_loop fuel0 slot bkey addr fuel
                    (set_node s addr { nd with next := a.nxt, mark := false })

/-- The two asserts closing `initialise_bucket`:
`assert(buckets[slot] != null); assert(buckets[slot]->key == key)`. -/
def initb_post (s : SolState) (slot bkey : Nat) : Option SolState :=
  match s.buckets[slot]? with
  | some (some b) =>
    match s.heap b with
    | some bn => if bn.key = bkey then some s else none
    | none => none
  | _ => none
/-- `initialise_bucket(slot)`.  `assert(slot < size)`; return if already
initialised; construct the dummy (`sol_bucket_key` asserts the reversed key
is even); run the do-while; then publish: if this thread's CAS linked the
node, store it in `buckets[slot]`; otherwise adopt the winner's node and
discard ours (`delete node`).  The two final asserts are checked on every
path. -/
def initialise_bucket (fuel : Nat) (s : SolState) (slot : Nat) : Option SolState :=
  if ¬ slot < s.size then none
  else
    match s.buckets[slot]? with
    | none => none
    | some bs =>
      if bs ≠ none then some s
      else
        if rev32 slot % 2 ≠ 0 then none
        else
          match initb_loop fuel slot (rev32 slot) s.next_addr fuel
              (alloc_node s ⟨slot, rev32 slot, none, false, none⟩) with
          | none => none
          | some (s2, a) =>
            match s2.buckets[slot]? with
            | none => none
            | some bs2 =>
              match bs2 with
              | none =>
                (match a.cur with
                 | none => none
                 | some cu =>
                   match s2.heap cu with
                   | none => none
                   | some cnd =>
                     if cnd.next = some s.next_addr then
                       initb_post (set_bucket s2 slot (some s.next_addr)) slot (rev32 slot)
                     else
                       match a.nxt with
                       | none => none
                       | some nx =>
                         initb_post (free_node (set_bucket s2 slot (some nx)) s.next_addr)
                           slot (rev32 slot))
              | some _ =>
                initb_post (free_node s2 s.next_addr) slot (rev32 slot)


/-- The traversal part of `find_node(hashv)` (everything after the lazy
bucket initialisation): `prev = cur = buckets[slot]; next = cur->next();
steps = 0;` then walk `while (next != null && next->key <= key) { advance();
++steps; }` and report whether `cur` carries the key.  Returns the state,
the final cursor and the result. -/
def find_node_rest (fuel : Nat) (s1 : SolState) (slot key : Nat) :
    Option (SolState × SolAcc × Bool) :=
  match s1.buckets[slot]? with
  | none => none
  | some bs2 =>
    match bs2 with
    | none => none
    | some b =>
      match s1.heap b with
      | none => none
      | some bnd =>
        match walk_loop s1.heap (fun x => decide (x.key ≤ key)) true fuel
            ⟨some b, some b, bnd.next, 0⟩ with
        | none => none
        | some a =>
          match a.cur with
          | none => some (s1, a, false)
          | some c =>
            match s1.heap c with
            | none => none
            | some cnd => some (s1, a, decide (cnd.key = key))

/-- `find_node(hashv)`: `slot = hashv % size` (modulo by zero is UB), lazy
`initialise_bucket` when `buckets[slot]` is null, then the traversal. -/
def find_node (fuel : Nat) (s : SolState) (hashv : Nat) :
    Option (SolState × SolAcc × Bool) :=
  if s.size = 0 then none
  else
    match s.buckets[hashv % s.size]? with
    | none => none
    | some none =>
      match initialise_bucket fuel s (hashv % s.size) with
      | none => none
      | some s1 => find_node_rest fuel s1 (hashv % s.size) (sol_node_key hashv)
    | some (some _) => find_node_rest fuel s (hashv % s.size) (sol_node_key hashv)

/-- `expand(curr_size)`: return if the table already grew; otherwise double
the table, copying the old entries and nulling the new half.  The size
arithmetic is 32-bit; an overflowing doubling would allocate a table too
small for the copy loop (an out-of-bounds write), modelled as `none`. -/
def expand (s : SolState) (curr_size : Nat) : Option SolState :=
  if curr_size < s.size then some s
  else
    if s.size * 2 % U32 < s.size then none
    else
      if s.buckets.length < s.size then none
      else
        some { s with
          buckets := s.buckets.take s.size ++
            List.replicate (s.size * 2 % U32 - s.size) none
          size := s.size * 2 % U32 }

/-- The retry loop of `insert_node`: `find_node`; a hit aborts the insert;
otherwise `dnode->next = next` and `cur->next.CAS(next, dnode)` (2-argument
CAS), retrying from `find_node` on failure; on success `inc_item_count`. -/
def ins_loop (fuel0 hashv daddr : Nat) : Nat → SolState → Option (SolState × SolAcc × Bool)
  | 0, _ => none
  | fuel + 1, s =>
    match find_node fuel0 s hashv with
    | none => none
    | some (s1, a, found) =>
      if found then some (s1, a, false)
      else
        match s1.heap daddr with
        | none => none
        | some dn =>
          match a.cur with
          | none => none
          | some cu =>
            match (set_node s1 daddr { dn with next := a.nxt, mark := false }).heap cu with
            | none => none
            | some cnd =>
              if cnd.next = a.nxt ∧ cnd.mark = false then
                some (inc_item_count
                  (set_node (set_node s1 daddr { dn with next := a.nxt, mark := false })
                    cu { cnd with next := some daddr }), a, true)
              else ins_loop fuel0 hashv daddr fuel
                (set_node s1 daddr { dn with next := a.nxt, mark := false })

/-- `insert_node(hashv, payload)`.  Allocate the data node (the
`solist_bucket` constructor asserts the reversed hash is even, then `key |=
DATABIT`), run the retry loop; on failure `delete dnode`; on success walk
forward over data nodes (continuing the `steps` count from `find_node`) and
run the expansion check: on overflow either `expand` + initialise bucket
`slot + nbuckets`, or split by initialising bucket `slot + nbuckets/2`. -/
def insert_node (fuel : Nat) (s : SolState) (hashv payload : Nat) :
    Option (SolState × Bool) :=
  if rev32 hashv % 2 ≠ 0 then none
  else
    match ins_loop fuel hashv s.next_addr fuel
        (alloc_node s ⟨hashv, rev32 hashv ||| 1, none, false, some payload⟩) with
    | none => none
    | some (s2, a, result) =>
      if result = false then
        some (free_node s2 s.next_addr, false)
      else
        match a.cur with
        | none => none
        | some cu =>
          match s2.heap cu with
          | none => none
          | some cnd =>
            match walk_loop s2.heap (fun x => decide (x.key % 2 = 1)) true fuel
                ⟨a.prev, a.cur, cnd.next, a.steps⟩ with
            | none => none
            | some a2 =>
              if a2.steps > s2.max_bucket_length then
                if s2.size = 0 then none
                else
                  if a2.steps ≥ s2.max_bucket_length * 2 % U32 ∨
                      s2.n_items ≥ s2.max_bucket_length * s2.size % U32 then
                    match expand s2 s.size with
                    | none => none
                    | some s3 =>
                      match initialise_bucket fuel s3 (hashv % s2.size + s.size) with
                      | none => none
                      | some s4 => some (s4, true)
                  else
                    match initialise_bucket fuel s2 (hashv % s2.size + s.size / 2) with
                    | none => none
                    | some s3 => some (s3, true)
              else some (s2, true)

/-- The retry loop of `delete_node`: `find_node`; a miss aborts; then the
marking CAS `cur->next.CAS(next, next, true)` (3-argument form: pointer
bits only) and, if it lands, the unlinking CAS `prev->next.CAS(cur, next)`
(2-argument form); on success `dec_item_count` and `delete cur`; a failed
unlink retries the whole loop, leaving the node marked. -/
def del_loop (fuel0 hashv : Nat) : Nat → SolState → Option (SolState × Bool)
  | 0, _ => none
  | fuel + 1, s =>
    match find_node fuel0 s hashv with
    | none => none
    | some (s1, a, found) =>
      if found = false then some (s1, false)
      else
        match a.cur with
        | none => none
        | some cu =>
          match s1.heap cu with
          | none => none
          | some cnd =>
            if cnd.next ≠ a.nxt then del_loop fuel0 hashv fuel s1
            else
              match a.prev with
              | none => none
              | some pr =>
                match (set_node s1 cu { cnd with next := a.nxt, mark := true }).heap pr with
                | none => none
                | some pnd =>
                  if pnd.next = a.cur ∧ pnd.mark = false then
                    some (free_node
                      (dec_item_count
                        (set_node (set_node s1 cu { cnd with next := a.nxt, mark := true })
                          pr { pnd with next := a.nxt, mark := false })) cu, true)
                  else del_loop fuel0 hashv fuel
                    (set_node s1 cu { cnd with next := a.nxt, mark := true })

/-- `delete_node(hashv)` (the final `zap()` only clears the cursor). -/
def delete_node (fuel : Nat) (s : SolState) (hashv : Nat) : Option (SolState × Bool) :=
  del_loop fuel hashv fuel s

/-- The result of `find_item_node`: either a pointer to the payload of the
found node, or — the not-found path of the source, which reaches the end of
the non-void function without a `return` statement — an unspecified value
(C++ undefined behaviour), modelled as `undef`. -/
inductive FindItemRes where
  | found (addr payload : Nat)
  | undef
deriving Repr, DecidableEq

/-- `find_item_node(hashv)`: on a hit, `dynamic_cast` to the data-node type
and return `get_item_ptr()` (a dummy would cast to null and the payload
access would be UB, hence `none` there); on a miss, fall off the end. -/
def find_item_node (fuel : Nat) (s : SolState) (hashv : Nat) :
    Option (SolState × FindItemRes) :=
  match find_node fuel s hashv with
  | none => none
  | some (s1, a, true) =>
    (match a.cur with
     | none => none
     | some c =>
       match s1.heap c with
       | none => none
       | some nd =>
         match nd.payload with
         | some v => some (s1, .found c v)
         | none => none)
  | some (s1, _, false) => some (s1, .undef)

/-- The C6 scenario: a list constructed with `size = 2`,
`max_bucket_length = 2`, then `insert` of the four hashes 0, 2, 4, 6. -/
def c6_run : Option SolState :=
  match insert_node 30 (mkSolist 2 2) 0 100 with
  | some (s, true) =>
    (match insert_node 30 s 2 102 with
     | some (s, true) =>
       (match insert_node 30 s 4 104 with
        | some (s, true) =>
          (match insert_node 30 s 6 106 with
           | some (s, true) => some s
           | _ => none)
        | _ => none)
     | _ => none)
  | _ => none

/-- The state after the C6 scenario (the scenario does succeed, see
`c6_forced_expansion`). -/
def c6_state : SolState := c6_run.getD (mkSolist 1 1)

/-- C6: CONFIRMED.  Inserting hashes 0, 2, 4, 6 into a `size = 2`,
`max_bucket_length = 2` list (all four map to bucket 0 while the size is 2)
doubles the table to 4, initialises the dummy of bucket 2 (`buckets[2]`
becomes non-null), and leaves every inserted hash findable (and 1, never
inserted, not findable). -/
theorem c6_forced_expansion :
    c6_run.map (fun s => (s.size, ((s.buckets[2]?).getD none).isSome, s.n_items)) =
      some (4, true, 4) ∧
    (c6_run.bind (fun s => find_node 30 s 0)).map (fun r => r.2.2) = some true ∧
    (c6_run.bind (fun s => find_node 30 s 2)).map (fun r => r.2.2) = some true ∧
    (c6_run.bind (fun s => find_node 30 s 4)).map (fun r => r.2.2) = some true ∧
    (c6_run.bind (fun s => find_node 30 s 6)).map (fun r => r.2.2) = some true ∧
    (c6_run.bind (fun s => find_node 30 s 1)).map (fun r => r.2.2) = some false := by
  decide

/-- C4: the code has no `return` on the not-found path of `find_item_node`
(undefined behaviour / unspecified value), where the spec promises a
well-defined none.  At the spec's own round-trip input — `insert(5, 7);
remove(5); find(5)` — the call reaches the end of the function without
returning (`undef`), and on a present key it does return the payload
pointer. -/
theorem c4_find_item_node_falls_off_end :
    (((insert_node 30 (mkSolist 2 4) 5 7).bind (fun r => delete_node 30 r.1 5)).bind
      (fun r => (find_item_node 30 r.1 5).map (fun q => q.2))) = some .undef ∧
    ((find_item_node 30 (mkSolist 2 4) 5).map (fun q => q.2)) = some .undef ∧
    ((insert_node 30 (mkSolist 2 4) 5 7).bind
      (fun r => (find_item_node 30 r.1 5).map (fun q => q.2))) = some (.found 1 7) := by
  decide

/-- C2 counterexample: REFUTED as stated.  `insert(0)` then `delete_node(0)`
on a fresh list: the delete succeeds and the unlinked node (address 1) is
`delete`d immediately inside `delete_node` — it is gone from the heap and
recorded as freed before the operation returns — instead of being retired
to a HazardContext for deferred reclamation (the accessor has no
HazardContext at all; its `hazp_init` is an empty TODO). -/
theorem c2_counterexample :
    (((insert_node 30 (mkSolist 2 4) 0 42).bind (fun r => delete_node 30 r.1 0)).map
      (fun r => (r.2, r.1.freed, r.1.heap 1, r.1.n_items))) =
      some (true, [1], none, 0) := by
  decide

/-- A list state in which node 1 (hash 1, key `rev(1)|1`) is logically
deleted: its own link carries the mark bit, exactly the state a concurrent
`delete_node` leaves between its marking CAS and its unlinking CAS. -/
def c3_state : SolState :=
  { heap := fun a =>
      if a = 0 then some ⟨0, 0, some 1, false, none⟩
      else if a = 1 then some ⟨1, 2147483649, some 2, true, some 11⟩
      else if a = 2 then some ⟨3, 3221225473, none, false, some 13⟩
      else none
    buckets := [some 0]
    size := 1
    max_bucket_length := 4
    n_items := 2
    next_addr := 3
    freed := [] }

/-- C3 counterexample: REFUTED as stated.  On `c3_state` the traversal of
`find_node` neither skips nor helps unlink the marked node: `find_node(1)`
reports the marked node (address 1) as the found result, and afterwards the
predecessor still points at it and it is still marked — no unlinking CAS
happened (`advance` only follows the mark-stripped pointer; its mark
handling is an unimplemented TODO in the source).  A traversal past the
marked node (`find_node(3)`) also leaves it in place. -/
theorem c3_counterexample :
    ((find_node 10 c3_state 1).map (fun r => (r.2.1.cur, r.2.2))) =
      some (some 1, true) ∧
    ((find_node 10 c3_state 1).bind (fun r => r.1.heap 0)) =
      some ⟨0, 0, some 1, false, none⟩ ∧
    ((find_node 10 c3_state 1).bind (fun r => r.1.heap 1)) =
      some ⟨1, 2147483649, some 2, true, some 11⟩ ∧
    ((find_node 10 c3_state 3).map (fun r => (r.2.1.cur, r.2.2))) =
      some (some 2, true) ∧
    ((find_node 10 c3_state 3).bind (fun r => r.1.heap 0)) =
      some ⟨0, 0, some 1, false, none⟩ := by
  decide

/-- C10: CONFIRMED.  The descending scan of `get_parent` examines slot 0
last, and `buckets[0]` is never null (the sentinel dummy is created eagerly
by the constructor), so whatever higher-index initialised buckets the scan
found first, the final assignment leaves `prev = cur = buckets[0]` — and
hence `get_parent` behaves identically for every slot: the insertion-point
walk of `initialise_bucket` always starts from the head sentinel. -/
theorem c10_get_parent_from_head (s : SolState) (b0 : Nat)
    (hb0 : s.buckets[0]? = some (some b0)) :
    (∀ slot, get_parent_scan s.buckets slot (some b0) = some b0) ∧
    (∀ slot fuel key, slot ≤ s.buckets.length →
      get_parent fuel s slot key = get_parent fuel s 0 key) := by
  have hscan : ∀ slot (c : Option Nat), get_parent_scan s.buckets (slot + 1) c = some b0 := by
    intro slot
    induction slot with
    | zero =>
      intro c
      show (match s.buckets[0]? with
            | some (some b) => some b
            | _ => c) = some b0
      rw [hb0]
    | succ n ih =>
      intro c
      show get_parent_scan s.buckets (n + 1) _ = some b0
      exact ih _
  constructor
  · intro slot
    cases slot with
    | zero => rfl
    | succ n => exact hscan n (some b0)
  · intro slot fuel key hle
    cases slot with
    | zero => rfl
    | succ n =>
      show get_parent fuel s (n + 1) key = get_parent fuel s 0 key
      simp only [get_parent, hb0]
      rw [if_neg (by omega), if_neg (by omega)]
      rw [hscan n (some b0)]
      simp only [get_parent_scan]

/-- Witness for C10 at the concrete post-expansion state of the C6 scenario,
where buckets 0, 1 and 2 are all initialised: the scan from any slot still
lands on `buckets[0]` (address 0). -/
theorem c10_get_parent_from_head_witness :
    (c6_state.buckets[0]? = some (some 0)) ∧
    ((∀ slot, get_parent_scan c6_state.buckets slot (some 0) = some 0) ∧
     (∀ slot fuel key, slot ≤ c6_state.buckets.length →
        get_parent fuel c6_state slot key = get_parent fuel c6_state 0 key)) :=
  ⟨by decide, c10_get_parent_from_head c6_state 0 (by decide)⟩


/-- The `initialise_bucket` do-while only writes heap cells: buckets, size,
`max_bucket_length`, `n_items`, allocator and freed list are untouched. -/
theorem initb_loop_fields (fuel0 slot bkey addr : Nat) :
    ∀ fuel s s2 a, initb_loop fuel0 slot bkey addr fuel s = some (s2, a) →
      s2.size = s.size ∧ s2.max_bucket_length = s.max_bucket_length ∧
      s2.n_items = s.n_items ∧ s2.buckets = s.buckets ∧
      s2.next_addr = s.next_addr ∧ s2.freed = s.freed := by
  intro fuel
  induction fuel with
  | zero =>
    intro s s2 a h
    exact absurd h (by simp [initb_loop])
  | succ fuel ih =>
    intro s s2 a h
    unfold initb_loop at h
    repeat' split at h
    all_goals
      first
        | (rw [Option.some.injEq, Prod.mk.injEq] at h
           rw [← h.1]
           simp)
        | (have hr := ih _ _ _ h
           simpa using hr)
        | simp at h

/-- `initialise_bucket` never changes the table size, the expansion
threshold or the item count. -/
theorem initialise_bucket_fields (fuel : Nat) (s : SolState) (slot : Nat)
    (s2 : SolState) (h : initialise_bucket fuel s slot = some s2) :
    s2.size = s.size ∧ s2.max_bucket_length = s.max_bucket_length ∧
    s2.n_items = s.n_items := by
  unfold initialise_bucket initb_post at h
  rcases hloop : initb_loop fuel slot (rev32 slot) s.next_addr fuel
      (alloc_node s ⟨slot, rev32 slot, none, false, none⟩) with _ | ⟨s3, a⟩
  · rw [hloop] at h
    repeat' split at h
    all_goals
      first
        | (rw [Option.some.injEq] at h
           rw [← h]
           clear h
           first
             | exact ⟨rfl, rfl, rfl⟩
             | simp_all)
        | simp_all
  · have hfl : s3.size = s.size ∧ s3.max_bucket_length = s.max_bucket_length ∧
        s3.n_items = s.n_items := by
      have hr := initb_loop_fields _ _ _ _ _ _ _ _ hloop
      simpa using ⟨hr.1, hr.2.1, hr.2.2.1⟩
    rw [hloop] at h
    repeat' split at h
    all_goals
      first
        | (rw [Option.some.injEq] at h
           rw [← h]
           clear h
           first
             | exact ⟨rfl, rfl, rfl⟩
             | simp_all)
        | simp_all


/-- The traversal part of `find_node` returns its state unchanged: it only
reads the heap. -/
theorem find_node_rest_state (fuel : Nat) (s1 : SolState) (slot key : Nat)
    (s2 : SolState) (a : SolAcc) (r : Bool)
    (h : find_node_rest fuel s1 slot key = some (s2, a, r)) : s2 = s1 := by
  unfold find_node_rest at h
  repeat' split at h
  all_goals
    first
      | (rw [Option.some.injEq, Prod.mk.injEq] at h
         exact h.1.symm)
      | simp_all

/-- `find_node` (including a lazy bucket initialisation) never changes the
table size, the expansion threshold or the item count. -/
theorem find_node_fields (fuel : Nat) (s : SolState) (hashv : Nat)
    (s1 : SolState) (a : SolAcc) (r : Bool)
    (h : find_node fuel s hashv = some (s1, a, r)) :
    s1.size = s.size ∧ s1.max_bucket_length = s.max_bucket_length ∧
    s1.n_items = s.n_items := by
  unfold find_node at h
  split at h
  · simp at h
  · split at h
    · simp at h
    · split at h
      · simp at h
      · rename_i sib hib
        have hfl := initialise_bucket_fields _ _ _ _ hib
        have hst := find_node_rest_state _ _ _ _ _ _ _ h
        rw [hst]
        exact hfl
    · have hst := find_node_rest_state _ _ _ _ _ _ _ h
      rw [hst]
      exact ⟨rfl, rfl, rfl⟩

@[simp] theorem hupd_self (h : Heap) (a : Nat) (v : Option SolNode) :
    hupd h a v a = v := by
  unfold hupd
  simp

theorem hupd_ne (h : Heap) (a b : Nat) (v : Option SolNode) (hne : b ≠ a) :
    hupd h a v b = h b := by
  unfold hupd
  simp [hne]

theorem free_node_head (s : SolState) (a : Nat) :
    ∃ c, (free_node s a).freed.head? = some c ∧ (free_node s a).heap c = none :=
  ⟨a, by simp, by simp⟩

/-- C2 amended, part of the proof: a successful `del_loop` always decrements
`n_items` by one (32-bit) relative to the state it started from, and the
state it returns has the just-unlinked node's address at the head of the
freed list with its heap cell deallocated. -/
theorem del_loop_effects (fuel0 hashv : Nat) :
    ∀ fuel s s', del_loop fuel0 hashv fuel s = some (s', true) →
      s'.n_items = (s.n_items + U32 - 1) % U32 ∧
      ∃ c, s'.freed.head? = some c ∧ s'.heap c = none := by
  intro fuel
  induction fuel with
  | zero =>
    intro s s' h
    exact absurd h (by simp [del_loop])
  | succ fuel ih =>
    intro s s' h
    unfold del_loop at h
    split at h
    · simp at h
    · rename_i s1 a found hf
      have hfld := find_node_fields _ _ _ _ _ _ hf
      rcases found with _ | _
      · rw [if_pos rfl] at h
        simp at h
      · rw [if_neg (by simp)] at h
        repeat' split at h
        any_goals
          (obtain ⟨h1, h2⟩ := ih _ _ h
           refine ⟨?_, h2⟩
           rw [h1]
           simp [hfld.2.2])
        any_goals simp_all
        all_goals
          subst h
          constructor
          · simp [hfld.2.2]
          · exact free_node_head _ _

/-- C2 (amended): every successful `delete_node(hashv)` decrements
`n_items` (with unsigned wrap-around) and frees the unlinked node
directly inside `delete_node` — `delete cur` — so the node's heap cell is
deallocated and it heads the freed list before the call returns, with no
deferred-reclamation (HazardContext) step in between. -/
theorem c2_amended_delete_frees_directly (fuel : Nat) (s s' : SolState)
    (hashv : Nat) (h : delete_node fuel s hashv = some (s', true)) :
    s'.n_items = (s.n_items + U32 - 1) % U32 ∧
    ∃ c, s'.freed.head? = some c ∧ s'.heap c = none :=
  del_loop_effects fuel hashv fuel s s' h

/-- The list state after `insert(0 ↦ 42)` on a fresh 2-bucket list. -/
def c2_s0 : SolState :=
  ((insert_node 30 (mkSolist 2 4) 0 42).getD (mkSolist 1 1, false)).1

/-- The list state after `delete_node(0)` on `c2_s0`. -/
def c2_s1 : SolState :=
  ((delete_node 30 c2_s0 0).getD (mkSolist 1 1, false)).1

theorem c2_amended_delete_frees_directly_witness :
    c2_s1.n_items = (c2_s0.n_items + U32 - 1) % U32 ∧
    ∃ c, c2_s1.freed.head? = some c ∧ c2_s1.heap c = none :=
  c2_amended_delete_frees_directly 30 c2_s0 c2_s1 0 (by rfl)

/-- C3 (amended): the `find` traversal ignores mark bits entirely.  Whenever
the target bucket is already initialised, `find_node` returns the state
unchanged — it performs no helping unlink CAS at all (`advance`'s mark
handling is an unimplemented TODO) — and, concretely, on `c3_state` (whose
node 1 is logically deleted, i.e. marked) `find_node(1)` follows the
mark-stripped pointers and reports the marked node as the found result,
still marked and still linked in. -/
theorem c3_amended_find_ignores_marks :
    (∀ fuel s hashv s2 a r b,
      s.buckets[hashv % s.size]? = some (some b) →
      find_node fuel s hashv = some (s2, a, r) → s2 = s) ∧
    ((find_node 10 c3_state 1).map
        (fun r => (r.2.1.cur, r.2.2, r.1.heap 0, r.1.heap 1))) =
      some (some 1, true, some ⟨0, 0, some 1, false, none⟩,
        some ⟨1, 2147483649, some 2, true, some 11⟩) := by
  constructor
  · intro fuel s hashv s2 a r b hb h
    unfold find_node at h
    split at h
    · simp at h
    · split at h
      · simp_all
      · simp_all
      · exact find_node_rest_state _ _ _ _ _ _ _ h
  · decide

theorem c3_amended_find_ignores_marks_witness :
    ((find_node 10 c3_state 3).getD (mkSolist 1 1, ⟨none, none, none, 0⟩, false)).1
      = c3_state :=
  c3_amended_find_ignores_marks.1 10 c3_state 3 _ _ _ 0 (by decide) (by rfl)

/-! ## The sorted-chain invariant (C7, C8)

The split-ordered list proper is the chain of nodes starting at
`buckets[0]` and following the (mark-stripped) `next` pointers.  We
represent a chain by the list of its node addresses: `seg_ok h o l t`
says that starting from the pointer `o` the addresses in `l` are visited
in order, each node present in the heap, and the last node's `next`
pointer is `t`. -/
def seg_ok (h : Heap) : Option Nat → List Nat → Option Nat → Bool
  | o, [], t => decide (o = t)
  | o, x :: xs, t =>
    decide (o = some x) &&
      (match h x with
       | none => false
       | some nd => seg_ok h nd.next xs t)

/-- The key stored at address `x` (0 for a dangling address). -/
def keyOf (h : Heap) (x : Nat) : Nat :=
  match h x with
  | none => 0
  | some nd => nd.key

/-- The keys along a chain. -/
def chain_keys (h : Heap) (l : List Nat) : List Nat := l.map (keyOf h)

/-- The number of data nodes (odd key, i.e. DATABIT set) along a chain. -/
def dataCount (h : Heap) (l : List Nat) : Nat :=
  (chain_keys h l).countP (fun k => decide (k % 2 = 1))

@[simp] theorem seg_ok_nil (h : Heap) (o t : Option Nat) :
    seg_ok h o [] t = decide (o = t) := rfl

theorem seg_ok_cons (h : Heap) (o t : Option Nat) (x : Nat) (xs : List Nat) :
    seg_ok h o (x :: xs) t = true ↔
      o = some x ∧ ∃ nd, h x = some nd ∧ seg_ok h nd.next xs t = true := by
  show (decide (o = some x) && _) = true ↔ _
  cases hx : h x with
  | none => simp [hx]
  | some nd => simp [hx]

theorem seg_append (h : Heap) (l1 : List Nat) :
    ∀ (l2 : List Nat) (o t : Option Nat),
      seg_ok h o (l1 ++ l2) t = true ↔
        ∃ m, seg_ok h o l1 m = true ∧ seg_ok h m l2 t = true := by
  induction l1 with
  | nil =>
    intro l2 o t
    constructor
    · intro hh
      exact ⟨o, by simp, hh⟩
    · rintro ⟨m, hm, hh⟩
      simp at hm
      rw [hm]
      exact hh
  | cons x xs ih =>
    intro l2 o t
    rw [List.cons_append, seg_ok_cons]
    constructor
    · rintro ⟨ho, nd, hnd, hseg⟩
      obtain ⟨m, h1, h2⟩ := (ih l2 nd.next t).mp hseg
      exact ⟨m, (seg_ok_cons h o m x xs).mpr ⟨ho, nd, hnd, h1⟩, h2⟩
    · rintro ⟨m, h1, h2⟩
      obtain ⟨ho, nd, hnd, hseg⟩ := (seg_ok_cons h o m x xs).mp h1
      exact ⟨ho, nd, hnd, (ih l2 nd.next t).mpr ⟨m, hseg, h2⟩⟩

theorem seg_head_mem (h : Heap) (y : Nat) (l : List Nat)
    (hs : seg_ok h (some y) l none = true) : y ∈ l := by
  cases l with
  | nil => simp at hs
  | cons z zs =>
    obtain ⟨hz, _⟩ := (seg_ok_cons h _ _ z zs).mp hs
    rw [Option.some.injEq] at hz
    rw [← hz]
    exact List.mem_cons_self _ _

theorem seg_mem_next (h : Heap) (l : List Nat) :
    ∀ (o : Option Nat) (x y : Nat) (nd : SolNode),
      seg_ok h o l none = true → x ∈ l → h x = some nd → nd.next = some y →
      y ∈ l := by
  induction l with
  | nil => intro o x y nd _ hx; simp at hx
  | cons z zs ih =>
    intro o x y nd hs hx hnd hnxt
    obtain ⟨ho, znd, hznd, hseg⟩ := (seg_ok_cons h o none z zs).mp hs
    rcases List.mem_cons.mp hx with rfl | hx
    · rw [hnd] at hznd
      rw [Option.some.injEq] at hznd
      rw [← hznd, hnxt] at hseg
      exact List.mem_cons_of_mem _ (seg_head_mem h y zs hseg)
    · exact List.mem_cons_of_mem _ (ih znd.next x y nd hseg hx hnd hnxt)

theorem seg_congr (h h2 : Heap) (l : List Nat) :
    ∀ (o t : Option Nat), (∀ x ∈ l, h2 x = h x) →
      seg_ok h2 o l t = seg_ok h o l t := by
  induction l with
  | nil => intro o t _; rfl
  | cons z zs ih =>
    intro o t hagree
    show (decide (o = some z) && _) = (decide (o = some z) && _)
    rw [hagree z (List.mem_cons_self _ _)]
    cases h z with
    | none => rfl
    | some nd =>
      show (_ && seg_ok h2 nd.next zs t) = (_ && seg_ok h nd.next zs t)
      rw [ih nd.next t (fun x hx => hagree x (List.mem_cons_of_mem _ hx))]

theorem chain_keys_congr (h h2 : Heap) (l : List Nat)
    (hagree : ∀ x ∈ l, h2 x = h x) :
    chain_keys h2 l = chain_keys h l := by
  unfold chain_keys
  apply List.map_congr_left
  intro x hx
  unfold keyOf
  rw [hagree x hx]

theorem seg_split (h : Heap) (o : Option Nat) (l : List Nat) (x : Nat)
    (hs : seg_ok h o l none = true) (hx : x ∈ l) :
    ∃ l1 l2 nd, l = l1 ++ x :: l2 ∧ seg_ok h o l1 (some x) = true ∧
      h x = some nd ∧ seg_ok h nd.next l2 none = true := by
  obtain ⟨l1, l2, rfl⟩ := List.append_of_mem hx
  obtain ⟨m, h1, h2⟩ := (seg_append h l1 (x :: l2) o none).mp hs
  obtain ⟨hm, nd, hnd, hseg⟩ := (seg_ok_cons h m none x l2).mp h2
  rw [hm] at h1
  exact ⟨l1, l2, nd, rfl, h1, hnd, hseg⟩

theorem seg_forced_head (h : Heap) (l : List Nat) (cu : Nat)
    (hs : seg_ok h (some cu) l none = true) :
    ∃ l2, l = cu :: l2 := by
  cases l with
  | nil => simp at hs
  | cons w ws =>
    obtain ⟨hw, _⟩ := (seg_ok_cons h _ _ w ws).mp hs
    rw [Option.some.injEq] at hw
    exact ⟨ws, by rw [hw]⟩

/-- Well-formedness of a list state `s` with chain `l` (the addresses
reachable from `buckets[0]`): the chain exists and is duplicate-free, its
keys are strictly increasing, no chain node is marked (sequentially a
marked node is unlinked and freed within the same `delete_node` call),
every non-null bucket entry is a chain node holding the bucket's
(reversed, even) key, every dummy (even-key) chain node is published in
its bucket slot, chain addresses are below the allocation cursor, and the
table is a power of two (at most `2^31`, see `expand`) with one bucket
entry per slot. -/
structure WFl (s : SolState) (l : List Nat) : Prop where
  bucket0 : ∃ b0, s.buckets[0]? = some (some b0) ∧
    seg_ok s.heap (some b0) l none = true
  nodup : l.Nodup
  sorted : List.Chain' (fun a b => a < b) (chain_keys s.heap l)
  unmarked : ∀ x ∈ l, ∃ nd, s.heap x = some nd ∧ nd.mark = false
  covered : ∀ i b, s.buckets[i]? = some (some b) →
    b ∈ l ∧ ∃ nd, s.heap b = some nd ∧ nd.key = rev32 i
  dummies : ∀ x ∈ l, ∀ nd, s.heap x = some nd → nd.key % 2 = 0 →
    ∃ i, s.buckets[i]? = some (some x) ∧ rev32 i = nd.key
  fresh : ∀ x ∈ l, x < s.next_addr
  shape : ∃ k, k ≤ 31 ∧ s.size = 2 ^ k ∧ s.buckets.length = s.size

theorem keyOf_eq (h : Heap) (x : Nat) (nd : SolNode) (hx : h x = some nd) :
    keyOf h x = nd.key := by
  unfold keyOf
  rw [hx]

/-- Inserting a key strictly between its neighbours keeps a strictly
increasing key list strictly increasing. -/
theorem chain_insert_mid (K1 K2 : List Nat) (k1 k2 : Nat)
    (hs : List.Chain' (fun a b => a < b) (K1 ++ k1 :: K2))
    (h12 : k1 < k2) (h2 : ∀ y ∈ K2.head?, k2 < y) :
    List.Chain' (fun a b => a < b) (K1 ++ k1 :: k2 :: K2) := by
  rw [List.chain'_append] at hs ⊢
  obtain ⟨hK1, hr, hb⟩ := hs
  refine ⟨hK1, ?_, ?_⟩
  · rw [List.chain'_cons']
    refine ⟨by simpa using h12, ?_⟩
    rw [List.chain'_cons']
    rw [List.chain'_cons'] at hr
    exact ⟨h2, hr.2⟩
  · intro x hx y hy
    simp at hy
    rw [← hy]
    exact hb x hx k1 (by simp)

/-- Removing an interior element keeps a strictly increasing key list
strictly increasing. -/
theorem chain_remove_mid (K1 K2 : List Nat) (kp kc : Nat)
    (hs : List.Chain' (fun a b => a < b) (K1 ++ kp :: kc :: K2)) :
    List.Chain' (fun a b => a < b) (K1 ++ kp :: K2) := by
  rw [List.chain'_append] at hs ⊢
  obtain ⟨hK1, hr, hb⟩ := hs
  rw [List.chain'_cons'] at hr
  obtain ⟨hpc, hr2⟩ := hr
  rw [List.chain'_cons'] at hr2
  obtain ⟨hcy, hK2⟩ := hr2
  refine ⟨hK1, ?_, ?_⟩
  · rw [List.chain'_cons']
    refine ⟨?_, hK2⟩
    intro y hy
    exact lt_trans (hpc kc (by simp)) (hcy y hy)
  · intro x hx y hy
    simp at hy
    rw [← hy]
    exact hb x hx kp (by simp)

/-- The accessor invariant maintained by every `while (next && cond(*next))
advance()` walk that starts from a chain node `b`: `cur` is a chain node
whose stored `next` pointer is the accessor's `next`, `cur` is the start
or satisfies the loop condition, and `prev` is either `cur` (= the start,
before any advance) or a chain node linked to `cur` that is the start or
satisfies the loop condition. -/
def AccInv (h : Heap) (cond : SolNode → Bool) (l : List Nat) (b : Nat)
    (a : SolAcc) : Prop :=
  ∃ cu cnd, a.cur = some cu ∧ cu ∈ l ∧ h cu = some cnd ∧ cnd.next = a.nxt ∧
    (cu = b ∨ cond cnd = true) ∧
    ((a.prev = some b ∧ cu = b) ∨
     ∃ pu pnd, a.prev = some pu ∧ pu ∈ l ∧ h pu = some pnd ∧
       pnd.next = some cu ∧ (pu = b ∨ cond pnd = true))

theorem walk_loop_inv (h : Heap) (cond : SolNode → Bool) (bump : Bool)
    (l : List Nat) (b : Nat) (o : Option Nat)
    (hseg : seg_ok h o l none = true) :
    ∀ (fuel : Nat) (a a' : SolAcc), AccInv h cond l b a →
      walk_loop h cond bump fuel a = some a' →
      AccInv h cond l b a' ∧
      (a'.nxt = none ∨
        ∃ nx nnd, a'.nxt = some nx ∧ h nx = some nnd ∧ cond nnd = false) := by
  intro fuel
  induction fuel with
  | zero =>
    intro a a' _ hw
    exact absurd hw (by simp [walk_loop])
  | succ fuel ih =>
    intro a a' hacc hw
    obtain ⟨cu, cnd, hcur, hcu, hcnd, hnxt, hcond, hprev⟩ := hacc
    unfold walk_loop at hw
    cases hnx : a.nxt with
    | none =>
      simp only [hnx] at hw
      rw [Option.some.injEq] at hw
      rw [← hw]
      refine ⟨⟨cu, cnd, hcur, hcu, hcnd, ?_, hcond, hprev⟩, Or.inl hnx⟩
      rw [hnxt, hnx]
    | some nx =>
      simp only [hnx] at hw
      cases hnd : h nx with
      | none =>
        simp only [hnd] at hw
        simp at hw
      | some nd =>
        simp only [hnd] at hw
        by_cases hc : cond nd = true
        · rw [if_pos hc] at hw
          simp only [advance, hnx, hnd] at hw
          have hmem : nx ∈ l := by
            apply seg_mem_next h l o cu nx cnd hseg hcu hcnd
            rw [hnxt, hnx]
          have hacc2 : AccInv h cond l b
              (if bump then
                ⟨a.cur, some nx, nd.next, (a.steps + 1) % U32⟩
              else ⟨a.cur, some nx, nd.next, a.steps⟩) := by
            have core : ∀ st : Nat,
                AccInv h cond l b ⟨a.cur, some nx, nd.next, st⟩ := by
              intro st
              refine ⟨nx, nd, rfl, hmem, hnd, rfl, Or.inr hc, Or.inr ?_⟩
              refine ⟨cu, cnd, hcur, hcu, hcnd, ?_, hcond⟩
              rw [hnxt, hnx]
            cases bump with
            | false => exact core a.steps
            | true => exact core ((a.steps + 1) % U32)
          exact ih _ a' hacc2 hw
        · rw [if_neg hc] at hw
          rw [Option.some.injEq] at hw
          rw [← hw]
          refine ⟨⟨cu, cnd, hcur, hcu, hcnd, hnxt, hcond, hprev⟩, Or.inr ?_⟩
          exact ⟨nx, nd, hnx, hnd, Bool.not_eq_true _ ▸ hc⟩

/-- The descending bucket scan inside `get_parent` always lands on
`buckets[0]` (which is never null): slot 0 is examined last and
overwrites every earlier hit. -/
theorem gp_scan_b0 (bk : List (Option Nat)) (b0 : Nat)
    (h0 : bk[0]? = some (some b0)) :
    ∀ (slot : Nat) (c : Option Nat),
      get_parent_scan bk (slot + 1) c = some b0 := by
  intro slot
  induction slot with
  | zero =>
    intro c
    have hm : (match bk[0]? with
               | some (some b) => some b
               | _ => c) = some b0 := by
      rw [h0]
    show get_parent_scan bk 0 (match bk[0]? with
               | some (some b) => some b
               | _ => c) = some b0
    rw [hm]
    rfl
  | succ slot ih =>
    intro c
    exact ih _

/-- What `get_parent(slot, key)` returns on a well-formed list: an
accessor positioned in the chain (starting from the head sentinel
`buckets[0]`), before the first node whose key is not `< key`. -/
theorem get_parent_wf (fuel : Nat) (s : SolState) (l : List Nat)
    (slot bkey : Nat) (a : SolAcc) (hwf : WFl s l)
    (h : get_parent fuel s slot bkey = some a) :
    ∃ b0, s.buckets[0]? = some (some b0) ∧
      AccInv s.heap (fun x => decide (x.key < bkey)) l b0 a ∧
      (a.nxt = none ∨
        ∃ nx nnd, a.nxt = some nx ∧ s.heap nx = some nnd ∧
          ¬ nnd.key < bkey) := by
  obtain ⟨b0, hb0, hseg⟩ := hwf.bucket0
  have hb0mem : b0 ∈ l := seg_head_mem _ _ _ hseg
  obtain ⟨bnd, hbnd, _⟩ := hwf.unmarked b0 hb0mem
  unfold get_parent at h
  simp only [hb0] at h
  split at h
  · simp at h
  · have hscan : get_parent_scan s.buckets slot (some b0) = some b0 := by
      cases slot with
      | zero => rfl
      | succ n => exact gp_scan_b0 s.buckets b0 hb0 n _
    simp only [hscan, hbnd] at h
    have hstart : AccInv s.heap (fun x => decide (x.key < bkey)) l b0
        ⟨some b0, some b0, bnd.next, 0⟩ :=
      ⟨b0, bnd, rfl, hb0mem, hbnd, rfl, Or.inl rfl, Or.inl ⟨rfl, rfl⟩⟩
    obtain ⟨hacc, hpost⟩ :=
      walk_loop_inv s.heap _ false l b0 (some b0) hseg fuel _ a hstart h
    refine ⟨b0, hb0, hacc, ?_⟩
    rcases hpost with hnone | ⟨nx, nnd, h1, h2, h3⟩
    · exact Or.inl hnone
    · refine Or.inr ⟨nx, nnd, h1, h2, ?_⟩
      simpa using h3

/-- The common CAS splice of `insert_node` and `initialise_bucket`: write
the fresh node `nnd` at address `addr` with `next` copied from `cu`'s
node, then swing `cu`'s `next` to `addr`.  If `addr` is fresh and `nnd`'s
key lies strictly between `cu`'s key and the key of `cu`'s successor, the
chain gains exactly the node `addr` after `cu` and stays duplicate-free
and strictly sorted. -/
theorem wfl_splice (sb : SolState) (l : List Nat) (cu addr : Nat)
    (cnd nnd : SolNode) (hwf : WFl sb l) (hcu : cu ∈ l)
    (hcnd : sb.heap cu = some cnd) (haddr : addr ∉ l)
    (hnext : nnd.next = cnd.next)
    (hkey1 : cnd.key < nnd.key)
    (hkey2 : ∀ nx nxnd, cnd.next = some nx → sb.heap nx = some nxnd →
      nnd.key < nxnd.key) :
    ∃ l1 l2,
      l = l1 ++ cu :: l2 ∧
      (∀ b0, sb.buckets[0]? = some (some b0) →
        seg_ok (set_node (set_node sb addr nnd) cu
          { cnd with next := some addr }).heap (some b0)
          (l1 ++ cu :: addr :: l2) none = true) ∧
      (l1 ++ cu :: addr :: l2).Nodup ∧
      List.Chain' (fun a b => a < b)
        (chain_keys (set_node (set_node sb addr nnd) cu
          { cnd with next := some addr }).heap (l1 ++ cu :: addr :: l2)) ∧
      (∀ x, x ∈ l1 ++ cu :: addr :: l2 ↔ x = addr ∨ x ∈ l) ∧
      chain_keys (set_node (set_node sb addr nnd) cu
          { cnd with next := some addr }).heap (l1 ++ cu :: addr :: l2) =
        chain_keys sb.heap l1 ++ cnd.key :: nnd.key :: chain_keys sb.heap l2 ∧
      chain_keys sb.heap l =
        chain_keys sb.heap l1 ++ cnd.key :: chain_keys sb.heap l2 := by
  obtain ⟨b0, hb0, hsegl⟩ := hwf.bucket0
  obtain ⟨l1, l2, nd0, hsplit, hseg1, hnd0, hseg2⟩ :=
    seg_split sb.heap (some b0) l cu hsegl hcu
  have hnd0e : nd0 = cnd := by
    rw [hcnd] at hnd0
    exact ((Option.some.injEq _ _).mp hnd0).symm
  rw [hnd0e] at hseg2
  have hcu_addr : cu ≠ addr := fun he => haddr (he ▸ hcu)
  have hmem1 : ∀ x ∈ l1, x ∈ l := by
    intro x hx
    rw [hsplit]
    exact List.mem_append_left _ hx
  have hmem2 : ∀ x ∈ l2, x ∈ l := by
    intro x hx
    rw [hsplit]
    exact List.mem_append_right _ (List.mem_cons_of_mem _ hx)
  have hcul : cu ∉ l1 ++ l2 := by
    have hnd := hwf.nodup
    rw [hsplit] at hnd
    exact (List.nodup_cons.mp (List.nodup_middle.mp hnd)).1
  have hagree : ∀ x, x ≠ cu → x ≠ addr →
      (set_node (set_node sb addr nnd) cu
        { cnd with next := some addr }).heap x = sb.heap x := by
    intro x h1 h2
    simp [set_node, hupd, h1, h2]
  have h_at_cu : (set_node (set_node sb addr nnd) cu
      { cnd with next := some addr }).heap cu =
      some { cnd with next := some addr } := by
    simp [set_node, hupd]
  have h_at_addr : (set_node (set_node sb addr nnd) cu
      { cnd with next := some addr }).heap addr = some nnd := by
    simp [set_node, hupd, Ne.symm hcu_addr]
  have hag1 : ∀ x ∈ l1, (set_node (set_node sb addr nnd) cu
      { cnd with next := some addr }).heap x = sb.heap x := by
    intro x hx
    exact hagree x (fun he => hcul (he ▸ List.mem_append_left _ hx))
      (fun he => haddr (he ▸ hmem1 x hx))
  have hag2 : ∀ x ∈ l2, (set_node (set_node sb addr nnd) cu
      { cnd with next := some addr }).heap x = sb.heap x := by
    intro x hx
    exact hagree x (fun he => hcul (he ▸ List.mem_append_right _ hx))
      (fun he => haddr (he ▸ hmem2 x hx))
  have hperm : (l1 ++ cu :: addr :: l2).Perm (addr :: l) := by
    rw [hsplit]
    have e1 : l1 ++ cu :: addr :: l2 = (l1 ++ [cu]) ++ addr :: l2 := by simp
    have e2 : (l1 ++ [cu]) ++ l2 = l1 ++ cu :: l2 := by simp
    rw [e1]
    exact List.Perm.trans List.perm_middle (by rw [e2])
  have hkmid : chain_keys (set_node (set_node sb addr nnd) cu
      { cnd with next := some addr }).heap (l1 ++ cu :: addr :: l2) =
      chain_keys sb.heap l1 ++ cnd.key :: nnd.key :: chain_keys sb.heap l2 := by
    unfold chain_keys
    rw [List.map_append, List.map_cons, List.map_cons]
    congr 1
    · exact List.map_congr_left (fun x hx => by
        unfold keyOf
        rw [hag1 x hx])
    · congr 1
      · unfold keyOf
        rw [h_at_cu]
      · congr 1
        · unfold keyOf
          rw [h_at_addr]
        · exact List.map_congr_left (fun x hx => by
            unfold keyOf
            rw [hag2 x hx])
  have hkold : chain_keys sb.heap l =
      chain_keys sb.heap l1 ++ cnd.key :: chain_keys sb.heap l2 := by
    rw [hsplit]
    unfold chain_keys
    rw [List.map_append, List.map_cons]
    congr 2
    unfold keyOf
    rw [hcnd]
  refine ⟨l1, l2, hsplit, ?_, ?_, ?_, ?_, hkmid, hkold⟩
  · intro b0' hb0'
    rw [hb0] at hb0'
    have hb0e : b0' = b0 := by
      have := (Option.some.injEq _ _).mp hb0'
      exact ((Option.some.injEq _ _).mp this).symm
    rw [hb0e]
    apply (seg_append _ l1 _ _ _).mpr
    refine ⟨some cu, ?_, ?_⟩
    · rw [seg_congr sb.heap _ l1 (some b0) (some cu) hag1]
      exact hseg1
    · apply (seg_ok_cons _ _ _ _ _).mpr
      refine ⟨rfl, { cnd with next := some addr }, h_at_cu, ?_⟩
      apply (seg_ok_cons _ _ _ _ _).mpr
      refine ⟨rfl, nnd, h_at_addr, ?_⟩
      rw [hnext]
      rw [seg_congr sb.heap _ l2 cnd.next none hag2]
      exact hseg2
  · rw [List.Perm.nodup_iff hperm, List.nodup_cons]
    exact ⟨haddr, hwf.nodup⟩
  · rw [hkmid]
    have hsorted := hwf.sorted
    rw [hkold] at hsorted
    apply chain_insert_mid _ _ _ _ hsorted hkey1
    intro y hy
    cases l2 with
    | nil => simp [chain_keys] at hy
    | cons w ws =>
      obtain ⟨hw, wnd, hwnd, _⟩ := (seg_ok_cons _ _ _ _ _).mp hseg2
      have hkw : keyOf sb.heap w = wnd.key := keyOf_eq _ _ _ hwnd
      unfold chain_keys at hy
      rw [List.map_cons] at hy
      simp at hy
      rw [← hy, hkw]
      exact hkey2 w wnd hw hwnd
  · intro x
    rw [List.Perm.mem_iff hperm, List.mem_cons]

/-- The physical unlink of `delete_node`: with `pr` linked to `cu` in the
chain, a heap `h2` that removes `cu`, swings `pr`'s `next` to `cu`'s
successor and leaves everything else alone carries the chain with `cu`
dropped — still duplicate-free and strictly sorted. -/
theorem wfl_unlink (sb : SolState) (l : List Nat) (pr cu : Nat)
    (pnd cnd : SolNode) (hwf : WFl sb l)
    (hpr : pr ∈ l) (hpnd : sb.heap pr = some pnd)
    (hpnext : pnd.next = some cu) (hcnd : sb.heap cu = some cnd)
    (h2 : Heap)
    (hh2 : ∀ x, h2 x = if x = cu then none
      else if x = pr then
        some { pnd with next := cnd.next, mark := false }
      else sb.heap x) :
    ∃ l1 l2,
      l = l1 ++ pr :: cu :: l2 ∧ pr ≠ cu ∧
      (∀ b0, sb.buckets[0]? = some (some b0) →
        seg_ok h2 (some b0) (l1 ++ pr :: l2) none = true) ∧
      (l1 ++ pr :: l2).Nodup ∧
      List.Chain' (fun a b => a < b) (chain_keys h2 (l1 ++ pr :: l2)) ∧
      (∀ x, x ∈ l1 ++ pr :: l2 ↔ x ∈ l ∧ x ≠ cu) ∧
      chain_keys h2 (l1 ++ pr :: l2) =
        chain_keys sb.heap l1 ++ pnd.key :: chain_keys sb.heap l2 ∧
      chain_keys sb.heap l =
        chain_keys sb.heap l1 ++ pnd.key :: cnd.key :: chain_keys sb.heap l2 := by
  obtain ⟨b0, hb0, hsegl⟩ := hwf.bucket0
  obtain ⟨l1, t, pnd0, hsplit0, hseg1, hpnd0, hsegt⟩ :=
    seg_split sb.heap (some b0) l pr hsegl hpr
  have hpnd0e : pnd0 = pnd := by
    rw [hpnd] at hpnd0
    exact ((Option.some.injEq _ _).mp hpnd0).symm
  rw [hpnd0e, hpnext] at hsegt
  obtain ⟨l2, rfl⟩ := seg_forced_head sb.heap t cu hsegt
  obtain ⟨-, cnd0, hcnd0, hseg2⟩ := (seg_ok_cons _ _ _ _ _).mp hsegt
  have hcnd0e : cnd0 = cnd := by
    rw [hcnd] at hcnd0
    exact ((Option.some.injEq _ _).mp hcnd0).symm
  rw [hcnd0e] at hseg2
  have hnd := hwf.nodup
  rw [hsplit0] at hnd
  have hprn : pr ∉ l1 ++ cu :: l2 := (List.nodup_cons.mp (List.nodup_middle.mp hnd)).1
  have hprcu : pr ≠ cu := by
    intro he
    exact hprn (List.mem_append_right _ (he ▸ List.mem_cons_self _ _))
  have hcun : cu ∉ l1 := by
    intro hc
    have := (List.nodup_cons.mp (List.nodup_middle.mp hnd)).2
    have h2n := List.nodup_middle.mp this
    exact (List.nodup_cons.mp h2n).1 (List.mem_append_left _ hc)
  have hcul2 : cu ∉ l2 := by
    have := (List.nodup_cons.mp (List.nodup_middle.mp hnd)).2
    have h2n := List.nodup_middle.mp this
    exact fun hc => (List.nodup_cons.mp h2n).1 (List.mem_append_right _ hc)
  have hprl1 : pr ∉ l1 := fun hc => hprn (List.mem_append_left _ hc)
  have hprl2 : pr ∉ l2 := fun hc =>
    hprn (List.mem_append_right _ (List.mem_cons_of_mem _ hc))
  have hag1 : ∀ x ∈ l1, h2 x = sb.heap x := by
    intro x hx
    have hxc : x ≠ cu := fun he => hcun (he ▸ hx)
    have hxp : x ≠ pr := fun he => hprl1 (he ▸ hx)
    rw [hh2 x, if_neg hxc, if_neg hxp]
  have hag2 : ∀ x ∈ l2, h2 x = sb.heap x := by
    intro x hx
    have hxc : x ≠ cu := fun he => hcul2 (he ▸ hx)
    have hxp : x ≠ pr := fun he => hprl2 (he ▸ hx)
    rw [hh2 x, if_neg hxc, if_neg hxp]
  have h_at_pr : h2 pr = some { pnd with next := cnd.next, mark := false } := by
    rw [hh2 pr, if_neg hprcu, if_pos rfl]
  have hsub : (l1 ++ pr :: l2).Sublist (l1 ++ pr :: cu :: l2) :=
    List.Sublist.append_left
      (List.Sublist.cons₂ pr (List.sublist_cons_self cu l2)) l1
  have hkeys : chain_keys h2 (l1 ++ pr :: l2) =
      chain_keys sb.heap l1 ++ pnd.key :: chain_keys sb.heap l2 := by
    unfold chain_keys
    rw [List.map_append, List.map_cons]
    congr 1
    · exact List.map_congr_left (fun x hx => by
        unfold keyOf
        rw [hag1 x hx])
    · congr 1
      · unfold keyOf
        rw [h_at_pr]
      · exact List.map_congr_left (fun x hx => by
          unfold keyOf
          rw [hag2 x hx])
  have hkold : chain_keys sb.heap l =
      chain_keys sb.heap l1 ++ pnd.key :: cnd.key :: chain_keys sb.heap l2 := by
    rw [hsplit0]
    unfold chain_keys
    rw [List.map_append, List.map_cons, List.map_cons]
    congr 2
    · unfold keyOf
      rw [hpnd]
    · congr 1
      unfold keyOf
      rw [hcnd]
  refine ⟨l1, l2, hsplit0, hprcu, ?_, ?_, ?_, ?_, hkeys, hkold⟩
  · intro b0' hb0'
    rw [hb0] at hb0'
    have hb0e : b0' = b0 := by
      have h1 := (Option.some.injEq _ _).mp hb0'
      exact ((Option.some.injEq _ _).mp h1).symm
    rw [hb0e]
    apply (seg_append _ l1 _ _ _).mpr
    refine ⟨some pr, ?_, ?_⟩
    · rw [seg_congr sb.heap _ l1 (some b0) (some pr) hag1]
      exact hseg1
    · apply (seg_ok_cons _ _ _ _ _).mpr
      refine ⟨rfl, { pnd with next := cnd.next, mark := false }, h_at_pr, ?_⟩
      rw [seg_congr sb.heap _ l2 cnd.next none hag2]
      exact hseg2
  · exact List.Sublist.nodup hsub (hsplit0 ▸ hwf.nodup)
  · rw [hkeys]
    have hsorted := hwf.sorted
    rw [hkold] at hsorted
    exact chain_remove_mid _ _ _ _ hsorted
  · intro x
    constructor
    · intro hx
      refine ⟨hsplit0 ▸ List.Sublist.mem hx hsub, ?_⟩
      intro he
      rw [he] at hx
      rcases List.mem_append.mp hx with hc | hc
      · exact hcun hc
      · rcases List.mem_cons.mp hc with hc2 | hc2
        · exact hprcu hc2.symm
        · exact hcul2 hc2
    · rintro ⟨hx, hne⟩
      rw [hsplit0] at hx
      rcases List.mem_append.mp hx with hc | hc
      · exact List.mem_append_left _ hc
      · rcases List.mem_cons.mp hc with hc2 | hc2
        · rw [hc2]
          exact List.mem_append_right _ (List.mem_cons_self _ _)
        · rcases List.mem_cons.mp hc2 with hc3 | hc3
          · exact absurd hc3 hne
          · exact List.mem_append_right _ (List.mem_cons_of_mem _ hc3)

/-- Setting the low bit of an odd number changes nothing. -/
theorem lor_one_of_odd {x : Nat} (hx : x % 2 = 1) : x ||| 1 = x := by
  apply Nat.eq_of_testBit_eq
  intro i
  cases i with
  | zero =>
    rw [Nat.testBit_or]
    simp [Nat.testBit_zero, hx]
  | succ n =>
    rw [Nat.testBit_or]
    have h1 : (1 : Nat).testBit (n + 1) = false := by
      simp [Nat.testBit_succ]
    rw [h1, Bool.or_false]

/-- A data key is at least the reversed hash. -/
theorem le_sol_node_key (h : Nat) : rev32 h ≤ sol_node_key h := by
  unfold sol_node_key
  rcases Nat.even_or_odd (rev32 h) with he | ho
  · rw [lor_one_of_even (Nat.even_iff.mp he)]
    omega
  · rw [lor_one_of_odd (Nat.odd_iff.mp ho)]

/-- On a well-formed table every bucket index is below `2^31`, so every
bucket key (a reversed index) is even. -/
theorem covered_key_even (s : SolState) (l : List Nat) (hwf : WFl s l)
    (i : Nat) (hi : i < s.buckets.length) : rev32 i % 2 = 0 := by
  obtain ⟨k, hk, hsz, hlen⟩ := hwf.shape
  apply rev32_even_of_lt
  have : (2 : Nat) ^ k ≤ 2 ^ 31 := Nat.pow_le_pow_right (by omega) hk
  omega

/-- While `buckets[slot]` is still null, no chain node carries the would-be
bucket key `rev32 slot` (every even-key chain node is published in its own
slot, and `rev32` is injective). -/
theorem no_chain_key_at_free_slot (s : SolState) (l : List Nat)
    (hwf : WFl s l) (slot : Nat) (hslot : s.buckets[slot]? = some none)
    (x : Nat) (nd : SolNode) (hx : x ∈ l) (hnd : s.heap x = some nd) :
    nd.key ≠ rev32 slot := by
  intro hkey
  have hslot_lt : slot < s.buckets.length := by
    by_contra hge
    rw [List.getElem?_eq_none (by omega)] at hslot
    simp at hslot
  have heven : nd.key % 2 = 0 := by
    rw [hkey]
    exact covered_key_even s l hwf slot hslot_lt
  obtain ⟨i, hib, hirev⟩ := hwf.dummies x hx nd hnd heven
  have hi_lt : i < s.buckets.length := by
    by_contra hge
    rw [List.getElem?_eq_none (by omega)] at hib
    simp at hib
  obtain ⟨k, hk, hsz, hlen⟩ := hwf.shape
  have hpow : (2 : Nat) ^ k ≤ 2 ^ 31 := Nat.pow_le_pow_right (by omega) hk
  have hieq : i = slot := by
    apply revN_inj (n := 32) (by show i < 2 ^ 32; omega)
      (by show slot < 2 ^ 32; omega)
    show rev32 i = rev32 slot
    rw [hirev, hkey]
  rw [hieq, hslot] at hib
  simp at hib

/-- On a well-formed list the do-while of `initialise_bucket` terminates in
one iteration: the bucket is still null, the parent walk stops strictly
before the bucket key (which no chain node carries yet), and the CAS
cannot fail sequentially.  The result is exactly the splice of the dummy
after the walk's cursor. -/
theorem initb_loop_wf (fuel0 slot bkey addr fuel : Nat)
    (sA : SolState) (l : List Nat) (s2 : SolState) (a : SolAcc)
    (hwf : WFl sA l) (dummy : SolNode)
    (haddr_nd : sA.heap addr = some dummy)
    (haddr : addr ∉ l) (hslot : sA.buckets[slot]? = some none)
    (hbkey : bkey = rev32 slot)
    (h : initb_loop fuel0 slot bkey addr fuel sA = some (s2, a)) :
    ∃ cu cnd, a.cur = some cu ∧ cu ∈ l ∧ sA.heap cu = some cnd ∧
      cnd.mark = false ∧
      s2 = set_node (set_node sA addr
        { dummy with next := cnd.next, mark := false })
        cu { cnd with next := some addr } ∧
      cnd.key < bkey ∧
      (∀ nx nxnd, cnd.next = some nx → sA.heap nx = some nxnd →
        bkey < nxnd.key) := by
  obtain ⟨b0w, hb0w, hsegw⟩ := hwf.bucket0
  have hslot_lt : slot < sA.buckets.length := by
    by_contra hge
    rw [List.getElem?_eq_none (by omega)] at hslot
    simp at hslot
  have hslot_ne : slot ≠ 0 := by
    intro he
    rw [he, hb0w] at hslot
    simp at hslot
  have hbkey_pos : 0 < bkey := by
    rcases Nat.eq_zero_or_pos bkey with hz | hp
    · exfalso
      apply hslot_ne
      apply revN_inj (n := 32)
        (by
          obtain ⟨k, hk, hsz, hlen⟩ := hwf.shape
          have : (2 : Nat) ^ k ≤ 2 ^ 31 := Nat.pow_le_pow_right (by omega) hk
          show slot < 2 ^ 32
          omega)
        (by show 0 < 2 ^ 32; omega)
      show rev32 slot = rev32 0
      rw [← hbkey, hz]
      show 0 = revN 32 0
      rw [revN_zero]
    · exact hp
  cases fuel with
  | zero => simp [initb_loop] at h
  | succ fuel =>
    unfold initb_loop at h
    split at h
    · simp at h
    · rename_i a0 hgp
      obtain ⟨b0, hb0, hacc, hpost⟩ :=
        get_parent_wf fuel0 sA l slot bkey a0 hwf hgp
      obtain ⟨cu, cnd, hcur, hcu, hcnd, hnxt, hcond, hprev⟩ := hacc
      obtain ⟨cndm, hcndm, hcmark⟩ := hwf.unmarked cu hcu
      have hcndme : cndm = cnd := by
        rw [hcnd] at hcndm
        exact ((Option.some.injEq _ _).mp hcndm).symm
      rw [hcndme] at hcmark
      split at h
      · simp at h
      · rename_i nd hnd
        have hnde : nd = dummy := by
          rw [haddr_nd] at hnd
          exact ((Option.some.injEq _ _).mp hnd).symm
        split at h
        · rename_i hbs
          rw [set_node_buckets] at hbs
          rw [hslot] at hbs
          simp at hbs
        · rename_i bs hbs
          rw [set_node_buckets] at hbs
          rw [hslot] at hbs
          have hbse : bs = none := ((Option.some.injEq _ _).mp hbs).symm
          split at h
          · rename_i hbsne
            rw [hbse] at hbsne
            simp at hbsne
          · have hmapval : ∀ nx : Nat, a0.nxt = some nx →
                ((set_node sA addr
                  { nd with next := some nx, mark := false }).heap nx).map
                  (fun xnd => decide (xnd.key ≠ bkey)) = some true := by
              intro nx hnx
              have hnxl : nx ∈ l := by
                apply seg_mem_next sA.heap l (some b0w) cu nx cnd hsegw hcu hcnd
                rw [hnxt, hnx]
              have hnxaddr : nx ≠ addr := fun he => haddr (he ▸ hnxl)
              obtain ⟨nnd, hnnd, -⟩ := hwf.unmarked nx hnxl
              rw [set_node_heap, hupd_ne _ _ _ _ hnxaddr, hnnd]
              have hne : nnd.key ≠ bkey := by
                rw [hbkey]
                exact no_chain_key_at_free_slot sA l hwf slot hslot
                  nx nnd hnxl hnnd
              simp [hne]
            split at h
            · rename_i hm
              cases hnx : a0.nxt with
              | none =>
                simp only [hnx] at hm
                simp at hm
              | some nx =>
                simp only [hnx] at hm
                rw [hmapval nx hnx] at hm
                simp at hm
            · rename_i hm
              cases hnx : a0.nxt with
              | none =>
                simp only [hnx] at hm
                simp at hm
              | some nx =>
                simp only [hnx] at hm
                rw [hmapval nx hnx] at hm
                simp at hm
            · split at h
              · rename_i hm
                rw [hm] at hcur
                simp at hcur
              · rename_i cu' hcu'
                have hcue : cu' = cu := by
                  rw [hcur] at hcu'
                  exact ((Option.some.injEq _ _).mp hcu').symm
                rw [hcue] at h
                have hcuaddr : cu ≠ addr := fun he => haddr (he ▸ hcu)
                have hheapcu : (set_node sA addr
                    { nd with next := a0.nxt, mark := false }).heap cu =
                    some cnd := by
                  rw [set_node_heap, hupd_ne _ _ _ _ hcuaddr]
                  exact hcnd
                split at h
                · rename_i hcn
                  rw [hheapcu] at hcn
                  simp at hcn
                · rename_i cnd' hcn
                  rw [hheapcu] at hcn
                  have hcnde : cnd' = cnd :=
                    ((Option.some.injEq _ _).mp hcn).symm
                  rw [hcnde] at h
                  split at h
                  · rw [Option.some.injEq, Prod.mk.injEq] at h
                    obtain ⟨hs2, ha⟩ := h
                    refine ⟨cu, cnd, ?_, hcu, hcnd, hcmark, ?_, ?_, ?_⟩
                    · rw [← ha]
                      exact hcur
                    · rw [← hs2, hnde, ← hnxt]
                    · rcases hcond with rfl | hcondt
                      · obtain ⟨-, ndb, hndb, hkey0⟩ :=
                          hwf.covered 0 cu hb0
                        have hndbe : ndb = cnd := by
                          rw [hcnd] at hndb
                          exact ((Option.some.injEq _ _).mp hndb).symm
                        have hz : rev32 0 = 0 := by
                          show revN 32 0 = 0
                          rw [revN_zero]
                        rw [hndbe, hz] at hkey0
                        omega
                      · exact of_decide_eq_true hcondt
                    · intro nx nxnd hnx hnxnd
                      rcases hpost with hnone | ⟨nx', nnd', h1, h2, h3⟩
                      · rw [← hnxt, hnx] at hnone
                        simp at hnone
                      · have hnxe : nx' = nx := by
                          rw [← hnxt, hnx] at h1
                          exact ((Option.some.injEq _ _).mp h1).symm
                        rw [hnxe] at h2
                        have hnnde : nnd' = nxnd := by
                          rw [hnxnd] at h2
                          exact ((Option.some.injEq _ _).mp h2).symm
                        rw [hnnde] at h3
                        have hnxl : nx ∈ l := by
                          apply seg_mem_next sA.heap l (some b0w) cu nx cnd
                            hsegw hcu hcnd
                          exact hnx
                        have hne : nxnd.key ≠ bkey := by
                          rw [hbkey]
                          exact no_chain_key_at_free_slot sA l hwf slot hslot
                            nx nxnd hnxl hnxnd
                        omega
                  · rename_i hguard
                    exact absurd ⟨hnxt, hcmark⟩ hguard

/-- Allocating a fresh node does not disturb the chain. -/
theorem wfl_alloc (s : SolState) (l : List Nat) (nd : SolNode)
    (hwf : WFl s l) : WFl (alloc_node s nd) l := by
  have hag : ∀ x ∈ l, (alloc_node s nd).heap x = s.heap x := by
    intro x hx
    rw [alloc_node_heap]
    exact hupd_ne _ _ _ _ (by have := hwf.fresh x hx; omega)
  obtain ⟨b0, hb0, hseg⟩ := hwf.bucket0
  refine ⟨⟨b0, ?_, ?_⟩, hwf.nodup, ?_, ?_, ?_, ?_, ?_, ?_⟩
  · rw [alloc_node_buckets]
    exact hb0
  · rw [seg_congr s.heap _ l _ _ hag]
    exact hseg
  · rw [chain_keys_congr s.heap _ l hag]
    exact hwf.sorted
  · intro x hx
    rw [hag x hx]
    exact hwf.unmarked x hx
  · intro i b hib
    rw [alloc_node_buckets] at hib
    obtain ⟨hb, nd', hnd', hk⟩ := hwf.covered i b hib
    exact ⟨hb, nd', by rw [hag b hb]; exact hnd', hk⟩
  · intro x hx nd' hnd' hk
    rw [hag x hx] at hnd'
    obtain ⟨i, hib, hrev⟩ := hwf.dummies x hx nd' hnd' hk
    exact ⟨i, by rw [alloc_node_buckets]; exact hib, hrev⟩
  · intro x hx
    rw [alloc_node_next_addr]
    have := hwf.fresh x hx
    omega
  · obtain ⟨k, hk, hsz, hlen⟩ := hwf.shape
    exact ⟨k, hk, by rw [alloc_node_size]; exact hsz,
      by rw [alloc_node_buckets, alloc_node_size]; exact hlen⟩

/-- `initialise_bucket` preserves the sorted-chain invariant: it either
returns immediately (bucket already initialised) or splices one new dummy
(even key `rev32 slot`) into the chain at its sorted position and
publishes it in `buckets[slot]`.  The chain gains no data node, existing
nodes and all lower addresses are untouched, and the allocation cursor
only grows. -/
theorem initialise_bucket_wf (fuel : Nat) (s : SolState) (slot : Nat)
    (l : List Nat) (s' : SolState) (hwf : WFl s l)
    (h : initialise_bucket fuel s slot = some s') :
    ∃ l', WFl s' l' ∧
      (∀ x ∈ l', x ∈ l ∨ s.next_addr ≤ x) ∧
      s.next_addr ≤ s'.next_addr ∧
      (∀ x, x ∉ l → x < s.next_addr → s'.heap x = s.heap x) ∧
      dataCount s'.heap l' = dataCount s.heap l := by
  unfold initialise_bucket at h
  split at h
  · simp at h
  · rename_i hslt
    rw [Decidable.not_not] at hslt
    split at h
    · simp at h
    · rename_i bs hbs
      split at h
      · rw [Option.some.injEq] at h
        exact ⟨l, h ▸ hwf, fun x hx => Or.inl hx, by rw [← h],
          fun x _ _ => by rw [← h], by rw [← h]⟩
      · rename_i hbsn
        rw [Decidable.not_not] at hbsn
        rw [hbsn] at hbs
        split at h
        · simp at h
        · rename_i hodd
          rw [Decidable.not_not] at hodd
          split at h
          · simp at h
          · rename_i s2 a hloop
            have hwfA : WFl (alloc_node s ⟨slot, rev32 slot, none, false, none⟩) l :=
              wfl_alloc s l _ hwf
            have haddr_nd : (alloc_node s ⟨slot, rev32 slot, none, false, none⟩).heap
                s.next_addr = some ⟨slot, rev32 slot, none, false, none⟩ := by
              rw [alloc_node_heap, hupd_self]
            have haddrnotin : s.next_addr ∉ l := by
              intro hx
              have := hwf.fresh _ hx
              omega
            have hslotA : (alloc_node s ⟨slot, rev32 slot, none, false, none⟩).buckets[slot]? =
                some none := by
              rw [alloc_node_buckets]
              exact hbs
            obtain ⟨cu, cnd, hcur, hcu, hcnd, hcmark, hs2, hklt, hksucc⟩ :=
              initb_loop_wf fuel slot (rev32 slot) s.next_addr fuel _ l s2 a
                hwfA _ haddr_nd haddrnotin hslotA rfl hloop
            have hcnds : s.heap cu = some cnd := by
              rw [alloc_node_heap, hupd_ne _ _ _ _
                (by have := hwf.fresh cu hcu; omega)] at hcnd
              exact hcnd
            obtain ⟨l1, l2, hsplit, hsegf, hnodupf, hsortedf, hmemf, hkeysf, hkoldf⟩ :=
              wfl_splice _ l cu s.next_addr cnd
                ⟨slot, rev32 slot, cnd.next, false, none⟩ hwfA hcu hcnd haddrnotin
                rfl (by simpa using hklt)
                (by
                  intro nx nxnd h1 h2
                  simpa using hksucc nx nxnd h1 h2)
            have hs2e : s2 = set_node (set_node
                (alloc_node s ⟨slot, rev32 slot, none, false, none⟩) s.next_addr
                ⟨slot, rev32 slot, cnd.next, false, none⟩) cu
                { cnd with next := some s.next_addr } := hs2
            have hb2 : s2.buckets = s.buckets := by
              rw [hs2e]
              simp
            have hn2 : s2.next_addr = s.next_addr + 1 := by
              rw [hs2e]
              simp
            have hsz2 : s2.size = s.size := by
              rw [hs2e]
              simp
            have hcu_addr : cu ≠ s.next_addr :=
              fun he => haddrnotin (he ▸ hcu)
            have h2cu : s2.heap cu = some { cnd with next := some s.next_addr } := by
              rw [hs2e]
              simp [set_node, hupd]
            have h2addr : s2.heap s.next_addr =
                some ⟨slot, rev32 slot, cnd.next, false, none⟩ := by
              rw [hs2e]
              simp [set_node, hupd, Ne.symm hcu_addr]
            have h2other : ∀ x, x ≠ cu → x ≠ s.next_addr → s2.heap x = s.heap x := by
              intro x h1 h2
              rw [hs2e]
              simp [set_node, hupd, alloc_node, h1, h2]
            split at h
            · rename_i hb2s
              rw [hb2, hbs] at hb2s
              simp at hb2s
            · rename_i bs2 hb2s
              rw [hb2, hbs] at hb2s
              have hbs2e : bs2 = none := ((Option.some.injEq _ _).mp hb2s).symm
              subst hbs2e
              split at h
              · -- bucket still null: our CAS linked the node
                split at h
                · simp at h
                · rename_i cu2 hcu2
                  have hcu2e : cu2 = cu := by
                    rw [hcur] at hcu2
                    exact ((Option.some.injEq _ _).mp hcu2).symm
                  rw [hcu2e] at h
                  split at h
                  · rename_i hcn2
                    rw [h2cu] at hcn2
                    simp at hcn2
                  · rename_i cnd2 hcn2
                    rw [h2cu] at hcn2
                    have hcnd2e : cnd2 = { cnd with next := some s.next_addr } :=
                      ((Option.some.injEq _ _).mp hcn2).symm
                    subst hcnd2e
                    split at h
                    · -- the CAS linked our node: publish it
                      have hslot_len : slot < s.buckets.length := by
                        obtain ⟨k, hk, hsz, hlen⟩ := hwf.shape
                        omega
                      have hpost : (set_bucket s2 slot
                          (some s.next_addr)).buckets[slot]? =
                          some (some s.next_addr) := by
                        rw [set_bucket_buckets, hb2]
                        rw [List.getElem?_set_self hslot_len]
                      unfold initb_post at h
                      simp only [hpost, set_bucket_heap, h2addr, if_true] at h
                      rw [Option.some.injEq] at h
                      -- s' is the published state
                      refine ⟨l1 ++ cu :: s.next_addr :: l2, ?_, ?_, ?_, ?_, ?_⟩
                      · -- WFl of the final state
                        obtain ⟨b0, hb0, hsegl⟩ := hwf.bucket0
                        have hslot0 : slot ≠ 0 := by
                          intro he
                          rw [he, hb0] at hbs
                          simp at hbs
                        have hfb : (set_bucket s2 slot (some s.next_addr)).buckets =
                            s.buckets.set slot (some s.next_addr) := by
                          rw [set_bucket_buckets, hb2]
                        refine ⟨⟨b0, ?_, ?_⟩, ?_, ?_, ?_, ?_, ?_, ?_, ?_⟩
                        · rw [← h, hfb]
                          rw [List.getElem?_set_ne hslot0]
                          exact hb0
                        · rw [← h, set_bucket_heap, hs2e]
                          apply hsegf
                          rw [alloc_node_buckets]
                          exact hb0
                        · exact hnodupf
                        · rw [← h, set_bucket_heap, hs2e]
                          exact hsortedf
                        · -- unmarked
                          intro x hx
                          rw [← h, set_bucket_heap]
                          rcases (hmemf x).mp hx with rfl | hxl
                          · exact ⟨_, h2addr, rfl⟩
                          · by_cases hxc : x = cu
                            · subst hxc
                              exact ⟨_, h2cu, hcmark⟩
                            · obtain ⟨nd, hnd, hm⟩ := hwf.unmarked x hxl
                              refine ⟨nd, ?_, hm⟩
                              rw [h2other x hxc (fun he => haddrnotin (he ▸ hxl))]
                              exact hnd
                        · -- covered
                          intro i b hib
                          rw [← h, hfb] at hib
                          rw [← h, set_bucket_heap]
                          by_cases hieq : i = slot
                          · subst hieq
                            rw [List.getElem?_set_self hslot_len] at hib
                            have hbe : b = s.next_addr := by
                              have h1 := (Option.some.injEq _ _).mp hib
                              exact ((Option.some.injEq _ _).mp h1).symm
                            subst hbe
                            exact ⟨(hmemf _).mpr (Or.inl rfl), _, h2addr, rfl⟩
                          · rw [List.getElem?_set_ne (Ne.symm hieq)] at hib
                            obtain ⟨hbl, nd, hnd, hk⟩ := hwf.covered i b hib
                            refine ⟨(hmemf b).mpr (Or.inr hbl), ?_⟩
                            by_cases hbc : b = cu
                            · subst hbc
                              refine ⟨_, h2cu, ?_⟩
                              have : nd = cnd := by
                                rw [hcnds] at hnd
                                exact ((Option.some.injEq _ _).mp hnd).symm
                              rw [← hk, this]
                            · refine ⟨nd, ?_, hk⟩
                              rw [h2other b hbc (fun he => haddrnotin (he ▸ hbl))]
                              exact hnd
                        · -- dummies
                          intro x hx nd hnd hkeven
                          rw [← h, set_bucket_heap] at hnd
                          rw [← h, hfb]
                          rcases (hmemf x).mp hx with rfl | hxl
                          · refine ⟨slot, ?_, ?_⟩
                            · rw [List.getElem?_set_self hslot_len]
                            · have : nd = ⟨slot, rev32 slot, cnd.next, false, none⟩ := by
                                rw [h2addr] at hnd
                                exact ((Option.some.injEq _ _).mp hnd).symm
                              rw [this]
                          · by_cases hxc : x = cu
                            · subst hxc
                              have hnde : nd = { cnd with next := some s.next_addr } := by
                                rw [h2cu] at hnd
                                exact ((Option.some.injEq _ _).mp hnd).symm
                              obtain ⟨i, hib, hrev⟩ := hwf.dummies x hxl cnd hcnds
                                (by rw [hnde] at hkeven; exact hkeven)
                              have hislot : i ≠ slot := by
                                intro he
                                rw [he, hbs] at hib
                                simp at hib
                              refine ⟨i, ?_, ?_⟩
                              · rw [List.getElem?_set_ne (Ne.symm hislot)]
                                exact hib
                              · rw [hnde]
                                exact hrev
                            · have hxa : x ≠ s.next_addr :=
                                fun he => haddrnotin (he ▸ hxl)
                              rw [h2other x hxc hxa] at hnd
                              obtain ⟨i, hib, hrev⟩ := hwf.dummies x hxl nd hnd hkeven
                              have hislot : i ≠ slot := by
                                intro he
                                rw [he, hbs] at hib
                                simp at hib
                              refine ⟨i, ?_, hrev⟩
                              rw [List.getElem?_set_ne (Ne.symm hislot)]
                              exact hib
                        · -- fresh
                          intro x hx
                          rw [← h, set_bucket_next_addr, hn2]
                          rcases (hmemf x).mp hx with rfl | hxl
                          · omega
                          · have := hwf.fresh x hxl
                            omega
                        · -- shape
                          obtain ⟨k, hk, hsz, hlen⟩ := hwf.shape
                          refine ⟨k, hk, ?_, ?_⟩
                          · rw [← h, set_bucket_size, hsz2]
                            exact hsz
                          · rw [← h, hfb, set_bucket_size, hsz2, List.length_set]
                            exact hlen
                      · -- new chain addresses
                        intro x hx
                        rcases (hmemf x).mp hx with rfl | hxl
                        · exact Or.inr (le_refl _)
                        · exact Or.inl hxl
                      · -- allocation cursor grows
                        rw [← h, set_bucket_next_addr, hn2]
                        omega
                      · -- untouched low addresses
                        intro x hxl hxlt
                        rw [← h, set_bucket_heap]
                        rw [h2other x (fun he => hxl (he ▸ hcu)) (by omega)]
                      · -- no data node gained
                        rw [← h, set_bucket_heap, hs2e]
                        have hagl : ∀ x ∈ l,
                            (alloc_node s ⟨slot, rev32 slot, none, false, none⟩).heap x =
                            s.heap x := by
                          intro x hx
                          rw [alloc_node_heap]
                          exact hupd_ne _ _ _ _ (by have := hwf.fresh x hx; omega)
                        have hkold2 : chain_keys s.heap l =
                            chain_keys (alloc_node s
                              ⟨slot, rev32 slot, none, false, none⟩).heap l :=
                          (chain_keys_congr _ _ l hagl).symm
                        rw [dataCount, dataCount, hkeysf, hkold2, hkoldf]
                        rw [List.countP_append, List.countP_append,
                          List.countP_cons, List.countP_cons, List.countP_cons]
                        have hodd2 : ¬ (rev32 slot % 2 = 1) := by omega
                        simp [hodd2]
                    · -- the CAS did not link our node: impossible, it did
                      rename_i hne
                      exact absurd rfl hne
              · -- bucket already non-null: impossible, nothing set it
                rename_i cu2 hcu2
                simp at hcu2

/-- The traversal of `find_node` on a well-formed list: the state is
untouched and the returned accessor sits on a chain node with key at most
the search key, just before the first strictly larger key; the hit flag
reports key equality at the cursor; and unless the cursor is still the
(even-keyed) bucket dummy, `prev` is an unmarked chain node linked to it. -/
theorem find_node_rest_wf (fuel : Nat) (sX : SolState) (slot key : Nat)
    (l : List Nat) (s1 : SolState) (a : SolAcc) (r : Bool) (hwf : WFl sX l)
    (hsk : rev32 slot ≤ key)
    (h : find_node_rest fuel sX slot key = some (s1, a, r)) :
    s1 = sX ∧
    ∃ cu cnd, a.cur = some cu ∧ cu ∈ l ∧ sX.heap cu = some cnd ∧
      cnd.next = a.nxt ∧ cnd.mark = false ∧ cnd.key ≤ key ∧
      (r = true ↔ cnd.key = key) ∧
      (∀ nx nnd, a.nxt = some nx → sX.heap nx = some nnd → key < nnd.key) ∧
      (cnd.key % 2 = 0 ∨
        ∃ pu pnd, a.prev = some pu ∧ pu ∈ l ∧ sX.heap pu = some pnd ∧
          pnd.next = some cu ∧ pnd.mark = false) := by
  obtain ⟨b0w, hb0w, hsegw⟩ := hwf.bucket0
  unfold find_node_rest at h
  split at h
  · simp at h
  · rename_i bs hbs
    split at h
    · simp at h
    · rename_i b
      obtain ⟨hbl, bnd0, hbnd0, hbkey⟩ := hwf.covered slot b hbs
      split at h
      · simp at h
      · rename_i bnd hbnd
        have hbnde : bnd = bnd0 := by
          rw [hbnd0] at hbnd
          exact ((Option.some.injEq _ _).mp hbnd).symm
        have hslot_lt : slot < sX.buckets.length := by
          by_contra hge
          rw [List.getElem?_eq_none (by omega)] at hbs
          simp at hbs
        have hbeven : bnd.key % 2 = 0 := by
          rw [hbnde, hbkey]
          exact covered_key_even sX l hwf slot hslot_lt
        split at h
        · simp at h
        · rename_i a0 hwalk
          have hstart : AccInv sX.heap (fun x => decide (x.key ≤ key)) l b
              ⟨some b, some b, bnd.next, 0⟩ :=
            ⟨b, bnd, rfl, hbl, hbnd, rfl, Or.inl rfl, Or.inl ⟨rfl, rfl⟩⟩
          obtain ⟨hacc, hpost⟩ :=
            walk_loop_inv sX.heap _ true l b (some b0w) hsegw fuel _ a0
              hstart hwalk
          obtain ⟨cu, cnd, hcur, hcu, hcnd, hnxt, hcond, hprev⟩ := hacc
          obtain ⟨cndm, hcndm, hcmark⟩ := hwf.unmarked cu hcu
          have hcndme : cndm = cnd := by
            rw [hcnd] at hcndm
            exact ((Option.some.injEq _ _).mp hcndm).symm
          rw [hcndme] at hcmark
          split at h
          · rename_i hcz
            rw [hcz] at hcur
            simp at hcur
          · rename_i c hc
            have hce : c = cu := by
              rw [hcur] at hc
              exact ((Option.some.injEq _ _).mp hc).symm
            split at h
            · rename_i hcn
              rw [hce, hcnd] at hcn
              simp at hcn
            · rename_i cnd1 hcn
              rw [hce, hcnd] at hcn
              have hcnd1e : cnd1 = cnd := ((Option.some.injEq _ _).mp hcn).symm
              rw [Option.some.injEq, Prod.mk.injEq] at h
              obtain ⟨hs1, h2⟩ := h
              rw [Prod.mk.injEq] at h2
              obtain ⟨ha, hr⟩ := h2
              subst ha
              have hckey : cnd.key ≤ key := by
                rcases hcond with hcub | hcondt
                · have hcnd2 := hcnd
                  rw [hcub] at hcnd2
                  rw [hbnd] at hcnd2
                  have hcb : bnd = cnd := (Option.some.injEq _ _).mp hcnd2
                  rw [← hcb, hbnde, hbkey]
                  exact hsk
                · exact of_decide_eq_true hcondt
              refine ⟨hs1.symm, cu, cnd, ?_, hcu, hcnd, hnxt, hcmark, hckey,
                ?_, ?_, ?_⟩
              · exact hcur
              · rw [← hr, hcnd1e]
                constructor
                · intro hd
                  exact of_decide_eq_true hd
                · intro he
                  rw [he]
                  simp
              · intro nx nnd hnx hnnd
                rcases hpost with hnone | ⟨nx', nnd', h1, h2, h3⟩
                · rw [hnone] at hnx
                  simp at hnx
                · rw [hnx] at h1
                  have hnxe : nx' = nx := by
                    exact ((Option.some.injEq _ _).mp h1).symm
                  rw [hnxe] at h2
                  have hnnde : nnd' = nnd := by
                    rw [hnnd] at h2
                    exact ((Option.some.injEq _ _).mp h2).symm
                  rw [hnnde] at h3
                  simp at h3
                  omega
              · rcases hprev with ⟨hpb, hcub⟩ | ⟨pu, pnd, hpu, hpul, hpnd, hpn, hpc⟩
                · left
                  have hcnd2 := hcnd
                  rw [hcub] at hcnd2
                  rw [hbnd] at hcnd2
                  have hcb : bnd = cnd := (Option.some.injEq _ _).mp hcnd2
                  rw [← hcb]
                  exact hbeven
                · right
                  obtain ⟨pndm, hpndm, hpmark⟩ := hwf.unmarked pu hpul
                  have hpndme : pndm = pnd := by
                    rw [hpnd] at hpndm
                    exact ((Option.some.injEq _ _).mp hpndm).symm
                  rw [hpndme] at hpmark
                  exact ⟨pu, pnd, hpu, hpul, hpnd, hpn, hpmark⟩

/-- `find_node` on a well-formed list: the list stays well-formed (a lazy
bucket initialisation may add one dummy), data nodes and low addresses are
untouched, and the returned accessor satisfies the traversal contract of
`find_node_rest` with respect to the data key `sol_node_key hashv`. -/
theorem find_node_wf (fuel : Nat) (s : SolState) (hashv : Nat)
    (l : List Nat) (s1 : SolState) (a : SolAcc) (r : Bool) (hwf : WFl s l)
    (h : find_node fuel s hashv = some (s1, a, r)) :
    ∃ l1, WFl s1 l1 ∧
      (∀ x ∈ l1, x ∈ l ∨ s.next_addr ≤ x) ∧
      s.next_addr ≤ s1.next_addr ∧
      (∀ x, x ∉ l → x < s.next_addr → s1.heap x = s.heap x) ∧
      dataCount s1.heap l1 = dataCount s.heap l ∧
      (∃ cu cnd, a.cur = some cu ∧ cu ∈ l1 ∧ s1.heap cu = some cnd ∧
        cnd.next = a.nxt ∧ cnd.mark = false ∧
        cnd.key ≤ sol_node_key hashv ∧
        (r = true ↔ cnd.key = sol_node_key hashv) ∧
        (∀ nx nnd, a.nxt = some nx → s1.heap nx = some nnd →
          sol_node_key hashv < nnd.key) ∧
        (cnd.key % 2 = 0 ∨
          ∃ pu pnd, a.prev = some pu ∧ pu ∈ l1 ∧ s1.heap pu = some pnd ∧
            pnd.next = some cu ∧ pnd.mark = false)) := by
  unfold find_node at h
  split at h
  · simp at h
  · rename_i hsz
    have hsk : rev32 (hashv % s.size) ≤ sol_node_key hashv := by
      obtain ⟨k, hk, hsze, hlen⟩ := hwf.shape
      rw [hsze]
      exact le_trans (rev32_slot_le k hashv) (le_sol_node_key hashv)
    split at h
    · simp at h
    · -- bucket not yet initialised: a dummy is spliced in first
      split at h
      · simp at h
      · rename_i s1' hinit
        obtain ⟨l', hwf', hext', hna', hpres', hcount'⟩ :=
          initialise_bucket_wf fuel s (hashv % s.size) l s1' hwf hinit
        obtain ⟨hs1e, rest⟩ :=
          find_node_rest_wf fuel s1' (hashv % s.size) (sol_node_key hashv)
            l' s1 a r hwf' hsk h
        subst hs1e
        exact ⟨l', hwf', hext', hna', hpres', hcount', rest⟩
    · -- bucket already initialised: pure traversal
      obtain ⟨hs1e, rest⟩ :=
        find_node_rest_wf fuel s (hashv % s.size) (sol_node_key hashv)
          l s1 a r hwf hsk h
      subst hs1e
      exact ⟨l, hwf, fun x hx => Or.inl hx, le_refl _, fun x _ _ => rfl,
        rfl, rest⟩

/-- `expand` preserves the chain verbatim: it only doubles the bucket
table, copying the old entries and nulling the new half (returning the
state unchanged if the table already grew past `curr_size`). -/
theorem expand_wf (s : SolState) (curr : Nat) (l : List Nat) (s' : SolState)
    (hwf : WFl s l) (h : expand s curr = some s') :
    WFl s' l ∧ s'.heap = s.heap ∧ s'.next_addr = s.next_addr ∧
    s'.n_items = s.n_items := by
  obtain ⟨k, hk, hsz, hlen⟩ := hwf.shape
  unfold expand at h
  split at h
  · rw [Option.some.injEq] at h
    exact ⟨h ▸ hwf, by rw [← h], by rw [← h], by rw [← h]⟩
  · split at h
    · simp at h
    · rename_i hovf
      split at h
      · simp at h
      · rename_i hlen2
        rw [Option.some.injEq] at h
        have hk30 : k ≤ 30 := by
          by_contra hgt
          have hk31 : k = 31 := by omega
          rw [hsz, hk31] at hovf
          have : (2 : Nat) ^ 31 * 2 % U32 = 0 := by
            show (2 : Nat) ^ 31 * 2 % 2 ^ 32 = 0
            have : (2 : Nat) ^ 31 * 2 = 2 ^ 32 := by norm_num
            rw [this]
            exact Nat.mod_self _
          rw [this] at hovf
          exact hovf (by positivity)
        have hpow : s.size * 2 = 2 ^ (k + 1) := by
          rw [hsz]
          ring
        have hlt : (2 : Nat) ^ (k + 1) < U32 := by
          show (2 : Nat) ^ (k + 1) < 2 ^ 32
          exact Nat.pow_lt_pow_right (by omega) (by omega)
        have hmod : s.size * 2 % U32 = 2 ^ (k + 1) := by
          rw [hpow]
          exact Nat.mod_eq_of_lt hlt
        have hszle : s.size ≤ 2 ^ (k + 1) := by
          rw [hsz]
          exact Nat.pow_le_pow_right (by omega) (by omega)
        have hb0eq : ∀ i, i < s.size →
            (s.buckets.take s.size ++
              List.replicate (s.size * 2 % U32 - s.size) none)[i]? =
            s.buckets[i]? := by
          intro i hi
          rw [List.getElem?_append_left
            (by rw [List.length_take]; omega)]
          rw [List.getElem?_take_of_lt hi]
        have hhe : s'.heap = s.heap := by rw [← h]
        have hne : s'.next_addr = s.next_addr := by rw [← h]
        refine ⟨?_, hhe, hne, by rw [← h]⟩
        obtain ⟨b0, hb0, hseg⟩ := hwf.bucket0
        refine ⟨⟨b0, ?_, ?_⟩, hwf.nodup, ?_, ?_, ?_, ?_, ?_, ?_⟩
        · rw [← h]
          show (s.buckets.take s.size ++ _)[0]? = _
          rw [hb0eq 0 (by rw [hsz]; positivity)]
          exact hb0
        · rw [hhe]
          exact hseg
        · rw [hhe]
          exact hwf.sorted
        · rw [hhe]
          exact hwf.unmarked
        · intro i b hib
          rw [← h] at hib
          rw [hhe]
          by_cases hcase : i < s.size
          · rw [hb0eq i hcase] at hib
            exact hwf.covered i b hib
          · exfalso
            rcases Nat.lt_or_ge i (s.size * 2 % U32) with hlt2 | hge2
            · rw [List.getElem?_append_right
                (by rw [List.length_take]; omega)] at hib
              rw [List.getElem?_replicate_of_lt
                (by rw [List.length_take]; omega)] at hib
              simp at hib
            · rw [List.getElem?_eq_none] at hib
              · simp at hib
              · rw [List.length_append, List.length_take, List.length_replicate]
                omega
        · intro x hx nd hnd hkev
          rw [hhe] at hnd
          obtain ⟨i, hib, hrev⟩ := hwf.dummies x hx nd hnd hkev
          have hilt : i < s.size := by
            by_contra hge
            rw [List.getElem?_eq_none (by omega)] at hib
            simp at hib
          refine ⟨i, ?_, hrev⟩
          rw [← h]
          show (s.buckets.take s.size ++ _)[i]? = _
          rw [hb0eq i hilt]
          exact hib
        · rw [hne]
          exact hwf.fresh
        · refine ⟨k + 1, by omega, ?_, ?_⟩
          · rw [← h]
            show s.size * 2 % U32 = 2 ^ (k + 1)
            exact hmod
          · rw [← h]
            show (s.buckets.take s.size ++ _).length = s.size * 2 % U32
            rw [List.length_append, List.length_take, List.length_replicate]
            omega

/-- Freeing an address outside the chain does not disturb the chain. -/
theorem wfl_free (s : SolState) (l : List Nat) (addr : Nat)
    (hwf : WFl s l) (haddr : addr ∉ l) : WFl (free_node s addr) l := by
  have hag : ∀ x ∈ l, (free_node s addr).heap x = s.heap x := by
    intro x hx
    rw [free_node_heap]
    exact hupd_ne _ _ _ _ (fun he => haddr (he ▸ hx))
  obtain ⟨b0, hb0, hseg⟩ := hwf.bucket0
  refine ⟨⟨b0, ?_, ?_⟩, hwf.nodup, ?_, ?_, ?_, ?_, ?_, ?_⟩
  · rw [free_node_buckets]
    exact hb0
  · rw [seg_congr s.heap _ l _ _ hag]
    exact hseg
  · rw [chain_keys_congr s.heap _ l hag]
    exact hwf.sorted
  · intro x hx
    rw [hag x hx]
    exact hwf.unmarked x hx
  · intro i b hib
    rw [free_node_buckets] at hib
    obtain ⟨hb, nd', hnd', hk⟩ := hwf.covered i b hib
    exact ⟨hb, nd', by rw [hag b hb]; exact hnd', hk⟩
  · intro x hx nd' hnd' hk
    rw [hag x hx] at hnd'
    obtain ⟨i, hib, hrev⟩ := hwf.dummies x hx nd' hnd' hk
    exact ⟨i, by rw [free_node_buckets]; exact hib, hrev⟩
  · intro x hx
    rw [free_node_next_addr]
    exact hwf.fresh x hx
  · obtain ⟨k, hk, hsz, hlen⟩ := hwf.shape
    exact ⟨k, hk, by rw [free_node_size]; exact hsz,
      by rw [free_node_buckets, free_node_size]; exact hlen⟩

/-- `dataCount` only looks at the heap on the chain. -/
theorem dataCount_congr (h h2 : Heap) (l : List Nat)
    (hag : ∀ x ∈ l, h2 x = h x) : dataCount h2 l = dataCount h l := by
  unfold dataCount
  rw [chain_keys_congr h h2 l hag]

/-- The retry loop of `insert_node` on a well-formed list: a hit leaves the
list unchanged (the prepared node is still allocated, outside the chain);
sequentially the CAS cannot fail, so otherwise the loop splices the data
node in sorted position in one iteration, incrementing the item count. -/
theorem ins_loop_wf (fuel0 hashv daddr fuel : Nat) (s : SolState)
    (l : List Nat) (s2 : SolState) (a : SolAcc) (res : Bool)
    (hwf : WFl s l) (dn0 : SolNode)
    (hdn : s.heap daddr = some dn0) (hdnkey : dn0.key = sol_node_key hashv)
    (hdaddr : daddr ∉ l) (hdlt : daddr < s.next_addr)
    (h : ins_loop fuel0 hashv daddr fuel s = some (s2, a, res)) :
    ∃ l2, WFl s2 l2 ∧ s.next_addr ≤ s2.next_addr ∧
      (res = true → s2.n_items = (s.n_items + 1) % U32 ∧
        dataCount s2.heap l2 = dataCount s.heap l + 1) ∧
      (res = false → s2.n_items = s.n_items ∧
        dataCount s2.heap l2 = dataCount s.heap l ∧
        s2.heap daddr = some dn0 ∧ daddr ∉ l2) := by
  cases fuel with
  | zero => simp [ins_loop] at h
  | succ fuel =>
    unfold ins_loop at h
    split at h
    · simp at h
    · rename_i s1 a0 found hf
      obtain ⟨l1, hwf1, hext1, hna1, hpres1, hcount1, cu, cnd, hcur, hcu,
        hcnd, hnxt, hcmark, hckle, hfound, hsucc, hprevd⟩ :=
        find_node_wf fuel0 s hashv l s1 a0 found hwf hf
      have hff := find_node_fields _ _ _ _ _ _ hf
      have hdaddr1 : daddr ∉ l1 := by
        intro hx
        rcases hext1 daddr hx with hil | hge
        · exact hdaddr hil
        · omega
      have hdn1 : s1.heap daddr = some dn0 := by
        rw [hpres1 daddr hdaddr hdlt]
        exact hdn
      split at h
      · -- key already present: abort, list unchanged
        rw [Option.some.injEq, Prod.mk.injEq] at h
        obtain ⟨h1, h2⟩ := h
        rw [Prod.mk.injEq] at h2
        obtain ⟨ha, hres⟩ := h2
        rw [← h1]
        refine ⟨l1, hwf1, hna1, ?_, ?_⟩
        · intro htr
          rw [← hres] at htr
          simp at htr
        · intro _
          exact ⟨hff.2.2, hcount1, hdn1, hdaddr1⟩
      · rename_i hnotf
        have hfoundf : found = false := by
          cases found with
          | false => rfl
          | true => exact absurd rfl hnotf
        split at h
        · rename_i hdq
          rw [hdn1] at hdq
          simp at hdq
        · rename_i dn hdq
          rw [hdn1] at hdq
          have hdne : dn = dn0 := ((Option.some.injEq _ _).mp hdq).symm
          rw [hdne] at h
          split at h
          · rename_i hcz
            rw [hcz] at hcur
            simp at hcur
          · rename_i cu2 hcu2
            have hcue : cu2 = cu := by
              rw [hcur] at hcu2
              exact ((Option.some.injEq _ _).mp hcu2).symm
            rw [hcue] at h
            have hcudad : cu ≠ daddr := fun he => hdaddr1 (he ▸ hcu)
            have hheapcu : (set_node s1 daddr
                { dn0 with next := a0.nxt, mark := false }).heap cu =
                some cnd := by
              rw [set_node_heap, hupd_ne _ _ _ _ hcudad]
              exact hcnd
            split at h
            · rename_i hcn
              rw [hheapcu] at hcn
              simp at hcn
            · rename_i cnd1 hcn
              rw [hheapcu] at hcn
              have hcnd1e : cnd1 = cnd := ((Option.some.injEq _ _).mp hcn).symm
              rw [hcnd1e] at h
              split at h
              · -- the CAS succeeded: splice the data node after the cursor
                rw [Option.some.injEq, Prod.mk.injEq] at h
                obtain ⟨hs2, h2⟩ := h
                rw [Prod.mk.injEq] at h2
                obtain ⟨ha, hres⟩ := h2
                rw [← hnxt] at hs2
                have hkne : cnd.key ≠ sol_node_key hashv := by
                  intro he
                  rw [hfoundf] at hfound
                  have := hfound.mpr he
                  simp at this
                obtain ⟨L1, L2, hsplitI, hsegI, hnodupI, hsortedI, hmemI,
                  hkmidI, hkoldI⟩ :=
                  wfl_splice s1 l1 cu daddr cnd
                    { dn0 with next := cnd.next, mark := false } hwf1 hcu hcnd
                    hdaddr1 rfl
                    (by
                      show cnd.key < dn0.key
                      rw [hdnkey]
                      omega)
                    (by
                      intro nx nxnd h1 h2
                      show dn0.key < nxnd.key
                      rw [hdnkey]
                      apply hsucc nx nxnd _ h2
                      rw [← hnxt]
                      exact h1)
                have h2cuI : s2.heap cu =
                    some { cnd with next := some daddr } := by
                  rw [← hs2, inc_item_count_heap]
                  simp [set_node, hupd]
                have h2addrI : s2.heap daddr =
                    some { dn0 with next := cnd.next, mark := false } := by
                  rw [← hs2, inc_item_count_heap]
                  simp [set_node, hupd, Ne.symm hcudad]
                have h2otherI : ∀ x, x ≠ cu → x ≠ daddr →
                    s2.heap x = s1.heap x := by
                  intro x h1 h2
                  rw [← hs2, inc_item_count_heap]
                  simp [set_node, hupd, h1, h2]
                have hheapI : s2.heap = (set_node (set_node s1 daddr
                    { dn0 with next := cnd.next, mark := false }) cu
                    { cnd with next := some daddr }).heap := by
                  rw [← hs2, inc_item_count_heap]
                have hbI : s2.buckets = s1.buckets := by
                  rw [← hs2]
                  simp
                have hnaI : s2.next_addr = s1.next_addr := by
                  rw [← hs2]
                  simp
                obtain ⟨b0, hb0, hsegl1⟩ := hwf1.bucket0
                refine ⟨L1 ++ cu :: daddr :: L2, ?_, ?_, ?_, ?_⟩
                · refine ⟨⟨b0, ?_, ?_⟩, hnodupI, ?_, ?_, ?_, ?_, ?_, ?_⟩
                  · rw [hbI]
                    exact hb0
                  · rw [hheapI]
                    exact hsegI b0 hb0
                  · rw [hheapI]
                    exact hsortedI
                  · -- unmarked
                    intro x hx
                    rcases (hmemI x).mp hx with rfl | hxl
                    · exact ⟨_, h2addrI, rfl⟩
                    · by_cases hxc : x = cu
                      · rw [hxc]
                        exact ⟨_, h2cuI, hcmark⟩
                      · obtain ⟨nd, hnd, hm⟩ := hwf1.unmarked x hxl
                        refine ⟨nd, ?_, hm⟩
                        rw [h2otherI x hxc (fun he => hdaddr1 (he ▸ hxl))]
                        exact hnd
                  · -- covered
                    intro i b hib
                    rw [hbI] at hib
                    obtain ⟨hbl, nd, hnd, hk⟩ := hwf1.covered i b hib
                    refine ⟨(hmemI b).mpr (Or.inr hbl), ?_⟩
                    by_cases hbc : b = cu
                    · rw [hbc]
                      refine ⟨_, h2cuI, ?_⟩
                      show cnd.key = rev32 i
                      rw [hbc] at hnd
                      have : nd = cnd := by
                        rw [hcnd] at hnd
                        exact ((Option.some.injEq _ _).mp hnd).symm
                      rw [← hk, this]
                    · refine ⟨nd, ?_, hk⟩
                      rw [h2otherI b hbc (fun he => hdaddr1 (he ▸ hbl))]
                      exact hnd
                  · -- dummies
                    intro x hx nd hnd hkeven
                    rcases (hmemI x).mp hx with rfl | hxl
                    · exfalso
                      rw [h2addrI] at hnd
                      have hnde : nd = { dn0 with next := cnd.next, mark := false } :=
                        ((Option.some.injEq _ _).mp hnd).symm
                      rw [hnde] at hkeven
                      have : dn0.key % 2 = 0 := hkeven
                      rw [hdnkey] at this
                      have := sol_node_key_odd hashv
                      omega
                    · by_cases hxc : x = cu
                      · have hnde : nd = { cnd with next := some daddr } := by
                          rw [hxc, h2cuI] at hnd
                          exact ((Option.some.injEq _ _).mp hnd).symm
                        obtain ⟨i, hib, hrev⟩ := hwf1.dummies x hxl cnd
                          (by rw [hxc]; exact hcnd)
                          (by rw [hnde] at hkeven; exact hkeven)
                        refine ⟨i, ?_, ?_⟩
                        · rw [hbI]
                          exact hib
                        · rw [hnde]
                          exact hrev
                      · have hxa : x ≠ daddr := fun he => hdaddr1 (he ▸ hxl)
                        rw [h2otherI x hxc hxa] at hnd
                        obtain ⟨i, hib, hrev⟩ := hwf1.dummies x hxl nd hnd hkeven
                        refine ⟨i, ?_, hrev⟩
                        rw [hbI]
                        exact hib
                  · -- fresh
                    intro x hx
                    rw [hnaI]
                    rcases (hmemI x).mp hx with rfl | hxl
                    · omega
                    · exact hwf1.fresh x hxl
                  · -- shape
                    obtain ⟨k, hk, hsz, hlen⟩ := hwf1.shape
                    refine ⟨k, hk, ?_, ?_⟩
                    · rw [← hs2]
                      simp only [inc_item_count_size, set_node_size]
                      exact hsz
                    · rw [hbI]
                      rw [← hs2]
                      simp only [inc_item_count_size, set_node_size]
                      exact hlen
                · rw [hnaI]
                  exact hna1
                · intro _
                  constructor
                  · rw [← hs2, inc_item_count_n_items]
                    simp only [set_node_n_items]
                    rw [hff.2.2]
                  · rw [hheapI, ← hcount1, dataCount, dataCount, hkmidI, hkoldI]
                    rw [List.countP_append, List.countP_append,
                      List.countP_cons, List.countP_cons, List.countP_cons]
                    have hso : ({ dn0 with next := cnd.next, mark := false } : SolNode).key % 2 = 1 := by
                      show dn0.key % 2 = 1
                      rw [hdnkey]
                      exact sol_node_key_odd hashv
                    simp [hso]
                    omega
                · intro hfl
                  rw [← hres] at hfl
                  simp at hfl
              · rename_i hguard
                exact absurd ⟨hnxt, hcmark⟩ hguard

/-- `insert_node` preserves the sorted-chain invariant: a hit leaves the
chain unchanged (the prepared node is deleted again); a successful insert
splices exactly one data node at its sorted position and increments
`n_items`, after which the expansion check may double the table and/or
initialise one more bucket (adding only dummies). -/
theorem insert_node_wf (fuel : Nat) (s : SolState) (hashv payload : Nat)
    (l : List Nat) (s' : SolState) (r : Bool) (hwf : WFl s l)
    (h : insert_node fuel s hashv payload = some (s', r)) :
    ∃ l', WFl s' l' ∧
      (r = true → s'.n_items = (s.n_items + 1) % U32 ∧
        dataCount s'.heap l' = dataCount s.heap l + 1) ∧
      (r = false → s'.n_items = s.n_items ∧
        dataCount s'.heap l' = dataCount s.heap l) := by
  unfold insert_node at h
  split at h
  · simp at h
  · rename_i heven
    split at h
    · simp at h
    · rename_i s2 a result hloop
      have hwfA : WFl (alloc_node s
          ⟨hashv, rev32 hashv ||| 1, none, false, some payload⟩) l :=
        wfl_alloc s l _ hwf
      have hdnA : (alloc_node s
          ⟨hashv, rev32 hashv ||| 1, none, false, some payload⟩).heap
          s.next_addr =
          some ⟨hashv, rev32 hashv ||| 1, none, false, some payload⟩ := by
        rw [alloc_node_heap, hupd_self]
      have hnotin : s.next_addr ∉ l := by
        intro hx
        have := hwf.fresh _ hx
        omega
      obtain ⟨l2, hwf2, hna2, htrue, hfalse⟩ :=
        ins_loop_wf fuel hashv s.next_addr fuel _ l s2 a result hwfA _
          hdnA rfl hnotin (by rw [alloc_node_next_addr]; omega) hloop
      have hagA : ∀ x ∈ l, (alloc_node s
          ⟨hashv, rev32 hashv ||| 1, none, false, some payload⟩).heap x =
          s.heap x := by
        intro x hx
        rw [alloc_node_heap]
        exact hupd_ne _ _ _ _ (by have := hwf.fresh x hx; omega)
      have hcalloc : dataCount (alloc_node s
          ⟨hashv, rev32 hashv ||| 1, none, false, some payload⟩).heap l =
          dataCount s.heap l := dataCount_congr _ _ l hagA
      rw [alloc_node_n_items] at htrue hfalse
      rw [hcalloc] at htrue hfalse
      split at h
      · -- the key was already present: roll the allocation back
        rename_i hres
        rw [Option.some.injEq, Prod.mk.injEq] at h
        obtain ⟨hs', hr⟩ := h
        obtain ⟨hni, hcnt, hdhp, hdnotin⟩ := hfalse hres
        refine ⟨l2, ?_, ?_, ?_⟩
        · rw [← hs']
          exact wfl_free s2 l2 s.next_addr hwf2 hdnotin
        · intro htr
          rw [← hr] at htr
          simp at htr
        · intro _
          constructor
          · rw [← hs', free_node_n_items]
            exact hni
          · rw [← hs', free_node_heap]
            have hagf : ∀ x ∈ l2,
                hupd s2.heap s.next_addr none x = s2.heap x := by
              intro x hx
              exact hupd_ne _ _ _ _ (fun he => hdnotin (he ▸ hx))
            calc dataCount (hupd s2.heap s.next_addr none) l2
                = dataCount s2.heap l2 := dataCount_congr _ _ l2 hagf
              _ = dataCount s.heap l := hcnt
      · rename_i hres
        have hrest : result = true := by
          cases result with
          | false => exact absurd rfl hres
          | true => rfl
        obtain ⟨hni2, hcnt2⟩ := htrue hrest
        split at h
        · simp at h
        · split at h
          · simp at h
          · split at h
            · simp at h
            · rename_i a2 hwalk
              split at h
              · -- over the bucket-length threshold: grow or split
                split at h
                · simp at h
                · split at h
                  · -- double the table, then initialise the buddy bucket
                    split at h
                    · simp at h
                    · rename_i s3 hexp
                      obtain ⟨hwf3, hh3, hna3, hni3⟩ :=
                        expand_wf s2 s.size l2 s3 hwf2 hexp
                      split at h
                      · simp at h
                      · rename_i s4 hinit
                        obtain ⟨l4, hwf4, hext4, hna4, hpres4, hcnt4⟩ :=
                          initialise_bucket_wf fuel s3 _ l2 s4 hwf3 hinit
                        have hif := initialise_bucket_fields _ _ _ _ hinit
                        rw [Option.some.injEq, Prod.mk.injEq] at h
                        obtain ⟨hs', hr⟩ := h
                        refine ⟨l4, ?_, ?_, ?_⟩
                        · rw [← hs']
                          exact hwf4
                        · intro _
                          constructor
                          · rw [← hs', hif.2.2, hni3]
                            exact hni2
                          · rw [← hs', hcnt4]
                            rw [show s3.heap = s2.heap from hh3] at *
                            rw [dataCount_congr s2.heap s2.heap l2
                              (fun x _ => rfl)]
                            exact hcnt2
                        · intro hfl
                          rw [← hr] at hfl
                          simp at hfl
                  · -- split: initialise the half-way bucket on the same table
                    split at h
                    · simp at h
                    · rename_i s3 hinit
                      obtain ⟨l3, hwf3, hext3, hna3, hpres3, hcnt3⟩ :=
                        initialise_bucket_wf fuel s2 _ l2 s3 hwf2 hinit
                      have hif := initialise_bucket_fields _ _ _ _ hinit
                      rw [Option.some.injEq, Prod.mk.injEq] at h
                      obtain ⟨hs', hr⟩ := h
                      refine ⟨l3, ?_, ?_, ?_⟩
                      · rw [← hs']
                        exact hwf3
                      · intro _
                        constructor
                        · rw [← hs', hif.2.2]
                          exact hni2
                        · rw [← hs', hcnt3]
                          exact hcnt2
                      · intro hfl
                        rw [← hr] at hfl
                        simp at hfl
              · -- below the threshold: done
                rw [Option.some.injEq, Prod.mk.injEq] at h
                obtain ⟨hs', hr⟩ := h
                refine ⟨l2, ?_, ?_, ?_⟩
                · rw [← hs']
                  exact hwf2
                · intro _
                  rw [← hs']
                  exact ⟨hni2, hcnt2⟩
                · intro hfl
                  rw [← hr] at hfl
                  simp at hfl

/-- The retry loop of `delete_node` on a well-formed list: a miss leaves
the list unchanged; on a hit the marking CAS and the unlinking CAS cannot
fail sequentially, so the loop unlinks and frees exactly the found data
node in one iteration, decrementing the item count.  Removing an interior
node cannot disorder the chain. -/
theorem del_loop_wf (fuel0 hashv fuel : Nat) (s : SolState) (l : List Nat)
    (s2 : SolState) (res : Bool) (hwf : WFl s l)
    (h : del_loop fuel0 hashv fuel s = some (s2, res)) :
    ∃ l2, WFl s2 l2 ∧
      (res = true → s2.n_items = (s.n_items + U32 - 1) % U32 ∧
        dataCount s2.heap l2 + 1 = dataCount s.heap l) ∧
      (res = false → s2.n_items = s.n_items ∧
        dataCount s2.heap l2 = dataCount s.heap l) := by
  cases fuel with
  | zero => simp [del_loop] at h
  | succ fuel =>
    unfold del_loop at h
    split at h
    · simp at h
    · rename_i s1 a0 found hf
      obtain ⟨l1, hwf1, hext1, hna1, hpres1, hcount1, cu, cnd, hcur, hcu,
        hcnd, hnxt, hcmark, hckle, hfound, hsucc, hprevd⟩ :=
        find_node_wf fuel0 s hashv l s1 a0 found hwf hf
      have hff := find_node_fields _ _ _ _ _ _ hf
      split at h
      · -- not found: abort
        rename_i hresf
        rw [Option.some.injEq, Prod.mk.injEq] at h
        obtain ⟨hs1, hres⟩ := h
        rw [← hs1]
        refine ⟨l1, hwf1, ?_, ?_⟩
        · intro htr
          rw [← hres] at htr
          simp at htr
        · intro _
          exact ⟨hff.2.2, hcount1⟩
      · rename_i hresf
        have hfoundt : found = true := by
          cases found with
          | true => rfl
          | false => exact absurd rfl hresf
        have hkeq : cnd.key = sol_node_key hashv := hfound.mp hfoundt
        have hkodd : cnd.key % 2 = 1 := by
          rw [hkeq]
          exact sol_node_key_odd hashv
        have hprev : ∃ pu pnd, a0.prev = some pu ∧ pu ∈ l1 ∧
            s1.heap pu = some pnd ∧ pnd.next = some cu ∧ pnd.mark = false := by
          rcases hprevd with heven2 | hp
          · omega
          · exact hp
        obtain ⟨pu, pnd, hpu, hpul, hpnd, hpn, hpmark⟩ := hprev
        have hprcu : pu ≠ cu := by
          intro he
          rw [he] at hpnd
          have hpe : pnd = cnd := by
            rw [hcnd] at hpnd
            exact ((Option.some.injEq _ _).mp hpnd).symm
          rw [hpe] at hpn
          have := hsucc cu cnd (by rw [← hnxt]; exact hpn) hcnd
          omega
        split at h
        · rename_i hcz
          rw [hcz] at hcur
          simp at hcur
        · rename_i cu2 hcu2
          have hcue : cu2 = cu := by
            rw [hcur] at hcu2
            exact ((Option.some.injEq _ _).mp hcu2).symm
          rw [hcue] at h
          split at h
          · rename_i hcn
            rw [hcnd] at hcn
            simp at hcn
          · rename_i cnd1 hcn
            rw [hcnd] at hcn
            have hcnd1e : cnd1 = cnd := ((Option.some.injEq _ _).mp hcn).symm
            rw [hcnd1e] at h
            split at h
            · -- marking CAS "failed": impossible, the pointer still matches
              rename_i hguard
              exact absurd hnxt hguard
            · split at h
              · rename_i hpz
                rw [hpz] at hpu
                simp at hpu
              · rename_i pr hpr
                have hpre : pr = pu := by
                  rw [hpu] at hpr
                  exact ((Option.some.injEq _ _).mp hpr).symm
                rw [hpre] at h
                have hheappu : (set_node s1 cu
                    { cnd with next := a0.nxt, mark := true }).heap pu =
                    some pnd := by
                  rw [set_node_heap, hupd_ne _ _ _ _ hprcu]
                  exact hpnd
                split at h
                · rename_i hpq
                  rw [hheappu] at hpq
                  simp at hpq
                · rename_i pnd1 hpq
                  rw [hheappu] at hpq
                  have hpnd1e : pnd1 = pnd :=
                    ((Option.some.injEq _ _).mp hpq).symm
                  rw [hpnd1e] at h
                  split at h
                  · -- the unlink CAS succeeded: the node is gone
                    rw [Option.some.injEq, Prod.mk.injEq] at h
                    obtain ⟨hs2, hres⟩ := h
                    rw [← hnxt] at hs2
                    obtain ⟨L1, L2, hsplitD, hprcu2, hsegD, hnodupD,
                      hsortedD, hmemD, hkeysD, hkoldD⟩ :=
                      wfl_unlink s1 l1 pu cu pnd cnd hwf1 hpul hpnd hpn hcnd
                        s2.heap
                        (by
                          intro x
                          rw [← hs2, free_node_heap, dec_item_count_heap]
                          by_cases hxc : x = cu
                          · rw [hxc, hupd_self, if_pos rfl]
                          · rw [hupd_ne _ _ _ _ hxc, if_neg hxc]
                            simp only [set_node_heap]
                            by_cases hxp : x = pu
                            · rw [hxp, hupd_self, if_pos rfl]
                            · rw [hupd_ne _ _ _ _ hxp, if_neg hxp,
                                hupd_ne _ _ _ _ hxc])
                    have hbD : s2.buckets = s1.buckets := by
                      rw [← hs2]
                      simp
                    have hnaD : s2.next_addr = s1.next_addr := by
                      rw [← hs2]
                      simp
                    have hh2cu : s2.heap cu = none := by
                      rw [← hs2, free_node_heap, hupd_self]
                    have hh2pu : s2.heap pu =
                        some { pnd with next := cnd.next, mark := false } := by
                      rw [← hs2, free_node_heap, hupd_ne _ _ _ _ hprcu,
                        dec_item_count_heap, set_node_heap, hupd_self]
                    have hh2other : ∀ x, x ≠ cu → x ≠ pu →
                        s2.heap x = s1.heap x := by
                      intro x h1 h2
                      rw [← hs2, free_node_heap, hupd_ne _ _ _ _ h1,
                        dec_item_count_heap, set_node_heap,
                        hupd_ne _ _ _ _ h2, set_node_heap,
                        hupd_ne _ _ _ _ h1]
                    obtain ⟨b0, hb0, hsegl1⟩ := hwf1.bucket0
                    refine ⟨L1 ++ pu :: L2, ?_, ?_, ?_⟩
                    · refine ⟨⟨b0, ?_, ?_⟩, hnodupD, hsortedD, ?_, ?_, ?_, ?_, ?_⟩
                      · rw [hbD]
                        exact hb0
                      · exact hsegD b0 hb0
                      · -- unmarked
                        intro x hx
                        obtain ⟨hxl, hxc⟩ := (hmemD x).mp hx
                        by_cases hxp : x = pu
                        · rw [hxp]
                          exact ⟨_, hh2pu, rfl⟩
                        · obtain ⟨nd, hnd, hm⟩ := hwf1.unmarked x hxl
                          refine ⟨nd, ?_, hm⟩
                          rw [hh2other x hxc hxp]
                          exact hnd
                      · -- covered
                        intro i b hib
                        rw [hbD] at hib
                        obtain ⟨hbl, nd, hnd, hk⟩ := hwf1.covered i b hib
                        have hslot_lt : i < s1.buckets.length := by
                          by_contra hge
                          rw [List.getElem?_eq_none (by omega)] at hib
                          simp at hib
                        have hbne : b ≠ cu := by
                          intro he
                          rw [he] at hnd
                          have : nd = cnd := by
                            rw [hcnd] at hnd
                            exact ((Option.some.injEq _ _).mp hnd).symm
                          rw [this] at hk
                          have hev := covered_key_even s1 l1 hwf1 i hslot_lt
                          omega
                        refine ⟨(hmemD b).mpr ⟨hbl, hbne⟩, ?_⟩
                        by_cases hbp : b = pu
                        · rw [hbp]
                          refine ⟨_, hh2pu, ?_⟩
                          show pnd.key = rev32 i
                          rw [hbp] at hnd
                          have : nd = pnd := by
                            rw [hpnd] at hnd
                            exact ((Option.some.injEq _ _).mp hnd).symm
                          rw [← hk, this]
                        · refine ⟨nd, ?_, hk⟩
                          rw [hh2other b hbne hbp]
                          exact hnd
                      · -- dummies
                        intro x hx nd hnd hkeven
                        obtain ⟨hxl, hxc⟩ := (hmemD x).mp hx
                        rw [hbD]
                        by_cases hxp : x = pu
                        · have hnde : nd = { pnd with next := cnd.next, mark := false } := by
                            rw [hxp, hh2pu] at hnd
                            exact ((Option.some.injEq _ _).mp hnd).symm
                          obtain ⟨i, hib, hrev⟩ := hwf1.dummies x hxl pnd
                            (by rw [hxp]; exact hpnd)
                            (by rw [hnde] at hkeven; exact hkeven)
                          refine ⟨i, hib, ?_⟩
                          rw [hnde]
                          exact hrev
                        · rw [hh2other x hxc hxp] at hnd
                          exact hwf1.dummies x hxl nd hnd hkeven
                      · -- fresh
                        intro x hx
                        rw [hnaD]
                        exact hwf1.fresh x ((hmemD x).mp hx).1
                      · -- shape
                        obtain ⟨k, hk, hsz, hlen⟩ := hwf1.shape
                        refine ⟨k, hk, ?_, ?_⟩
                        · rw [← hs2]
                          simp only [free_node_size, dec_item_count_size,
                            set_node_size]
                          exact hsz
                        · rw [hbD]
                          rw [← hs2]
                          simp only [free_node_size, dec_item_count_size,
                            set_node_size]
                          exact hlen
                    · intro _
                      constructor
                      · rw [← hs2, free_node_n_items, dec_item_count_n_items]
                        simp only [set_node_n_items]
                        rw [hff.2.2]
                      · rw [← hcount1, dataCount, dataCount, hkeysD, hkoldD]
                        rw [List.countP_append, List.countP_append,
                          List.countP_cons, List.countP_cons, List.countP_cons]
                        simp [hkodd]
                        omega
                    · intro hfl
                      rw [← hres] at hfl
                      simp at hfl
                  · -- the unlink CAS "failed": impossible
                    rename_i hguard
                    refine absurd ⟨?_, hpmark⟩ hguard
                    rw [hcur]
                    exact hpn

/-- `delete_node` is the retry loop (its closing `zap()` only clears the
thread-local cursor). -/
theorem delete_node_wf (fuel : Nat) (s : SolState) (hashv : Nat)
    (l : List Nat) (s2 : SolState) (res : Bool) (hwf : WFl s l)
    (h : delete_node fuel s hashv = some (s2, res)) :
    ∃ l2, WFl s2 l2 ∧
      (res = true → s2.n_items = (s.n_items + U32 - 1) % U32 ∧
        dataCount s2.heap l2 + 1 = dataCount s.heap l) ∧
      (res = false → s2.n_items = s.n_items ∧
        dataCount s2.heap l2 = dataCount s.heap l) :=
  del_loop_wf fuel hashv fuel s l s2 res hwf h

/-- A freshly constructed table (the constructor allocates the head
sentinel at address 0 and stores it in `buckets[0]`) is well-formed, its
chain being the single sentinel dummy. -/
theorem wfl_mkSolist (k mbl : Nat) (hk : k ≤ 31) :
    WFl (mkSolist (2 ^ k) mbl) [0] := by
  have hlen : ((List.replicate (2 ^ k) none).set 0
      (some 0) : List (Option Nat)).length = 2 ^ k := by
    rw [List.length_set, List.length_replicate]
  have hpos : 0 < 2 ^ k := by positivity
  have hb0 : (mkSolist (2 ^ k) mbl).buckets[0]? = some (some 0) := by
    show ((List.replicate (2 ^ k) none).set 0 (some 0))[0]? = some (some 0)
    rw [List.getElem?_set_self (by rw [List.length_replicate]; exact hpos)]
  refine ⟨⟨0, hb0, by rfl⟩, by simp, ?_, ?_, ?_, ?_, ?_, ?_⟩
  · show List.Chain' _ (chain_keys _ [0])
    simp [chain_keys]
  · intro x hx
    simp at hx
    rw [hx]
    exact ⟨⟨0, 0, none, false, none⟩, rfl, rfl⟩
  · intro i b hib
    have hi0 : i = 0 := by
      by_contra hne
      by_cases hilt : i < 2 ^ k
      · rw [show (mkSolist (2 ^ k) mbl).buckets =
            (List.replicate (2 ^ k) none).set 0 (some 0) from rfl] at hib
        rw [List.getElem?_set_ne (Ne.symm hne)] at hib
        rw [List.getElem?_replicate_of_lt hilt] at hib
        simp at hib
      · rw [List.getElem?_eq_none (by
          show (mkSolist (2 ^ k) mbl).buckets.length ≤ i
          show ((List.replicate (2 ^ k) none).set 0 (some 0)).length ≤ i
          omega)] at hib
        simp at hib
    rw [hi0, hb0] at hib
    have hbe : b = 0 := by
      have h1 := (Option.some.injEq _ _).mp hib
      exact ((Option.some.injEq _ _).mp h1).symm
    rw [hi0, hbe]
    refine ⟨by simp, ⟨0, 0, none, false, none⟩, rfl, ?_⟩
    show (0 : Nat) = rev32 0
    show (0 : Nat) = revN 32 0
    rw [revN_zero]
  · intro x hx nd hnd _
    simp at hx
    rw [hx] at hnd
    have hnde : nd = ⟨0, 0, none, false, none⟩ :=
      ((Option.some.injEq _ _).mp hnd).symm
    refine ⟨0, by rw [hx]; exact hb0, ?_⟩
    rw [hnde]
    show rev32 0 = (0 : Nat)
    show revN 32 0 = (0 : Nat)
    rw [revN_zero]
  · intro x hx
    simp at hx
    rw [hx]
    show (0 : Nat) < 1
    omega
  · exact ⟨k, hk, rfl, hlen⟩

/-- C7: CONFIRMED.  Every list operation — `initialise_bucket`,
`insert_node` and `delete_node` — preserves the well-formedness invariant
`WFl` of the chain reachable from `buckets[0]`, and in particular the keys
along that chain stay strictly increasing: a new data node or dummy is
spliced only between a predecessor with a smaller key and a successor
with a larger key (or the list end), and unlinking a node cannot disorder
the chain. -/
theorem c7_ops_preserve_sorted_chain :
    (∀ fuel s slot l s', WFl s l →
      initialise_bucket fuel s slot = some s' →
      ∃ l', WFl s' l' ∧
        List.Chain' (fun a b => a < b) (chain_keys s'.heap l')) ∧
    (∀ fuel s hashv payload l s' r, WFl s l →
      insert_node fuel s hashv payload = some (s', r) →
      ∃ l', WFl s' l' ∧
        List.Chain' (fun a b => a < b) (chain_keys s'.heap l')) ∧
    (∀ fuel s hashv l s' r, WFl s l →
      delete_node fuel s hashv = some (s', r) →
      ∃ l', WFl s' l' ∧
        List.Chain' (fun a b => a < b) (chain_keys s'.heap l')) := by
  refine ⟨?_, ?_, ?_⟩
  · intro fuel s slot l s' hwf h
    obtain ⟨l', hwf', -⟩ := initialise_bucket_wf fuel s slot l s' hwf h
    exact ⟨l', hwf', hwf'.sorted⟩
  · intro fuel s hashv payload l s' r hwf h
    obtain ⟨l', hwf', -⟩ := insert_node_wf fuel s hashv payload l s' r hwf h
    exact ⟨l', hwf', hwf'.sorted⟩
  · intro fuel s hashv l s' r hwf h
    obtain ⟨l', hwf', -⟩ := delete_node_wf fuel s hashv l s' r hwf h
    exact ⟨l', hwf', hwf'.sorted⟩

/-- The state after lazily initialising bucket 2 of a fresh 4-bucket
table. -/
def c7_ib : SolState :=
  (initialise_bucket 30 (mkSolist 4 4) 2).getD (mkSolist 1 1)

theorem c7_ops_preserve_sorted_chain_witness :
    (∃ l', WFl c7_ib l' ∧
      List.Chain' (fun a b => a < b) (chain_keys c7_ib.heap l')) ∧
    (∃ l', WFl c2_s0 l' ∧
      List.Chain' (fun a b => a < b) (chain_keys c2_s0.heap l')) ∧
    (∃ l', WFl c2_s1 l' ∧
      List.Chain' (fun a b => a < b) (chain_keys c2_s1.heap l')) := by
  have hw4 : WFl (mkSolist 4 4) [0] := by
    have := wfl_mkSolist 2 4 (by omega)
    have he : (2 : Nat) ^ 2 = 4 := by norm_num
    rw [he] at this
    exact this
  have hw2 : WFl (mkSolist 2 4) [0] := by
    have := wfl_mkSolist 1 4 (by omega)
    have he : (2 : Nat) ^ 1 = 2 := by norm_num
    rw [he] at this
    exact this
  have h1 := c7_ops_preserve_sorted_chain.1 30 (mkSolist 4 4) 2 [0] c7_ib
    hw4 (by rfl)
  have h2 := c7_ops_preserve_sorted_chain.2.1 30 (mkSolist 2 4) 0 42 [0]
    c2_s0 true hw2 (by rfl)
  obtain ⟨l2, hwfs0, hsort0⟩ := h2
  have h3 := c7_ops_preserve_sorted_chain.2.2 30 c2_s0 0 l2 c2_s1 true
    hwfs0 (by rfl)
  exact ⟨h1, ⟨l2, hwfs0, hsort0⟩, h3⟩

/-- C8: CONFIRMED.  `n_items` (a 32-bit counter) always equals the number
of data nodes (odd key, i.e. DATABIT set) reachable from `buckets[0]`,
as a `uint32` value (i.e. modulo `2^32`): the invariant holds for the
freshly constructed table, every successful `insert_node` adds exactly
one reachable data node and increments `n_items` by one, every successful
`delete_node` removes exactly one and decrements it by one, and misses
change neither. -/
theorem c8_n_items_tracks_data_count :
    (∀ k mbl, k ≤ 31 →
      WFl (mkSolist (2 ^ k) mbl) [0] ∧
      (mkSolist (2 ^ k) mbl).n_items =
        dataCount (mkSolist (2 ^ k) mbl).heap [0] % U32) ∧
    (∀ fuel s hashv payload l s' r, WFl s l →
      s.n_items = dataCount s.heap l % U32 →
      insert_node fuel s hashv payload = some (s', r) →
      ∃ l', WFl s' l' ∧
        s'.n_items = dataCount s'.heap l' % U32 ∧
        (r = true → dataCount s'.heap l' = dataCount s.heap l + 1) ∧
        (r = false → dataCount s'.heap l' = dataCount s.heap l)) ∧
    (∀ fuel s hashv l s' r, WFl s l →
      s.n_items = dataCount s.heap l % U32 →
      delete_node fuel s hashv = some (s', r) →
      ∃ l', WFl s' l' ∧
        s'.n_items = dataCount s'.heap l' % U32 ∧
        (r = true → dataCount s'.heap l' + 1 = dataCount s.heap l) ∧
        (r = false → dataCount s'.heap l' = dataCount s.heap l)) := by
  have hU : U32 = 4294967296 := rfl
  refine ⟨?_, ?_, ?_⟩
  · intro k mbl hk
    refine ⟨wfl_mkSolist k mbl hk, ?_⟩
    show (0 : Nat) = dataCount (mkSolist (2 ^ k) mbl).heap [0] % U32
    rfl
  · intro fuel s hashv payload l s' r hwf hitems h
    obtain ⟨l', hwf', htrue, hfalse⟩ :=
      insert_node_wf fuel s hashv payload l s' r hwf h
    refine ⟨l', hwf', ?_, fun htr => (htrue htr).2, fun hfl => (hfalse hfl).2⟩
    cases r with
    | true =>
      obtain ⟨hni, hcnt⟩ := htrue rfl
      rw [hni, hcnt, hitems, hU]
      omega
    | false =>
      obtain ⟨hni, hcnt⟩ := hfalse rfl
      rw [hni, hcnt, hitems]
  · intro fuel s hashv l s' r hwf hitems h
    obtain ⟨l', hwf', htrue, hfalse⟩ :=
      delete_node_wf fuel s hashv l s' r hwf h
    refine ⟨l', hwf', ?_, fun htr => (htrue htr).2, fun hfl => (hfalse hfl).2⟩
    cases r with
    | true =>
      obtain ⟨hni, hcnt⟩ := htrue rfl
      rw [hni, hitems, ← hcnt, hU]
      omega
    | false =>
      obtain ⟨hni, hcnt⟩ := hfalse rfl
      rw [hni, hcnt, hitems]

theorem c8_n_items_tracks_data_count_witness :
    ∃ l', WFl c2_s0 l' ∧
      c2_s0.n_items = dataCount c2_s0.heap l' % U32 ∧
      (true = true →
        dataCount c2_s0.heap l' = dataCount (mkSolist 2 4).heap [0] + 1) ∧
      (true = false →
        dataCount c2_s0.heap l' = dataCount (mkSolist 2 4).heap [0]) := by
  have h1 := c8_n_items_tracks_data_count.1 1 4 (by omega)
  have he : (2 : Nat) ^ 1 = 2 := by norm_num
  rw [he] at h1
  exact c8_n_items_tracks_data_count.2.1 30 (mkSolist 2 4) 0 42 [0] c2_s0
    true h1.1 h1.2 (by rfl)
